import Mathlib

/-!
# DSA games: Sudoku generator/solver and route-finder Dijkstra

A shallow embedding of `src/sudoku/dataStructures.js`, `src/sudoku/sudoku.js`
and `src/routefinder/data-structures.js`, followed by the properties proved
about them.

Conventions of the embedding.

* A 9x9 JavaScript array of arrays is a function `Fin 9 → Fin 9 → Nat`
  (`0` is the empty cell).  `copyGrid` builds fresh arrays, so grids are
  values and the globals of `sudoku.js` are the fields of one record `Game`.
* `Math.random()` is a stream `rnd : Nat → Nat` read through a counter; the
  draw `Math.floor(Math.random() * (i + 1))` is `rnd k % (i + 1)`, so every
  outcome `0..i` is some stream's value.
* Recursion that JavaScript runs on its call stack takes a fuel argument and
  returns `none` when fuel runs out; totality theorems give the fuel that
  suffices.
-/

namespace Sudoku

/-! ## `dataStructures.js`: class `SudokuBoard` -/

/-- A 9x9 grid of numbers, `0` meaning empty. -/
abbrev Grid := Fin 9 → Fin 9 → Nat

/-- The constructor's grid: `new Array(9).fill(0)` nine times. -/
def emptyGrid : Grid := fun _ _ => 0

/-- Class `SudokuBoard`: the working grid and the original puzzle. -/
structure SudokuBoard where
  grid : Grid
  originalGrid : Grid

/-- The state built by `constructor()`. -/
def SudokuBoard.new : SudokuBoard := { grid := emptyGrid, originalGrid := emptyGrid }

/-- The cells in the order of the nested loops `for row … for col …`. -/
def allPositions : List (Fin 9 × Fin 9) :=
  (List.finRange 9).flatMap fun r => (List.finRange 9).map fun c => (r, c)

/-- Top-left coordinate of the box: `Math.floor(i / 3) * 3`. -/
def boxStart (i : Fin 9) : Nat := i.val / 3 * 3

/-- Cell number `d` (0, 1, 2) of the box range that starts at `boxStart i`. -/
def boxIdx (i : Fin 9) (d : Fin 3) : Fin 9 :=
  ⟨boxStart i + d.val, by have h1 := i.isLt; have h2 := d.isLt; unfold boxStart; omega⟩

namespace SudokuBoard

/-- Method `isValid(row, col, num)`: the row loop, the column loop and the
nested box loop, each skipping the cell `(row, col)` itself. -/
def isValid (b : SudokuBoard) (row col : Fin 9) (num : Nat) : Bool :=
  if (List.finRange 9).any (fun c => c != col && b.grid row c == num) then false
  else if (List.finRange 9).any (fun r => r != row && b.grid r col == num) then false
  else if (List.finRange 3).any (fun dr => (List.finRange 3).any (fun dc =>
      (boxIdx row dr != row || boxIdx col dc != col)
        && b.grid (boxIdx row dr) (boxIdx col dc) == num)) then false
  else true

/-- Method `findEmpty()`: the first cell holding `0` in row-major order, or
`none` for `null`. -/
def findEmpty (b : SudokuBoard) : Option (Fin 9 × Fin 9) :=
  allPositions.find? fun p => b.grid p.1 p.2 == 0

/-- Method `setValue(row, col, value)`. -/
def setValue (b : SudokuBoard) (row col : Fin 9) (value : Nat) : SudokuBoard :=
  { b with grid := fun r c => if r = row ∧ c = col then value else b.grid r c }

/-- Method `getValue(row, col)`. -/
def getValue (b : SudokuBoard) (row col : Fin 9) : Nat := b.grid row col

/-- Method `clear()`. -/
def clear (b : SudokuBoard) : SudokuBoard := { b with grid := fun _ _ => 0 }

/-- Method `copyGrid()`: a fresh array of fresh rows with the same cells. -/
def copyGrid (b : SudokuBoard) : Grid := fun r c => b.grid r c

/-- Method `loadGrid(gridData)`. -/
def loadGrid (b : SudokuBoard) (gridData : Grid) : SudokuBoard :=
  { b with grid := fun r c => gridData r c }

/-- Method `saveAsOriginal()`. -/
def saveAsOriginal (b : SudokuBoard) : SudokuBoard :=
  { b with originalGrid := fun r c => b.grid r c }

/-- Method `isOriginal(row, col)`. -/
def isOriginal (b : SudokuBoard) (row col : Fin 9) : Bool := b.originalGrid row col != 0

/-- Method `resetToOriginal()`. -/
def resetToOriginal (b : SudokuBoard) : SudokuBoard :=
  { b with grid := fun r c => b.originalGrid r c }

/-- Method `isFull()`. -/
def isFull (b : SudokuBoard) : Bool := allPositions.all fun p => b.grid p.1 p.2 != 0

/-- Method `countEmpty()`. -/
def countEmpty (b : SudokuBoard) : Nat := allPositions.countP fun p => b.grid p.1 p.2 == 0

end SudokuBoard

/-! ## `sudoku.js`: generator and solver -/

/-- The keys of the `DIFFICULTY` table. -/
inductive Difficulty
  | easy
  | medium
  | hard
  deriving DecidableEq

/-- Constant `DIFFICULTY`: the number of cells to remove. -/
def DIFFICULTY : Difficulty → Nat
  | .easy => 35
  | .medium => 45
  | .hard => 55

/-- The values of the global `gameState`. -/
inductive GameState
  | waiting
  | playing
  | solving
  | complete
  deriving DecidableEq

/-- The globals of `sudoku.js` that the game logic reads and writes. -/
structure Game where
  board : SudokuBoard
  solution : Option Grid
  selectedCell : Option (Fin 9 × Fin 9)
  score : Int
  checksUsed : Nat
  hintsUsed : Nat
  gameState : GameState
  currentDifficulty : Difficulty
  isSolving : Bool

/-- The destructuring swap `[arr[i], arr[j]] = [arr[j], arr[i]]`. -/
def swap {α : Type} (arr : List α) (i j : Nat) : List α :=
  match arr[i]?, arr[j]? with
  | some a, some b => (arr.set i b).set j a
  | _, _ => arr

/-- The loop of `shuffleArray`, entered with `i + 1` counting down to `1`;
`k` counts the calls of `Math.random()` made so far. -/
def shuffleLoop {α : Type} (rnd : Nat → Nat) : Nat → List α → Nat → List α × Nat
  | 0, arr, k => (arr, k)
  | i + 1, arr, k => shuffleLoop rnd i (swap arr (i + 1) (rnd k % (i + 2))) (k + 1)

/-- Function `shuffleArray(array)`: Fisher-Yates on a copy of the array. -/
def shuffleArray {α : Type} (rnd : Nat → Nat) (array : List α) (k : Nat) : List α × Nat :=
  shuffleLoop rnd (array.length - 1) array k

/-- The result of one run of the backtracking generator: the returned
boolean, the board it leaves and the random counter. -/
abbrev FillResult := Bool × SudokuBoard × Nat

/-- The loop `for (const num of numbers)` of `fillBoard`; `recur` is the
recursive call `fillBoard()`. -/
def fillLoop (recur : SudokuBoard → Nat → Option FillResult) (row col : Fin 9) :
    List Nat → SudokuBoard → Nat → Option FillResult
  | [], b, k => some (false, b, k)
  | num :: rest, b, k =>
    if b.isValid row col num then
      match recur (b.setValue row col num) k with
      | none => none
      | some (true, b1, k1) => some (true, b1, k1)
      | some (false, b1, k1) => fillLoop recur row col rest (b1.setValue row col 0) k1
    else fillLoop recur row col rest b k

/-- Function `fillBoard()` on the global `board`, with recursion depth
bounded by the fuel. -/
def fillBoard (rnd : Nat → Nat) : Nat → SudokuBoard → Nat → Option FillResult
  | 0, _, _ => none
  | fuel + 1, b, k =>
    match b.findEmpty with
    | none => some (true, b, k)
    | some (row, col) =>
      let numbers := shuffleArray rnd [1, 2, 3, 4, 5, 6, 7, 8, 9] k
      fillLoop (fillBoard rnd fuel) row col numbers.1 b numbers.2

/-- The loop `for (const pos of shuffled)` of `removeCells`. -/
def removeLoop (count : Nat) : List (Fin 9 × Fin 9) → Nat → SudokuBoard → SudokuBoard
  | [], _, b => b
  | pos :: rest, removed, b =>
    if removed ≥ count then b
    else removeLoop count rest (removed + 1) (b.setValue pos.1 pos.2 0)

/-- Function `removeCells(count)` on the global `board`. -/
def removeCells (rnd : Nat → Nat) (count : Nat) (s : Game) (k : Nat) : Game × Nat :=
  let shuffled := shuffleArray rnd allPositions k
  ({ s with board := removeLoop count shuffled.1 0 s.board }, shuffled.2)

/-- Function `generatePuzzle()`: clear, fill, save the solution, remove
cells, save the original.  `none` only if `fillBoard` runs out of fuel. -/
def generatePuzzle (rnd : Nat → Nat) (fuel : Nat) (s : Game) (k : Nat) : Option (Game × Nat) :=
  let s1 := { s with board := s.board.clear }
  match fillBoard rnd fuel s1.board k with
  | none => none
  | some (_, b2, k2) =>
    let s2 := { s1 with board := b2 }
    let s3 := { s2 with solution := some s2.board.copyGrid }
    let cellsToRemove := DIFFICULTY s3.currentDifficulty
    let r := removeCells rnd cellsToRemove s3 k2
    some ({ r.1 with board := r.1.board.saveAsOriginal }, r.2)

/-- The `type` field of a recorded solve step. -/
inductive StepType
  | try_
  | place
  | backtrack
  deriving DecidableEq

/-- One entry of the `steps` array. -/
structure Step where
  type : StepType
  row : Fin 9
  col : Fin 9
  num : Nat
  deriving DecidableEq

/-- The result of one run of the recording solver: the returned boolean, the
board it leaves and the steps recorded so far. -/
abbrev SolveResult := Bool × SudokuBoard × List Step

/-- The loop `for (let num = 1; num <= 9; num++)` of `solveRecursive`, over
the values of `num` still to come; `recur` is the recursive call. -/
def solveLoop (recur : SudokuBoard → List Step → Option SolveResult) (row col : Fin 9) :
    List Nat → SudokuBoard → List Step → Option SolveResult
  | [], b, steps => some (false, b, steps)
  | num :: rest, b, steps =>
    let steps1 := steps ++ [{ type := .try_, row := row, col := col, num := num }]
    if b.isValid row col num then
      let b1 := b.setValue row col num
      let steps2 := steps1 ++ [{ type := .place, row := row, col := col, num := num }]
      match recur b1 steps2 with
      | none => none
      | some (true, b2, steps3) => some (true, b2, steps3)
      | some (false, b2, steps3) =>
        solveLoop recur row col rest (b2.setValue row col 0)
          (steps3 ++ [{ type := .backtrack, row := row, col := col, num := 0 }])
    else solveLoop recur row col rest b steps1

/-- Function `solveRecursive(tempBoard, steps)`, with recursion depth bounded
by the fuel. -/
def solveRecursive : Nat → SudokuBoard → List Step → Option SolveResult
  | 0, _, _ => none
  | fuel + 1, tempBoard, steps =>
    match tempBoard.findEmpty with
    | none => some (true, tempBoard, steps)
    | some (row, col) =>
      solveLoop (solveRecursive fuel) row col [1, 2, 3, 4, 5, 6, 7, 8, 9] tempBoard steps

/-- Function `generateSolveSteps(grid, steps)`: load the grid into a new
board and run the solver on it. -/
def generateSolveSteps (fuel : Nat) (grid : Grid) (steps : List Step) : Option SolveResult :=
  solveRecursive fuel (SudokuBoard.new.loadGrid grid) steps

/-! ## Notions used to state the properties of the Sudoku code -/

/-- Two different cells that share a row, a column or a box. -/
def Peer (r c r' c' : Fin 9) : Prop :=
  (r' ≠ r ∨ c' ≠ c) ∧ (r' = r ∨ c' = c ∨ (r'.val / 3 = r.val / 3 ∧ c'.val / 3 = c.val / 3))

/-- Every non-empty cell of `g` holds the same value in `S`. -/
def Agrees (g S : Grid) : Prop := ∀ r c, g r c ≠ 0 → S r c = g r c

/-- No non-empty cell has its value repeated in its row, column or box. -/
def NoClash (g : Grid) : Prop := ∀ r c r' c', Peer r c r' c' → g r c ≠ 0 → g r' c' ≠ g r c

/-- No cell is empty. -/
def Full (g : Grid) : Prop := ∀ r c, g r c ≠ 0

/-- Every cell holds at most 9. -/
def InRange (g : Grid) : Prop := ∀ r c, g r c ≤ 9

/-- A complete grid with row, column and box uniqueness. -/
def IsSolution (S : Grid) : Prop := Full S ∧ InRange S ∧ NoClash S

/-- What a finished run of the backtracking search guarantees: on `false`
the board is back to what it was and no solution contains it; on `true` the
board is full, keeps the cells it had, and stays free of clashes and in
range if it was. -/
def Post (b : SudokuBoard) (r : Bool) (b' : SudokuBoard) : Prop :=
  (r = false → b' = b ∧ ∀ S, IsSolution S → ¬ Agrees b.grid S) ∧
  (r = true → b'.originalGrid = b.originalGrid ∧ Full b'.grid ∧ Agrees b.grid b'.grid ∧
    (NoClash b.grid → NoClash b'.grid) ∧ (InRange b.grid → InRange b'.grid))

/-- The same for the loop over the candidate numbers of one cell: on `false`
no solution has one of the candidates in that cell. -/
def LoopPost (row col : Fin 9) (nums : List Nat) (b : SudokuBoard) (r : Bool)
    (b' : SudokuBoard) : Prop :=
  (r = false → b' = b ∧ ∀ S, IsSolution S → Agrees b.grid S → S row col ∉ nums) ∧
  (r = true → b'.originalGrid = b.originalGrid ∧ Full b'.grid ∧ Agrees b.grid b'.grid ∧
    (NoClash b.grid → NoClash b'.grid) ∧ (InRange b.grid → InRange b'.grid))

/-- A complete grid with row, column and box uniqueness (rows are cyclic
shifts of `1..9` by 0, 3, 6, 1, 4, 7, 2, 5, 8). -/
def sampleSolution : Grid := fun r c => (3 * (r.val % 3) + r.val / 3 + c.val) % 9 + 1

/-- Row, column and box uniqueness: two different cells of one row, of one
column or of one box never hold the same value. -/
def Unique (g : Grid) : Prop :=
  (∀ r c c', c ≠ c' → g r c ≠ g r c') ∧ (∀ c r r', r ≠ r' → g r c ≠ g r' c) ∧
  (∀ r c r' c', r.val / 3 = r'.val / 3 → c.val / 3 = c'.val / 3 → (r ≠ r' ∨ c ≠ c') →
    g r c ≠ g r' c')

/-- Cell number `d` of box number `b` along one axis: `3 * b + d`. -/
def boxCell (b d : Fin 3) : Fin 9 :=
  ⟨3 * b.val + d.val, by have h1 := b.isLt; have h2 := d.isLt; omega⟩

/-- Every cell holds a digit `1..9`, and every digit occurs exactly once in
every row, every column and every 3x3 box. -/
def EachDigitOnce (g : Grid) : Prop :=
  (∀ r c, 1 ≤ g r c ∧ g r c ≤ 9) ∧
  ∀ d, 1 ≤ d → d ≤ 9 →
    (∀ r, ∃! c, g r c = d) ∧ (∀ c, ∃! r, g r c = d) ∧
    (∀ br bc : Fin 3, ∃! p : Fin 3 × Fin 3, g (boxCell br p.1) (boxCell bc p.2) = d)

/-- The row arrays that exist, listed by address. -/
abbrev RowHeap := List (Fin 9 → Nat)

/-- A 9x9 array of arrays as JavaScript holds it: the addresses of its nine
row arrays. -/
abbrev GridRef := Fin 9 → Nat

/-- The cells read through the row addresses (`grid[r][c]`). -/
def readGrid (h : RowHeap) (gr : GridRef) : Grid := fun r c => (h.getD (gr r) (fun _ => 0)) c

/-- Method `copyGrid()` on row addresses: `copy.push([])` allocates a fresh
row for each `row`, filled by `copy[row].push(this.grid[row][col])`. -/
def copyGridRef (h : RowHeap) (gr : GridRef) : RowHeap × GridRef :=
  (h ++ List.ofFn (fun r : Fin 9 => readGrid h gr r), fun r => h.length + r.val)

/-- Method `setValue(row, col, value)` on row addresses: the assignment
`this.grid[row][col] = value` writes into the row array at `gr row`. -/
def setValueRef (h : RowHeap) (gr : GridRef) (row col : Fin 9) (value : Nat) : RowHeap :=
  h.set (gr row) (fun c => if c = col then value else readGrid h gr row c)

/-- The loop of `removeCells` on row addresses. -/
def removeLoopRef (gr : GridRef) (count : Nat) : List (Fin 9 × Fin 9) → Nat → RowHeap → RowHeap
  | [], _, h => h
  | pos :: rest, removed, h =>
    if removed ≥ count then h
    else removeLoopRef gr count rest (removed + 1) (setValueRef h gr pos.1 pos.2 0)

/-- Function `removeCells(count)` on row addresses, for the board whose rows
are at `gr`. -/
def removeCellsRef (rnd : Nat → Nat) (count : Nat) (h : RowHeap) (gr : GridRef) (k : Nat) :
    RowHeap :=
  removeLoopRef gr count (shuffleArray rnd allPositions k).1 0 h

/-- The state `startNewGame()` sets up before it generates the puzzle. -/
def freshGame : Game :=
  { board := SudokuBoard.new, solution := none, selectedCell := none, score := 1000,
    checksUsed := 0, hintsUsed := 0, gameState := .playing, currentDifficulty := .medium,
    isSolving := false }

end Sudoku

/-! ## `routefinder/data-structures.js`: the graph and `dijkstra` -/

namespace RouteFinder

/-- The values the `dist` object yields: a number, `Infinity`, or `undefined`
when the key is absent.  Numbers are non-negative and are counted in units
of `2^(-places)`, where `places`, at most 1074, is fixed for a run of
`dijkstra`: `num n` is the number `n * 2^(-places)`.  With `places = 0` the
numbers are the integers; with `places = 1074` every non-negative finite
double is a whole number of units.  Every `num` that `dijkstra` stores is `0`
or a result of `toDouble`, hence a double. -/
inductive JSNum
  | undefined
  | infinity
  | num (n : Nat)
  deriving DecidableEq

/-- The number of times `n` is halved until it has at most 53 binary digits:
the exponent of the last place of the double nearest to `n`.  The first
argument bounds the number of halvings; `n` itself is always enough. -/
def halvings : Nat → Nat → Nat
  | 0, _ => 0
  | fuel + 1, n => if n < 2 ^ 53 then 0 else halvings fuel (n / 2) + 1

/-- The double nearest to the number of `n` units: `n` itself below `2^53`
(a number `n * 2^(-places)` with `n < 2^53` and `places ≤ 1074` is a double);
above, `n` rounded to 53 significant binary digits, a tie going to the even
significand.  The last place of the largest double is `2^971`, that is
`2^(971 + places)` units, so the rounded value is `Infinity` when its last
place would lie above that or it would be `2^53 * 2^971 = 2^1024`.  This is
the value of a numeric literal that denotes `n` units, and of an arithmetic
operation whose exact result is `n` units. -/
def toDouble (places : Fin 1075) (n : Nat) : JSNum :=
  if n < 2 ^ 53 then .num n
  else
    let e := halvings n n
    let q := n / 2 ^ e
    let r := n % 2 ^ e
    let half := 2 ^ (e - 1)
    let m := if r < half then q else if half < r then q + 1 else if q % 2 = 0 then q else q + 1
    if 971 + places.val < e ∨ (e = 971 + places.val ∧ m = 2 ^ 53) then .infinity
    else .num (m * 2 ^ e)

/-- JavaScript `a < b`: false as soon as one side is `undefined`. -/
def JSNum.lt : JSNum → JSNum → Bool
  | .num a, .num b => a < b
  | .num _, .infinity => true
  | _, _ => false

/-- JavaScript `a + w` for a weight written as `w` units: the exact sum of
the two doubles, rounded to the nearest double.  `undefined + w` is `NaN`,
which compares false like `undefined`. -/
def JSNum.add (places : Fin 1075) : JSNum → Nat → JSNum
  | .num a, w =>
    match toDouble places w with
    | .num w' => toDouble places (a + w')
    | _ => .infinity
  | .infinity, _ => .infinity
  | .undefined, _ => .undefined

/-- An adjacency list: an object whose keys are nodes and whose values are
objects `{neighbor: weight}`, both in enumeration order.  A weight is written
as a number of units `2^(-places)` and stands for the double nearest to it. -/
abbrev Graph (α : Type) := List (α × List (α × Nat))

/-- Constant `graph`: the shipped six-node graph, its weights in units of
`1` (`places = 0`). -/
def graph : Graph String :=
  [("A", [("B", 2), ("C", 7)]),
   ("B", [("A", 2), ("C", 5), ("D", 3)]),
   ("C", [("A", 7), ("B", 5), ("D", 8), ("F", 4)]),
   ("D", [("B", 3), ("C", 8), ("E", 1)]),
   ("E", [("D", 1), ("F", 2)]),
   ("F", [("C", 4), ("E", 2)])]

section
variable {α : Type} [DecidableEq α]

/-- The keys of the graph, `Object.keys(graph)`. -/
def keys (g : Graph α) : List α := g.map Prod.fst

/-- The neighbours object `graph[u]`; an absent key gives `undefined`, over
which `for … in` does not iterate. -/
def adj (g : Graph α) (u : α) : List (α × Nat) := (g.lookup u).getD []

/-- The weight `graph[u][v]`. -/
def weight (g : Graph α) (u v : α) : Option Nat := (adj g u).lookup v

/-- The locals of `dijkstra`: the keys of `dist` in enumeration order, the
values of `dist` and `prev`, and the set `visited` in insertion order.  A key
that was never written reads as `undefined` (`none` for `prev`): node names
are taken to be ordinary property names, not names of members of
`Object.prototype` such as `__proto__`, which is no key of an object literal
either. -/
structure State (α : Type) where
  distKeys : List α
  dist : α → JSNum
  prev : α → Option α
  visited : List α

/-- The state before the main loop: every key of the graph at `Infinity`
with `prev` null, then `dist[start] = 0`.  A `start` that is no key of the
graph becomes a new key of `dist`; it is listed last here, and its place in
the enumeration changes nothing, since it is then the only node of finite
distance and has no neighbours. -/
def init (g : Graph α) (start : α) : State α :=
  { distKeys := if start ∈ keys g then keys g else keys g ++ [start]
    dist := fun n => if n = start then .num 0 else if n ∈ keys g then .infinity else .undefined
    prev := fun _ => none
    visited := [] }

/-- The loop `for (let n in dist)` that looks for the unvisited node of
minimum distance, carrying `curr` and `min`. -/
def scanMin (st : State α) : List α → Option α × JSNum → Option α × JSNum
  | [], acc => acc
  | n :: rest, acc =>
    if n ∉ st.visited ∧ (st.dist n).lt acc.2 = true then scanMin st rest (some n, st.dist n)
    else scanMin st rest acc

/-- The scan started from `curr = null`, `min = Infinity`. -/
def findMin (st : State α) : Option α × JSNum := scanMin st st.distKeys (none, .infinity)

/-- The call `visited.add(curr)` on a set kept in insertion order. -/
def setAdd (visited : List α) (curr : α) : List α :=
  if curr ∈ visited then visited else visited ++ [curr]

/-- The body of the relaxation loop for one `neighbor` of `curr`. -/
def relaxStep (places : Fin 1075) (g : Graph α) (curr : α) (st : State α) (neighbor : α) :
    State α :=
  if neighbor ∉ st.visited then
    match weight g curr neighbor with
    | some w =>
      let newDist := (st.dist curr).add places w
      if newDist.lt (st.dist neighbor) = true then
        { st with dist := Function.update st.dist neighbor newDist
                  prev := Function.update st.prev neighbor (some curr) }
      else st
    | none => st
  else st

/-- The loop `for (let neighbor in graph[curr])`. -/
def relax (places : Fin 1075) (g : Graph α) (curr : α) (st : State α) : State α :=
  ((adj g curr).map Prod.fst).foldl (relaxStep places g curr) st

/-- The main `while` loop; one unit of fuel is used each time the body is
entered. -/
def mainLoop (places : Fin 1075) (g : Graph α) : Nat → State α → Option (State α)
  | fuel, st =>
    if st.visited.length < (keys g).length then
      match fuel with
      | 0 => none
      | fuel + 1 =>
        match (findMin st).1 with
        | none => some st
        | some curr =>
          if st.dist curr = .infinity then some st
          else
            mainLoop places g fuel
              (relax places g curr { st with visited := setAdd st.visited curr })
    else some st

/-- The loop `while (temp) { path.unshift(temp); temp = prev[temp]; }`; one
unit of fuel is used each time the body is entered.  The test `temp` fails on
`null` and `undefined` (here `none`) and on a node name that is falsy, which
`truthy` decides. -/
def walk (truthy : α → Bool) (prev : α → Option α) : Nat → Option α → List α → Option (List α)
  | _, none, path => some path
  | fuel, some temp, path =>
    if truthy temp = true then
      match fuel with
      | 0 => none
      | fuel + 1 => walk truthy prev fuel (prev temp) (temp :: path)
    else some path

/-- The object `{ path, distance }` that `dijkstra` returns. -/
structure Route (α : Type) where
  path : List α
  distance : JSNum
  deriving DecidableEq

/-- Function `dijkstra(start, end)` on the graph `g`, numbers being counted
in units of `2^(-places)` and node names being truthy as `truthy` says; `none`
only when a loop runs out of fuel. -/
def dijkstra (places : Fin 1075) (truthy : α → Bool) (g : Graph α) (fuel : Nat)
    (start end_ : α) : Option (Route α) :=
  match mainLoop places g fuel (init g start) with
  | none => none
  | some st =>
    match walk truthy st.prev fuel (some end_) [] with
    | none => none
    | some path => some { path := path, distance := st.dist end_ }

/-- The sum of the edge weights along a list of nodes; `none` when two
consecutive nodes are not joined by an edge or the list is empty. -/
def pathCost (g : Graph α) : List α → Option Nat
  | [] => none
  | [_] => some 0
  | u :: v :: rest =>
    match weight g u v, pathCost g (v :: rest) with
    | some w, some c => some (w + c)
    | _, _ => none

/-- The list `p` is a path from `s` to `t` whose edge weights sum to `d`. -/
def IsPath (g : Graph α) (s t : α) (p : List α) (d : Nat) : Prop :=
  p.head? = some s ∧ p.getLast? = some t ∧ pathCost g p = some d

/-! ## Notions used to state the properties of `dijkstra` -/

/-- What the scan has established so far. -/
def ScanOk (st : State α) (seen : List α) (acc : Option α × JSNum) : Prop :=
  (∀ n ∈ seen, n ∉ st.visited → (st.dist n).lt acc.2 = false) ∧
  ((acc.1 = none ∧ acc.2 = .infinity) ∨
    ∃ x a, acc.1 = some x ∧ acc.2 = .num a ∧ x ∈ seen ∧ x ∉ st.visited ∧ st.dist x = .num a)

/-- How relaxing the edges out of `curr` (at distance `a`) may change a
state: each node keeps its entries, or it is an unvisited neighbour whose
distance dropped to the number `a + w` (as JavaScript computes it) with `curr`
as predecessor. -/
structure RelaxRel (places : Fin 1075) (g : Graph α) (curr : α) (a : Nat)
    (st st' : State α) : Prop where
  visited_eq : st'.visited = st.visited
  keys_eq : st'.distKeys = st.distKeys
  change : ∀ v, (st'.dist v = st.dist v ∧ st'.prev v = st.prev v) ∨
    (v ∉ st.visited ∧ ∃ w b, weight g curr v = some w ∧
      (JSNum.num a).add places w = .num b ∧
      st'.dist v = .num b ∧ st'.prev v = some curr ∧ (JSNum.num b).lt (st.dist v) = true)

/-- The invariant of the main loop that holds whatever the weights are. -/
structure Inv (g : Graph α) (start : α) (st : State α) : Prop where
  keys_eq : st.distKeys = (init g start).distKeys
  defined : ∀ n, st.dist n = .undefined ↔ n ∉ st.distKeys
  start0 : st.dist start = .num 0
  vis_sub : ∀ u ∈ st.visited, u ∈ st.distKeys
  vis_nodup : st.visited.Nodup
  vis_fin : ∀ u ∈ st.visited, ∃ a, st.dist u = .num a
  prev_ok : ∀ v u, st.prev v = some u → u ∈ st.visited ∧ (∃ b, st.dist v = .num b) ∧
    (v ∈ st.visited → st.visited.indexOf u < st.visited.indexOf v)
  fin_prev : ∀ v b, st.dist v = .num b → v = start ∨ ∃ u, st.prev v = some u
  lonely : start ∉ keys g → ∀ v b, st.dist v = .num b → v = start
  reach : ∀ v b, st.dist v = .num b → ∃ p d, IsPath g start v p d

/-- The largest weight written in the adjacency list, in units, `0` when
there is no edge. -/
def maxWeight (g : Graph α) : Nat :=
  (g.map (fun e => (e.2.map Prod.snd).foldl max 0)).foldl max 0

/-- The part of the invariant that needs every sum the loop forms to be
exact: recorded distances never exceed `|visited|` times the largest weight,
each is the cost of a path from `start`, and they satisfy the equations of
shortest distances. -/
structure Exact (g : Graph α) (start : α) (st : State α) : Prop where
  bound : ∀ v b, st.dist v = .num b → b ≤ st.visited.length * maxWeight g
  attained : ∀ v b, st.dist v = .num b → ∃ p, IsPath g start v p b
  edge : ∀ u ∈ st.visited, ∀ v w, weight g u v = some w → v ∈ st.distKeys →
    ∃ a b, st.dist u = .num a ∧ st.dist v = .num b ∧ b ≤ a + w
  mono : ∀ u ∈ st.visited, ∀ v, v ∉ st.visited → ∀ a b, st.dist u = .num a →
    st.dist v = .num b → a ≤ b
  prev_exact : ∀ v u, st.prev v = some u →
    ∃ a w, st.dist u = .num a ∧ weight g u v = some w ∧ st.dist v = .num (a + w)

/-- Why the main loop stopped: every key is visited, or the scan found no
unvisited node of finite distance. -/
def Stopped (g : Graph α) (st : State α) : Prop :=
  ¬ st.visited.length < (keys g).length ∨ (findMin st).1 = none

/-- A graph of two nodes without edges. -/
def twoIslands : Graph String := [("A", []), ("B", [])]

/-- The truth value of a node name in a condition: every string but the empty
one is truthy. -/
def isTruthy (s : String) : Bool := s != ""

/-- A graph of three nodes in a row, its weights in units of `1`
(`places = 0`), whose first edge weighs `2^53`: the sum `2^53 + 1` along the
row is no double. -/
def bigGraph : Graph String :=
  [("A", [("B", 2 ^ 53)]),
   ("B", [("A", 2 ^ 53), ("C", 1)]),
   ("C", [("B", 1)])]

/-- A graph whose weights are the fractions `0.5`, `2.5` and `1.5`, written
in half units (`places = 1`) as `1`, `5` and `3`. -/
def halvesGraph : Graph String :=
  [("A", [("B", 1), ("C", 5)]),
   ("B", [("A", 1), ("C", 3)]),
   ("C", [("A", 5), ("B", 3)])]

/-- A graph of two nodes joined by an edge, one of them named by the empty
string. -/
def namelessGraph : Graph String :=
  [("", [("A", 1)]),
   ("A", [("", 1)])]

end

end RouteFinder

/-! ## `routefinder/data-structures.js`: class `PriorityQueue` -/

namespace RouteFinder

/-- A priority as the comparison `<` of `enqueue` sees it: a value of a kind
that `<` orders totally (the numbers other than `NaN`, with `β` the rationals
or any other linear order), or `NaN`, for which every comparison is false. -/
inductive Priority (β : Type)
  | nan
  | val (x : β)
  deriving DecidableEq

/-- JavaScript `a < b` on priorities. -/
def Priority.lt {β : Type} [LinearOrder β] : Priority β → Priority β → Bool
  | .val a, .val b => a < b
  | _, _ => false

/-- JavaScript `a <= b` on priorities. -/
def Priority.le {β : Type} [LinearOrder β] : Priority β → Priority β → Bool
  | .val a, .val b => a ≤ b
  | _, _ => false

/-- One entry `{ element, priority }` of the queue. -/
structure Item (α β : Type) where
  element : α
  priority : Priority β
  deriving DecidableEq

/-- Class `PriorityQueue`: the array `items`. -/
structure PriorityQueue (α β : Type) where
  items : List (Item α β)

/-- The loop of `enqueue` with its fallback: `item` is spliced in before the
first entry `x` for which `item.priority < x.priority`, or pushed at the end
when there is none. -/
def insertItem {α β : Type} [LinearOrder β] (item : Item α β) :
    List (Item α β) → List (Item α β)
  | [] => [item]
  | x :: rest =>
    if item.priority.lt x.priority then item :: x :: rest else x :: insertItem item rest

namespace PriorityQueue

/-- The queue built by `constructor()`. -/
def new {α β : Type} : PriorityQueue α β := { items := [] }

/-- Method `enqueue(element, priority)`. -/
def enqueue {α β : Type} [LinearOrder β] (q : PriorityQueue α β) (element : α)
    (priority : Priority β) : PriorityQueue α β :=
  { items := insertItem { element := element, priority := priority } q.items }

/-- Method `isEmpty()`. -/
def isEmpty {α β : Type} (q : PriorityQueue α β) : Bool := q.items.length == 0

/-- Method `dequeue()`: the returned value (`none` for `null`) and the queue
after `items.shift()`. -/
def dequeue {α β : Type} (q : PriorityQueue α β) : Option α × PriorityQueue α β :=
  if q.isEmpty then (none, q)
  else
    match q.items with
    | [] => (none, q)
    | x :: rest => (some x.element, { items := rest })

end PriorityQueue

/-- A call made on a queue. -/
inductive QueueOp (α β : Type)
  | enqueue (element : α) (priority : Priority β)
  | dequeue

/-- The queue after a sequence of calls, made from left to right. -/
def runOps {α β : Type} [LinearOrder β] :
    List (QueueOp α β) → PriorityQueue α β → PriorityQueue α β
  | [], q => q
  | .enqueue e p :: ops, q => runOps ops (q.enqueue e p)
  | .dequeue :: ops, q => runOps ops q.dequeue.2

/-- The entries are in non-decreasing order of priority: `a <= b` holds for
every entry `a` and every later entry `b`. -/
def Ordered {α β : Type} [LinearOrder β] (l : List (Item α β)) : Prop :=
  l.Pairwise (fun a b => a.priority.le b.priority = true)

/-- No call of the sequence enqueues with the priority `NaN`. -/
def NoNaN {α β : Type} (ops : List (QueueOp α β)) : Prop :=
  ∀ e, QueueOp.enqueue e Priority.nan ∉ ops

/-- The calls `enqueue("a", NaN)`, `enqueue("b", 1)`. -/
def nanCalls : List (QueueOp String Nat) :=
  [.enqueue "a" .nan, .enqueue "b" (.val 1)]

/-- Four calls on a new queue: three `enqueue` with numbers and one `dequeue`. -/
def sampleCalls : List (QueueOp String Nat) :=
  [.enqueue "x" (.val 5), .enqueue "y" (.val 2), .dequeue, .enqueue "z" (.val 5)]

end RouteFinder

namespace Hanoi

/-! ## `towerofhanoi/dataStructures.js`: class `Stack` -/

/-- Class `Stack`: the array `items` and the pointer `top`.  A slot holds a
disk size, or `none` for `undefined`. -/
structure Stack where
  items : List (Option Nat)
  top : Int

/-- The array after the assignment `items[i] = v`: an element is replaced,
or the array grows, the slots skipped reading `undefined`.  A negative `i`
leaves the array as it is. -/
def arraySet (items : List (Option Nat)) (i : Int) (v : Option Nat) : List (Option Nat) :=
  if i < 0 then items
  else if i.toNat < items.length then items.set i.toNat v
  else items ++ List.replicate (i.toNat - items.length) none ++ [v]

/-- The read `items[i]`: `undefined` outside the array. -/
def arrayGet (items : List (Option Nat)) (i : Int) : Option Nat :=
  if i < 0 then none else (items.getD i.toNat none)

/-- The array after the assignment `items.length = n`. -/
def setLength (items : List (Option Nat)) (n : Int) : List (Option Nat) :=
  if n.toNat ≤ items.length then items.take n.toNat
  else items ++ List.replicate (n.toNat - items.length) none

namespace Stack

/-- The stack built by `constructor()`. -/
def new : Stack := { items := [], top := -1 }

/-- Method `isEmpty()`. -/
def isEmpty (s : Stack) : Bool := s.top == -1

/-- Method `push(item)`. -/
def push (s : Stack) (item : Option Nat) : Stack :=
  { items := arraySet s.items (s.top + 1) item, top := s.top + 1 }

/-- Method `pop()`: the returned value and the stack left. -/
def pop (s : Stack) : Option Nat × Stack :=
  if s.isEmpty then (none, s)
  else (arrayGet s.items s.top, { items := setLength s.items s.top, top := s.top - 1 })

/-- Method `peek()`. -/
def peek (s : Stack) : Option Nat :=
  if s.isEmpty then none else arrayGet s.items s.top

/-- Method `size()`. -/
def size (s : Stack) : Int := s.top + 1

/-- Method `canAccept(diskValue)`; a comparison with `undefined` is false. -/
def canAccept (s : Stack) (diskValue : Option Nat) : Bool :=
  if s.isEmpty then true
  else
    match diskValue, s.peek with
    | some d, some t => d < t
    | _, _ => false

/-- Method `toArray()`: the slots `0..top`, bottom to top. -/
def toArray (s : Stack) : List (Option Nat) :=
  (List.range (s.top + 1).toNat).map fun (i : Nat) => arrayGet s.items (Int.ofNat i)

end Stack

/-! ## `towerofhanoi/towerofhanoi.js` -/

/-- The keys of the object `pegs`. -/
inductive Peg
  | A
  | B
  | C
  deriving DecidableEq

/-- The globals of `towerofhanoi.js` that the game logic reads and writes;
`minMoves` is the number shown as the minimum and `victoryShown` tells whether
the victory screen is up. -/
structure Game where
  pegs : Peg → Stack
  diskCount : Nat
  moves : Nat
  selectedPeg : Option Peg
  isSolving : Bool
  minMoves : Nat
  victoryShown : Bool

/-- The loop `for (let i = diskCount; i >= 1; i--) pegs.A.push(i)`, entered
with `i`. -/
def fillPeg : Nat → Stack → Stack
  | 0, s => s
  | i + 1, s => fillPeg i (s.push (some (i + 1)))

/-- Function `initGame()`. -/
def initGame (g : Game) : Game :=
  { g with
    isSolving := false
    moves := 0
    selectedPeg := none
    victoryShown := false
    diskCount := 5
    minMoves := 2 ^ 5 - 1
    pegs := fun p =>
      match p with
      | .A => fillPeg 5 Stack.new
      | .B => Stack.new
      | .C => Stack.new }

/-- Function `moveDisk(source, dest)`: the disk popped from `source` is
pushed on `dest`, whatever it is. -/
def moveDisk (source dest : Peg) (g : Game) : Game :=
  let popped := (g.pegs source).pop
  let pegs1 : Peg → Stack := fun p => if p = source then popped.2 else g.pegs p
  let pegs2 : Peg → Stack := fun p => if p = dest then (pegs1 dest).push popped.1 else pegs1 p
  { g with pegs := pegs2, moves := g.moves + 1 }

/-- Function `checkWin()`. -/
def checkWin (g : Game) : Game :=
  if (g.pegs .C).size = (g.diskCount : Int) then { g with victoryShown := true } else g

/-- Function `handleTowerClick(pegName)`. -/
def handleTowerClick (pegName : Peg) (g : Game) : Game :=
  if g.isSolving then g
  else
    match g.selectedPeg with
    | none => if (g.pegs pegName).isEmpty then g else { g with selectedPeg := some pegName }
    | some sel =>
      if sel = pegName then { g with selectedPeg := none }
      else if (g.pegs pegName).canAccept (g.pegs sel).peek then
        checkWin { moveDisk sel pegName g with selectedPeg := none }
      else { g with selectedPeg := none }

/-- Function `solve(n, source, target, auxiliary)`, run without interruption:
nothing else writes the state between two `await`s. -/
def solve : Nat → Peg → Peg → Peg → Game → Game
  | 0, _, _, _, g => g
  | n + 1, source, target, auxiliary, g =>
    if !g.isSolving then g
    else
      let g1 := solve n source auxiliary target g
      if !g1.isSolving then g1
      else
        let g2 := moveDisk source target g1
        if !g2.isSolving then g2
        else solve n auxiliary target source g2

/-- Function `startAutoSolve()`, run without interruption. -/
def startAutoSolve (g : Game) : Game :=
  if g.isSolving then { g with isSolving := false }
  else
    let g1 := { initGame g with isSolving := true }
    let g2 := solve g1.diskCount .A .C .B g1
    let g3 := { g2 with isSolving := false }
    if (g3.pegs .C).size = (g3.diskCount : Int) then { g3 with victoryShown := true } else g3

/-! ## Notions used to state the properties of the Tower of Hanoi code -/

/-- The disks `n, n - 1, …, 1`, bottom to top. -/
def tower : Nat → List (Option Nat)
  | 0 => []
  | n + 1 => some (n + 1) :: tower n

/-- The calls `moveDisk(source, dest)` that `solve(n, source, target,
auxiliary)` makes when it runs to completion, in the order it makes them. -/
def moveCalls : Nat → Peg → Peg → Peg → List (Peg × Peg)
  | 0, _, _, _ => []
  | n + 1, source, target, auxiliary =>
    moveCalls n source auxiliary target ++ [(source, target)] ++
      moveCalls n auxiliary target source

/-- The state after a list of calls `moveDisk(source, dest)`, made in order. -/
def runMoves : List (Peg × Peg) → Game → Game
  | [], g => g
  | m :: rest, g => runMoves rest (moveDisk m.1 m.2 g)

/-- What the successive calls of a list of calls `moveDisk(source, dest)` pop
off their source pegs: a disk, or `none` for `undefined` when the peg is
empty. -/
def poppedDisks : List (Peg × Peg) → Game → List (Option Nat)
  | [], _ => []
  | m :: rest, g => (g.pegs m.1).pop.1 :: poppedDisks rest (moveDisk m.1 m.2 g)

/-- The pointer `top` is the index of the last slot of `items`. -/
def Stack.WF (s : Stack) : Prop := s.top = (s.items.length : Int) - 1

/-- A game in the state in which `startAutoSolve` calls `solve`. -/
def demoGame : Game :=
  { initGame { pegs := fun _ => Stack.new, diskCount := 5, moves := 0, selectedPeg := none,
               isSolving := false, minMoves := 0, victoryShown := false } with
    isSolving := true }

end Hanoi

namespace Sudoku

/-! ## `dataStructures.js` and `sudoku.js`: completion check, hints and input -/

/-- The nested loops of `isComplete()` over the cells still to check: the
cell is cleared, `isValid` is asked about its number, and the number is put
back. -/
def completeLoop : List (Fin 9 × Fin 9) → SudokuBoard → Bool × SudokuBoard
  | [], b => (true, b)
  | pos :: rest, b =>
    let num := b.grid pos.1 pos.2
    let b1 := b.setValue pos.1 pos.2 0
    let valid := b1.isValid pos.1 pos.2 num
    let b2 := b1.setValue pos.1 pos.2 num
    if !valid then (false, b2) else completeLoop rest b2

/-- Method `isComplete()`: the returned boolean and the board it leaves. -/
def SudokuBoard.isComplete (b : SudokuBoard) : Bool × SudokuBoard :=
  if !b.isFull then (false, b) else completeLoop allPositions b

/-- Method `getHint(solution)`: the first empty cell in the order of the
nested loops, with the value of the solution there; `none` for `null`. -/
def SudokuBoard.getHint (b : SudokuBoard) (solution : Grid) : Option (Fin 9 × Fin 9 × Nat) :=
  match allPositions.find? (fun p => b.grid p.1 p.2 == 0) with
  | some p => some (p.1, p.2, solution p.1 p.2)
  | none => none

/-- Function `checkWinCondition()`; `elapsed` is the number of seconds since
the start, read from the clock. -/
def checkWinCondition (elapsed : Nat) (s : Game) : Game :=
  let r := s.board.isComplete
  if r.1 then
    { s with board := r.2, gameState := .complete,
             score := s.score + max 0 (500 - (elapsed : Int)) }
  else { s with board := r.2 }

/-- Function `handleCellClick(row, col)`. -/
def handleCellClick (row col : Fin 9) (s : Game) : Game :=
  if s.gameState ≠ .playing ∨ s.isSolving then s
  else if s.selectedCell = some (row, col) then { s with selectedCell := none }
  else { s with selectedCell := some (row, col) }

/-- Function `handleNumberInput(num)`. -/
def handleNumberInput (num : Nat) (elapsed : Nat) (s : Game) : Game :=
  match s.selectedCell with
  | none => s
  | some (row, col) =>
    if s.gameState ≠ .playing ∨ s.isSolving then s
    else if s.board.isOriginal row col then s
    else if 1 ≤ num ∧ num ≤ 9 then
      checkWinCondition elapsed { s with board := s.board.setValue row col num }
    else if num = 0 then { s with board := s.board.setValue row col 0 }
    else s

/-- The values of `e.key` that `handleKeyPress` tells apart; `digit d` is the
key of the decimal digit `d`. -/
inductive Key
  | arrowUp
  | arrowDown
  | arrowLeft
  | arrowRight
  | digit (d : Fin 10)
  | backspace
  | delete
  | other
  deriving DecidableEq

/-- Function `handleKeyPress(e)`. -/
def handleKeyPress (key : Key) (elapsed : Nat) (s : Game) : Game :=
  match s.selectedCell with
  | none => s
  | some (row, col) =>
    if s.gameState ≠ .playing ∨ s.isSolving then s
    else if key = .arrowUp ∧ row.val > 0 then
      { s with selectedCell := some (⟨row.val - 1, by omega⟩, col) }
    else if h : key = .arrowDown ∧ row.val < 8 then
      { s with selectedCell := some (⟨row.val + 1, by omega⟩, col) }
    else if key = .arrowLeft ∧ col.val > 0 then
      { s with selectedCell := some (row, ⟨col.val - 1, by omega⟩) }
    else if h : key = .arrowRight ∧ col.val < 8 then
      { s with selectedCell := some (row, ⟨col.val + 1, by omega⟩) }
    else if s.board.isOriginal row col then s
    else
      match key with
      | .digit d =>
        if 1 ≤ d.val then
          checkWinCondition elapsed { s with board := s.board.setValue row col d.val }
        else { s with board := s.board.setValue row col 0 }
      | .backspace => { s with board := s.board.setValue row col 0 }
      | .delete => { s with board := s.board.setValue row col 0 }
      | _ => s

/-- Function `checkBoard()`. -/
def checkBoard (s : Game) : Game :=
  if s.gameState ≠ .playing ∨ s.isSolving then s
  else { s with checksUsed := s.checksUsed + 1, score := max 0 (s.score - 10) }

/-- Function `useHint()`.  With `solution` still `null` the call either finds
no empty cell or throws before it writes anything. -/
def useHint (elapsed : Nat) (s : Game) : Game :=
  if s.gameState ≠ .playing ∨ s.isSolving then s
  else
    match s.solution with
    | none => s
    | some solution =>
      match s.board.getHint solution with
      | none => s
      | some (row, col, value) =>
        checkWinCondition elapsed
          { s with hintsUsed := s.hintsUsed + 1, score := max 0 (s.score - 10),
                   board := s.board.setValue row col value,
                   selectedCell := some (row, col) }

/-- Function `resetPuzzle()`. -/
def resetPuzzle (s : Game) : Game :=
  if s.isSolving then s
  else { s with board := s.board.resetToOriginal, selectedCell := none }

/-- What the player can do to a puzzle; `elapsed` is the clock reading used
if the action completes the puzzle. -/
inductive Action
  | cellClick (row col : Fin 9)
  | numberPad (num : Nat) (elapsed : Nat)
  | keyPress (key : Key) (elapsed : Nat)
  | check
  | hint (elapsed : Nat)
  | reset

/-- The handler that an action runs. -/
def Action.run : Action → Game → Game
  | .cellClick row col, s => handleCellClick row col s
  | .numberPad num elapsed, s => handleNumberInput num elapsed s
  | .keyPress key elapsed, s => handleKeyPress key elapsed s
  | .check, s => checkBoard s
  | .hint elapsed, s => useHint elapsed s
  | .reset, s => resetPuzzle s

/-- The state after a sequence of actions, run from left to right. -/
def runActions : List Action → Game → Game
  | [], s => s
  | a :: rest, s => runActions rest (a.run s)

/-- Every given cell holds the value the puzzle gave it. -/
def GivensKept (b : SudokuBoard) : Prop :=
  ∀ r c, b.isOriginal r c = true → b.grid r c = b.originalGrid r c

/-- The cell `(r, c)` comes before `(row, col)` in row-major order. -/
def Before (r c row col : Fin 9) : Prop := r < row ∨ (r = row ∧ c < col)

/-- The given cells hold their values and the original puzzle is `O`. -/
def Guarded (O : Grid) (s : Game) : Prop :=
  GivensKept s.board ∧ s.board.originalGrid = O

end Sudoku

namespace WaterSort

/-! ## `watersort/datastructures.js`: class `Stack` -/

/-- The colour names of the constant `COLORS`, the values a tube holds. -/
inductive Color
  | red
  | blue
  | green
  | yellow
  | purple
  | orange
  | pink
  | cyan
  deriving DecidableEq

/-- Class `Stack`: a tube, its colours bottom to top and its capacity. -/
structure Stack where
  items : List Color
  maxSize : Nat
  deriving DecidableEq

namespace Stack

/-- The tube built by `constructor(maxSize)`. -/
def new (maxSize : Nat) : Stack := { items := [], maxSize := maxSize }

/-- Method `isFull()`. -/
def isFull (s : Stack) : Bool := s.items.length ≥ s.maxSize

/-- Method `isEmpty()`. -/
def isEmpty (s : Stack) : Bool := s.items.length == 0

/-- Method `push(color)`: the returned boolean and the tube left. -/
def push (s : Stack) (color : Color) : Bool × Stack :=
  if s.isFull then (false, s) else (true, { s with items := s.items ++ [color] })

/-- Method `pop()`: the returned colour (`none` for `null`) and the tube
left. -/
def pop (s : Stack) : Option Color × Stack :=
  if s.isEmpty then (none, s) else (s.items.getLast?, { s with items := s.items.dropLast })

/-- Method `peek()`. -/
def peek (s : Stack) : Option Color :=
  if s.isEmpty then none else s.items.getLast?

/-- Method `size()`. -/
def size (s : Stack) : Nat := s.items.length

/-- Method `allElementsMatch()`. -/
def allElementsMatch (s : Stack) : Bool :=
  match s.items with
  | [] => false
  | firstColor :: rest => rest.all fun c => c == firstColor

/-- Method `isComplete()`. -/
def isComplete (s : Stack) : Bool := s.isFull && s.allElementsMatch

/-- Method `toArray()`. -/
def toArray (s : Stack) : List Color := s.items

end Stack

/-! ## `watersort/watersort.js` -/

/-- Constant `NUM_FILLED_TUBES`. -/
def NUM_FILLED_TUBES : Nat := 3

/-- Constant `NUM_EMPTY_TUBES`. -/
def NUM_EMPTY_TUBES : Nat := 2

/-- Constant `TUBE_CAPACITY`. -/
def TUBE_CAPACITY : Nat := 4

/-- Constant `COLORS`. -/
def COLORS : List Color := [.red, .blue, .green, .yellow, .purple, .orange, .pink, .cyan]

/-- An entry of `moveHistory`: the fields `from`, `to` and `colors`. -/
structure MoveData where
  from_ : Nat
  to_ : Nat
  colors : List Color
  deriving DecidableEq

/-- The values of the global `gameState`. -/
inductive GameState
  | waiting
  | playing
  | complete
  deriving DecidableEq

/-- The globals of `watersort.js`; the last entry of `moveHistory` is the
most recent move. -/
structure Game where
  tubes : List Stack
  selectedTube : Option Nat
  score : Nat
  moves : Nat
  sortedTubes : Nat
  moveHistory : List MoveData
  gameState : GameState

/-- Function `isValidMove(source, dest)`. -/
def isValidMove (source dest : Stack) : Bool :=
  if source.isEmpty then false
  else if dest.isFull then false
  else if dest.isEmpty then true
  else source.peek == dest.peek

/-- Function `checkCompletedTubes()`. -/
def checkCompletedTubes (g : Game) : Game :=
  let newSortedCount := g.tubes.countP fun tube => tube.isComplete
  { g with
    score := if newSortedCount > g.sortedTubes then
      g.score + (newSortedCount - g.sortedTubes) * 50 else g.score
    sortedTubes := newSortedCount }

/-- Function `checkGameComplete()`. -/
def checkGameComplete (g : Game) : Game :=
  let allSorted := g.tubes.all fun tube => tube.isEmpty || tube.isComplete
  let filledTubeCount := g.tubes.countP fun tube => !tube.isEmpty
  if allSorted && filledTubeCount == NUM_FILLED_TUBES then { g with gameState := .complete }
  else g

/-- The `while` loop of `performPour`, on the array of tubes and
`moveData.colors`; one unit of fuel is used each time the body is entered.
The tubes are read through their indices, so that a tube poured into itself is
one object; `performPour` enters the loop with both tubes in the array, or with
an empty source. -/
def pourLoop (src dst : Nat) (colorToPour : Option Color) :
    Nat → List Stack → List Color → Option (List Stack × List Color)
  | fuel, tubes, colors =>
    match tubes[src]?, tubes[dst]? with
    | some source, some dest =>
      if (!source.isEmpty && !dest.isFull && source.peek == colorToPour) = true then
        match fuel with
        | 0 => none
        | fuel + 1 =>
          let popped := source.pop
          let tubes1 := tubes.set src popped.2
          match popped.1, tubes1[dst]? with
          | some color, some dest1 =>
            pourLoop src dst colorToPour fuel (tubes1.set dst (dest1.push color).2)
              (colors ++ [color])
          | _, _ => some (tubes1, colors)
      else some (tubes, colors)
    | _, _ => some (tubes, colors)

/-- Function `performPour(sourceIndex, destIndex)`; `none` when the loop
runs out of fuel.  Without a source tube the call throws at `source.peek()`;
without a destination tube it throws at `dest.isFull()` unless the source is
empty; in both cases before it writes anything. -/
def performPour (fuel : Nat) (sourceIndex destIndex : Nat) (g : Game) : Option Game :=
  match g.tubes[sourceIndex]? with
  | none => some g
  | some source =>
    if g.tubes[destIndex]?.isNone ∧ !source.isEmpty then some g
    else
      match pourLoop sourceIndex destIndex source.peek fuel g.tubes [] with
      | none => none
      | some (tubes, colors) =>
        let moveData : MoveData := { from_ := sourceIndex, to_ := destIndex, colors := colors }
        some (checkGameComplete (checkCompletedTubes
          { g with tubes := tubes, moveHistory := g.moveHistory ++ [moveData],
                   moves := g.moves + 1 }))

/-- The `for` loop of `undoMove` over the colours in the order it reads
them (last poured first): `dest.pop()` then `source.push(color)`.  The boolean
tells whether a missing tube made the loop throw. -/
def undoLoop (src dst : Nat) : List Color → List Stack → List Stack × Bool
  | [], tubes => (tubes, false)
  | color :: rest, tubes =>
    match tubes[dst]? with
    | none => (tubes, true)
    | some dest =>
      let tubes1 := tubes.set dst dest.pop.2
      match tubes1[src]? with
      | none => (tubes1, true)
      | some source => undoLoop src dst rest (tubes1.set src (source.push color).2)

/-- Function `undoMove()`. -/
def undoMove (g : Game) : Game :=
  match g.moveHistory.getLast? with
  | none => g
  | some lastMove =>
    let g1 := { g with moveHistory := g.moveHistory.dropLast }
    let r := undoLoop lastMove.from_ lastMove.to_ lastMove.colors.reverse g1.tubes
    if r.2 then { g1 with tubes := r.1 }
    else checkCompletedTubes { g1 with tubes := r.1, selectedTube := none }

/-- Function `handleTubeClick(index)`; `none` when the pour runs out of
fuel.  Where the call reads a method of a tube that does not exist it throws,
before it writes anything. -/
def handleTubeClick (fuel : Nat) (index : Nat) (g : Game) : Option Game :=
  if g.gameState ≠ .playing then some g
  else
    match g.selectedTube with
    | none =>
      match g.tubes[index]? with
      | none => some g
      | some clickedTube =>
        if !clickedTube.isEmpty then some { g with selectedTube := some index } else some g
    | some selected =>
      if selected = index then some { g with selectedTube := none }
      else
        match g.tubes[selected]?, g.tubes[index]? with
        | none, _ => some g
        | some sourceTube, none =>
          if sourceTube.isEmpty then some { g with selectedTube := none } else some g
        | some sourceTube, some clickedTube =>
          if isValidMove sourceTube clickedTube then
            match performPour fuel selected index g with
            | none => none
            | some g1 => some { g1 with selectedTube := none }
          else some { g with selectedTube := none }

/-- Function `shuffleArray(array)`: Fisher-Yates on a copy of the array; `k`
counts the calls of `Math.random()` made so far. -/
def shuffleArray {α : Type} (rnd : Nat → Nat) (array : List α) (k : Nat) : List α × Nat :=
  Sudoku.shuffleLoop rnd (array.length - 1) array k

/-- The inner loop of `initTubes` with `j` passes left: `tube.push(colorPool.pop())`. -/
def fillTube : Nat → Stack → List Color → Stack × List Color
  | 0, tube, colorPool => (tube, colorPool)
  | j + 1, tube, colorPool =>
    match colorPool.getLast? with
    | none => (tube, colorPool)
    | some color => fillTube j (tube.push color).2 colorPool.dropLast

/-- The loop of `initTubes` that creates the filled tubes, with `i` tubes left
to create. -/
def fillTubes : Nat → List Stack → List Color → List Stack
  | 0, tubes, _ => tubes
  | i + 1, tubes, colorPool =>
    let r := fillTube TUBE_CAPACITY (Stack.new TUBE_CAPACITY) colorPool
    fillTubes i (tubes ++ [r.1]) r.2

/-- Function `initTubes()`: the array `tubes` it builds from the empty array
and the random counter. -/
def initTubes (rnd : Nat → Nat) (k : Nat) : List Stack × Nat :=
  let gameColors := COLORS.take NUM_FILLED_TUBES
  let colorPool := gameColors.flatMap fun color => List.replicate TUBE_CAPACITY color
  let shuffled := shuffleArray rnd colorPool k
  (fillTubes NUM_FILLED_TUBES [] shuffled.1 ++
    List.replicate NUM_EMPTY_TUBES (Stack.new TUBE_CAPACITY), shuffled.2)

/-- Function `startNewGame()`: the state it sets up and the random counter. -/
def startNewGame (rnd : Nat → Nat) (k : Nat) : Game × Nat :=
  let r := initTubes rnd k
  ({ tubes := r.1, selectedTube := none, score := 0, moves := 0, sortedTubes := 0,
     moveHistory := [], gameState := .playing }, r.2)

/-! ## Notions used to state the properties of the Water Sort code -/

/-- The states the game goes through: a new game, then clicks on tubes, undos
and new games in any order. -/
inductive Reachable : Game → Prop
  | start (rnd : Nat → Nat) (k : Nat) : Reachable (startNewGame rnd k).1
  | click {g g1 : Game} (fuel index : Nat) :
      Reachable g → handleTubeClick fuel index g = some g1 → Reachable g1
  | undo {g : Game} : Reachable g → Reachable (undoMove g)

/-- No tube holds more than its capacity. -/
def WithinCapacity (tubes : List Stack) : Prop :=
  ∀ t ∈ tubes, t.items.length ≤ t.maxSize

/-- What holds in every state the game goes through: no tube is over its
capacity, and a tube is selected only while the game is being played. -/
def Sound (g : Game) : Prop :=
  WithinCapacity g.tubes ∧ (g.selectedTube ≠ none → g.gameState = .playing)

/-- A new game dealt with every random draw equal to 0, tube 0 then clicked. -/
def demoSelected : Game :=
  { (startNewGame (fun _ => 0) 0).1 with selectedTube := some 0 }

end WaterSort

namespace MemoryMatch

/-! ## `memorymatch/data structures.js`: `fisherYatesShuffle` -/

/-- The `while` loop of `fisherYatesShuffle` on the array `arr`, entered with
`currentIndex`; `k` counts the calls of `Math.random()` made so far.  The index
drawn is `Math.floor(Math.random() * currentIndex)`, one of
`0 .. currentIndex - 1`; the three assignments through `temp` exchange
`arr[currentIndex]` and `arr[randomIndex]`. -/
def shuffleLoop {α : Type} (rnd : Nat → Nat) : Nat → List α → Nat → List α × Nat
  | 0, arr, k => (arr, k)
  | currentIndex + 1, arr, k =>
    let randomIndex := rnd k % (currentIndex + 1)
    shuffleLoop rnd currentIndex (Sudoku.swap arr currentIndex randomIndex) (k + 1)

/-- Function `fisherYatesShuffle(array)` on the contents of the array: the
returned contents and the random counter. -/
def fisherYatesShuffle {α : Type} (rnd : Nat → Nat) (array : List α) (k : Nat) :
    List α × Nat :=
  shuffleLoop rnd array.length array k

/-! ### The same function on array objects -/

/-- The array objects allocated so far; an array is named by its position in
this list. -/
abbrev Heap (α : Type) := List (List α)

/-- The contents of the array object `a`. -/
def readArray {α : Type} (h : Heap α) (a : Nat) : List α := h.getD a []

/-- The copy `[...array]`: a new array object with the contents of `array`. -/
def spread {α : Type} (h : Heap α) (array : Nat) : Heap α × Nat :=
  (h ++ [readArray h array], h.length)

/-- The `while` loop of `fisherYatesShuffle`, writing into the array object
`arr`. -/
def shuffleLoopRef {α : Type} (rnd : Nat → Nat) (arr : Nat) : Nat → Heap α → Nat → Heap α × Nat
  | 0, h, k => (h, k)
  | currentIndex + 1, h, k =>
    let randomIndex := rnd k % (currentIndex + 1)
    shuffleLoopRef rnd arr currentIndex
      (h.set arr (Sudoku.swap (readArray h arr) currentIndex randomIndex)) (k + 1)

/-- Function `fisherYatesShuffle(array)` on array objects: the heap it leaves,
the array object it returns and the random counter. -/
def fisherYatesShuffleRef {α : Type} (rnd : Nat → Nat) (h : Heap α) (array : Nat) (k : Nat) :
    Heap α × Nat × Nat :=
  let c := spread h array
  let r := shuffleLoopRef rnd c.2 (readArray c.1 c.2).length c.1 k
  (r.1, c.2, r.2)

end MemoryMatch

namespace Sudoku

/-! ## `sudoku.js`: the animated auto-solve -/

/-- The write that `animateSolveSteps` makes for one step: the cell is set to
`step.num` for a `try` or a `place` step and to `0` for a `backtrack` step. -/
def applyStep (b : SudokuBoard) (step : Step) : SudokuBoard :=
  match step.type with
  | .try_ => b.setValue step.row step.col step.num
  | .place => b.setValue step.row step.col step.num
  | .backtrack => b.setValue step.row step.col 0

/-- The branch of `animateSolveSteps` that ends the animation. -/
def finishSolve (s : Game) : Game :=
  { s with isSolving := false, gameState := .complete, score := 0 }

/-- Function `animateSolveSteps(steps, index)`, each timeout firing in turn
with nothing else run in between; the list holds the steps from `index` on, so
that `index >= steps.length` is the empty list. -/
def animateSolveSteps : List Step → Game → Game
  | [], s => finishSolve s
  | step :: rest, s =>
    if !s.isSolving then finishSolve s
    else animateSolveSteps rest { s with board := applyStep s.board step }

/-- Function `solveWithAnimation()`; `none` when the solver runs out of
fuel. -/
def solveWithAnimation (fuel : Nat) (s : Game) : Option Game :=
  match generateSolveSteps fuel s.board.copyGrid [] with
  | none => none
  | some (_, _, steps) => some (animateSolveSteps steps s)

/-- A game in play whose puzzle is `sampleSolution` with the diagonal
cleared. -/
def diagonalGame : Game :=
  { freshGame with
    board := (SudokuBoard.new.loadGrid
      (fun r c => if r = c then 0 else sampleSolution r c)).saveAsOriginal }

end Sudoku

namespace Solitaire

/-! ## `solitaire/game.js`: the stock, the history and undo -/

/-- The entries of the constant `SUITS`. -/
inductive Suit
  | hearts
  | diamonds
  | clubs
  | spades
  deriving DecidableEq

/-- Constant `SUITS`. -/
def SUITS : List Suit := [.hearts, .diamonds, .clubs, .spades]

/-- A card object: `rank` and `id` are fixed by `suit` and `value`
(`rank = RANKS[value - 1]`, `id = suit-rank`) and are left out. -/
structure Card where
  suit : Suit
  value : Nat
  faceUp : Bool
  deriving DecidableEq

/-- Function `createDeck()`. -/
def createDeck : List Card :=
  SUITS.flatMap fun suit =>
    (List.range 13).map fun i => { suit := suit, value := i + 1, faceUp := false }

/-- Function `shuffle(arr)`: Fisher-Yates; `k` counts the calls of
`Math.random()` made so far. -/
def shuffle {α : Type} (rnd : Nat → Nat) (arr : List α) (k : Nat) : List α × Nat :=
  Sudoku.shuffleLoop rnd (arr.length - 1) arr k

/-- An entry of `history`, built by `pushHistory`: the arrays of the stock
(front first), of the waste and of each foundation (bottom first), of each
tableau column (head first), and the two counters. -/
structure Snapshot where
  stock : List Card
  waste : List Card
  foundations : Suit → List Card
  tableau : List (List Card)
  moves : Nat
  seconds : Nat

/-- The globals of `game.js`: the queue `stock` as the list of its values from
the head, the stacks `waste` and `foundations[s]` as the lists of their values
from the bottom, the linked lists of `tableau` as the lists of their cards from
the head.  The last entry of `history` is the most recent. -/
structure Game where
  stock : List Card
  waste : List Card
  foundations : Suit → List Card
  tableau : List (List Card)
  history : List Snapshot
  moves : Nat
  seconds : Nat

/-- The object `snapshot` that `pushHistory` builds from the state as it is
now. -/
def snapshot (g : Game) : Snapshot :=
  { stock := g.stock, waste := g.waste, foundations := g.foundations,
    tableau := g.tableau, moves := g.moves, seconds := g.seconds }

/-- Function `pushHistory()`: the snapshot is pushed on `history`. -/
def pushHistory (g : Game) : Game :=
  { g with history := g.history ++ [snapshot g] }

/-- Function `popHistoryRestore()`: the last snapshot is dropped and the state
is rebuilt from the snapshot that is then last.  The cards of `tableau` are
copied from the snapshot, while `stock`, `waste` and `foundations` receive the
card objects of the snapshot themselves, so a later write to such a card would
also change the snapshot.  The state here holds the values of the cards: it is
what the code computes up to and including the first restore, before which no
card of the state is shared with a snapshot. -/
def popHistoryRestore (g : Game) : Game :=
  if g.history.length ≤ 1 then g
  else
    let history := g.history.dropLast
    match history.getLast? with
    | none => { g with history := history }
    | some prev =>
      { stock := prev.stock, waste := prev.waste, foundations := prev.foundations,
        tableau := prev.tableau, history := history, moves := prev.moves,
        seconds := prev.seconds }

/-- Function `onStockClick()`: one card is drawn to the waste, or the waste is
turned over into the empty stock. -/
def onStockClick (g : Game) : Game :=
  match g.stock with
  | [] =>
    if g.waste.length = 0 then g
    else
      let g1 := pushHistory g
      let wasteArr := g1.waste.reverse
      { g1 with stock := wasteArr.map fun c => { c with faceUp := false }, waste := [],
                moves := g1.moves + 1 }
  | card :: rest =>
    let g1 := pushHistory g
    { g1 with stock := rest, waste := g1.waste ++ [{ card with faceUp := true }],
              moves := g1.moves + 1 }

/-- The cards that `n` calls of `deck.pop()` return, in the order they are
returned, and the deck left; a call on the empty deck ends the run. -/
def pops : Nat → List Card → List Card × List Card
  | 0, deck => ([], deck)
  | n + 1, deck =>
    match deck.getLast? with
    | none => ([], deck)
    | some card =>
      let r := pops n deck.dropLast
      (card :: r.1, r.2)

/-- The loop of `initGame` that deals the columns `col, col + 1, …` with
`n` columns left to deal: column `col` takes `col + 1` cards off the deck and
only its last card is face up. -/
def deal : Nat → Nat → List Card → List (List Card) → List (List Card) × List Card
  | 0, _, deck, tableau => (tableau, deck)
  | n + 1, col, deck, tableau =>
    let r := pops (col + 1) deck
    let L := r.1.enum.map fun p => { p.2 with faceUp := p.1 == col }
    deal n (col + 1) r.2 (tableau ++ [L])

/-- Function `initGame()`: the state it sets up and the random counter. -/
def initGame (rnd : Nat → Nat) (k : Nat) : Game × Nat :=
  let deck := shuffle rnd createDeck k
  let dealt := deal 7 0 deck.1 []
  let stock := (pops dealt.2.length dealt.2).1
  (pushHistory
    { stock := stock, waste := [], foundations := fun _ => [], tableau := dealt.1,
      history := [], moves := 0, seconds := 0 }, deck.2)

end Solitaire

namespace FreeCell

/-! ## `freecell/dataStructures.js`: classes `Card`, `Stack` and `Deck` -/

/-- The suit names, in the order of the constant `SUITS`. -/
inductive Suit
  | hearts
  | diamonds
  | clubs
  | spades
  deriving DecidableEq

/-- Constant `SUITS`. -/
def SUITS : List Suit := [.hearts, .diamonds, .clubs, .spades]

/-- Class `Card`: the fields `suit` and `value`; `id` is fixed by them. -/
structure Card where
  suit : Suit
  value : Nat
  deriving DecidableEq

/-- Method `getColor()`: true for `'red'`, false for `'black'`. -/
def Card.getColor (c : Card) : Bool := c.suit = .hearts ∨ c.suit = .diamonds

/-- Class `Stack`: the slots `items[0 .. top]`, bottom first, a slot holding a
card or `none` for `null` or `undefined`; `maxSize` is `none` for `Infinity`.
The slots above `top`, which `pop` leaves `undefined`, are never read. -/
structure Stack where
  items : List (Option Card)
  maxSize : Option Nat
  deriving DecidableEq

namespace Stack

/-- The stack built by `constructor(maxSize)`. -/
def new (maxSize : Option Nat) : Stack := { items := [], maxSize := maxSize }

/-- Method `isEmpty()`. -/
def isEmpty (s : Stack) : Bool := s.items.length == 0

/-- Method `isFull()`: `top >= maxSize - 1`. -/
def isFull (s : Stack) : Bool :=
  match s.maxSize with
  | none => false
  | some m => s.items.length ≥ m

/-- Method `push(card)`: the stack left. -/
def push (s : Stack) (card : Option Card) : Stack :=
  if s.isFull then s else { s with items := s.items ++ [card] }

/-- Method `pop()`: the returned card and the stack left. -/
def pop (s : Stack) : Option Card × Stack :=
  if s.isEmpty then (none, s) else (s.items.getLast?.join, { s with items := s.items.dropLast })

/-- Method `peek()`. -/
def peek (s : Stack) : Option Card :=
  if s.isEmpty then none else s.items.getLast?.join

/-- Method `size()`. -/
def size (s : Stack) : Nat := s.items.length

/-- Method `toArray()`. -/
def toArray (s : Stack) : List (Option Card) := s.items

end Stack

/-- Method `createDeck()` of class `Deck`: the array `cards`. -/
def createDeck : List Card :=
  SUITS.flatMap fun suit => (List.range 13).map fun i => { suit := suit, value := i + 1 }

/-- Method `shuffle()` of class `Deck`: Fisher-Yates on `cards`; `k` counts
the calls of `Math.random()` made so far. -/
def shuffle (rnd : Nat → Nat) (cards : List Card) (k : Nat) : List Card × Nat :=
  Sudoku.shuffleLoop rnd (cards.length - 1) cards k

/-! ## `freecell/freecell.js` -/

/-- The values of `sourceType` and `targetType`. -/
inductive PileType
  | tableau
  | freecell
  | foundation
  deriving DecidableEq

/-- The object `selectedSource`. -/
structure Source where
  type : PileType
  index : Nat
  deriving DecidableEq

/-- The object `dragState`, without the floating elements. -/
structure DragState where
  sourceType : PileType
  sourceIndex : Nat
  cardIndex : Nat
  cards : List (Option Card)
  deriving DecidableEq

/-- An entry of `history`, built by `saveState`. -/
structure Saved where
  tableau : List (List Card)
  freeCells : List (Option Card)
  foundations : List (List Card)
  score : Nat
  moves : Nat
  deriving DecidableEq

/-- The globals of `freecell.js` that the game logic reads and writes; the
last entry of `history` is the most recent. -/
structure Game where
  tableau : List Stack
  freeCells : List Stack
  foundations : List Stack
  score : Nat
  moves : Nat
  selectedCard : Option Card
  selectedSource : Option Source
  selectedIndex : Option Nat
  history : List Saved
  isAutoCompleting : Bool
  dragState : Option DragState
  deriving DecidableEq

/-- How a call ends: it returns, or it throws a `TypeError`; either way the
state is what the call has written so far. -/
inductive Outcome
  | returned (g : Game)
  | threw (g : Game)
  deriving DecidableEq

/-- The state a call leaves. -/
def Outcome.state : Outcome → Game
  | .returned g => g
  | .threw g => g

/-- The array of piles after a method call on `piles[index]` that turns that
pile into `f pile`; the handlers are called with the index of a pile that
exists. -/
def modifyAt (piles : List Stack) (index : Nat) (f : Stack → Stack) : List Stack :=
  match piles[index]? with
  | some pile => piles.set index (f pile)
  | none => piles

/-- The pushes `for (const card of cards) stack.push(card)`. -/
def pushAll (cards : List (Option Card)) (stack : Stack) : Stack :=
  cards.foldl (fun s card => s.push card) stack

/-- Function `clearSelection()`. -/
def clearSelection (g : Game) : Game :=
  { g with selectedCard := none, selectedSource := none, selectedIndex := none }

/-- The loops of `initGame` that deal `deck.cards[cardIndex]` column by
column: the cards still to deal and the numbers of cards of the columns still
to fill. -/
def dealColumns : List Nat → List Card → List Stack
  | [], _ => []
  | numCards :: rest, cards =>
    pushAll ((cards.take numCards).map some) (Stack.new none) ::
      dealColumns rest (cards.drop numCards)

/-- Function `initGame()`: the state it sets up and the random counter.  A
drag in progress is not touched. -/
def initGame (rnd : Nat → Nat) (k : Nat) (g : Game) : Game × Nat :=
  let deck := shuffle rnd createDeck k
  ({ (clearSelection g) with
      score := 0, moves := 0, history := [], isAutoCompleting := false,
      tableau := dealColumns ((List.range 8).map fun col => if col < 4 then 7 else 6) deck.1,
      freeCells := List.replicate 4 (Stack.new (some 1)),
      foundations := List.replicate 4 (Stack.new none) }, deck.2)

/-- The globals as the script leaves them before `initGame` first runs. -/
def blank : Game :=
  { tableau := [], freeCells := [], foundations := [], score := 0, moves := 0,
    selectedCard := none, selectedSource := none, selectedIndex := none, history := [],
    isAutoCompleting := false, dragState := none }

/-- Function `getCardAt(type, index, cardIndex)`; `none` for `null`.  The
handlers are called with the index of a pile that is drawn; a pile that does
not exist reads as no card. -/
def getCardAt (g : Game) (type : PileType) (index cardIndex : Nat) : Option Card :=
  match type with
  | .tableau => (g.tableau[index]?.bind fun s => s.toArray[cardIndex]?).join
  | .freecell => g.freeCells[index]?.bind Stack.peek
  | .foundation => g.foundations[index]?.bind Stack.peek

/-- The loop of `canMoveSequence` over the cards from `startIndex` on:
`none` when it reads a property of a slot that holds no card, which throws. -/
def sequenceLoop : List (Option Card) → Option Bool
  | [] => some true
  | [_] => some true
  | current :: next :: rest =>
    match current, next with
    | some c, some n =>
      if c.getColor = n.getColor then some false
      else if c.value ≠ n.value + 1 then some false
      else sequenceLoop (some n :: rest)
    | _, _ => none

/-- Function `canMoveSequence(colIndex, startIndex)`. -/
def canMoveSequence (g : Game) (colIndex startIndex : Nat) : Option Bool :=
  match g.tableau[colIndex]? with
  | none => none
  | some stack => sequenceLoop (stack.toArray.drop startIndex)

/-- Function `selectCard(sourceType, sourceIndex, cardIndex)`. -/
def selectCard (sourceType : PileType) (sourceIndex cardIndex : Nat) (g : Game) : Game :=
  let g1 := clearSelection g
  { g1 with selectedSource := some { type := sourceType, index := sourceIndex },
            selectedIndex := some cardIndex,
            selectedCard := getCardAt g1 sourceType sourceIndex cardIndex }

/-- The object that `saveState` builds: `none` when a tableau column or a
foundation holds a slot with no card, whose `suit` it cannot read. -/
def savedOf (g : Game) : Option Saved :=
  match (g.tableau.map fun s => s.toArray).mapM (fun cards => cards.mapM id),
        (g.foundations.map fun s => s.toArray).mapM (fun cards => cards.mapM id) with
  | some tableau, some foundations =>
    some { tableau := tableau, freeCells := g.freeCells.map Stack.peek,
           foundations := foundations, score := g.score, moves := g.moves }
  | _, _ => none

/-- Function `saveState()`: `none` when it throws. -/
def saveState (g : Game) : Option Game :=
  match savedOf g with
  | none => none
  | some state =>
    let history := g.history ++ [state]
    some { g with history := if history.length > 50 then history.drop 1 else history }

/-- The test of `canAutoComplete` on one column, value first: `none` when it
throws. -/
def sortedLoop : List (Option Card) → Option Bool
  | [] => some true
  | [_] => some true
  | current :: next :: rest =>
    match current, next with
    | some c, some n =>
      if c.value ≠ n.value + 1 then some false
      else if c.getColor = n.getColor then some false
      else sortedLoop (some n :: rest)
    | _, _ => none

/-- The loop of `canAutoComplete` over the tableau columns. -/
def sortedColumns : List Stack → Option Bool
  | [] => some true
  | stack :: rest =>
    match sortedLoop stack.toArray with
    | none => none
    | some false => some false
    | some true => sortedColumns rest

/-- Function `canAutoComplete()`: `none` when it throws. -/
def canAutoComplete (g : Game) : Option Bool :=
  if g.freeCells.any fun s => !s.isEmpty then some false else sortedColumns g.tableau

/-- The position of a suit in `SUITS`, `SUITS.indexOf(card.suit)`. -/
def foundIndexOf (suit : Suit) : Nat := SUITS.indexOf suit

/-- The `for` loop of `autoComplete` from column `col` on: the first column
whose top card is the next card of its foundation gives it up. -/
def autoCompletePass (g : Game) : Nat → List Stack → Option Game
  | _, [] => none
  | col, stack :: rest =>
    match stack.peek with
    | none => autoCompletePass g (col + 1) rest
    | some card =>
      let foundIndex := foundIndexOf card.suit
      let canMove :=
        match g.foundations[foundIndex]?.bind Stack.peek with
        | some foundTop => card.value == foundTop.value + 1
        | none => card.value == 1
      if canMove then
        some { g with
          tableau := g.tableau.set col stack.pop.2
          foundations := modifyAt g.foundations foundIndex fun f => f.push (some card)
          score := g.score + 100
          moves := g.moves + 1 }
      else autoCompletePass g (col + 1) rest

/-- The `while (moved)` loop of `autoComplete`, run without interruption; one
unit of fuel is used by each pass that moves a card. -/
def autoCompleteLoop : Nat → Game → Option Game
  | fuel, g =>
    match autoCompletePass g 0 g.tableau with
    | none => some g
    | some g1 =>
      match fuel with
      | 0 => none
      | fuel + 1 => autoCompleteLoop fuel g1

/-- Function `autoComplete()`, run without interruption; `none` when the
fuel runs out. -/
def autoComplete (fuel : Nat) (g : Game) : Option Game :=
  match autoCompleteLoop fuel { g with isAutoCompleting := true } with
  | none => none
  | some g1 => some { g1 with isAutoCompleting := false }

/-- Function `checkWinOrAutoComplete()`; `none` when the fuel runs out.  It
throws when `canAutoComplete` does. -/
def checkWinOrAutoComplete (fuel : Nat) (g : Game) : Option Outcome :=
  let totalInFoundations := (g.foundations.map Stack.size).sum
  if totalInFoundations = 52 then some (.returned g)
  else if g.isAutoCompleting then some (.returned g)
  else
    match canAutoComplete g with
    | none => some (.threw g)
    | some true => (autoComplete fuel g).map .returned
    | some false => some (.returned g)

/-- The loop of `performMove` that pops `numToMove` cards and unshifts them:
the cards in the order they had in the column, and the stack left. -/
def popCards : Nat → Stack → List (Option Card) → List (Option Card) × Stack
  | 0, stack, cardsToMove => (cardsToMove, stack)
  | n + 1, stack, cardsToMove => popCards n stack.pop.2 (stack.pop.1 :: cardsToMove)

/-- The first entry `cards[0]` of an array of cards, `none` when there is
none or it is `null`. -/
def firstCard (cards : List (Option Card)) : Option Card := cards.head?.join

/-- Function `performMove(targetType, targetIndex)`: the state it leaves,
whether it returns or throws; `none` when the fuel runs out.  It is called with
a selection; when `saveState` throws nothing has been written. -/
def performMove (fuel : Nat) (targetType : PileType) (targetIndex : Nat) (g : Game) :
    Option Game :=
  match g.selectedSource with
  | none => some g
  | some source =>
    match saveState g with
    | none => some g
    | some g1 =>
      let taken : List (Option Card) × Game :=
        match source.type with
        | .tableau =>
          match g1.tableau[source.index]? with
          | none => ([], g1)
          | some stack =>
            let numToMove := stack.toArray.length - g1.selectedIndex.getD 0
            let r := popCards numToMove stack []
            (r.1, { g1 with tableau := g1.tableau.set source.index r.2 })
        | .freecell =>
          match g1.freeCells[source.index]? with
          | none => ([], g1)
          | some cell =>
            ([cell.pop.1], { g1 with freeCells := g1.freeCells.set source.index cell.pop.2 })
        | .foundation => ([], g1)
      let cardsToMove := taken.1
      let g2 := taken.2
      let g3 : Game :=
        match targetType with
        | .tableau =>
          { g2 with tableau := modifyAt g2.tableau targetIndex (pushAll cardsToMove) }
        | .freecell =>
          { g2 with
            freeCells := modifyAt g2.freeCells targetIndex fun s => s.push (firstCard cardsToMove) }
        | .foundation =>
          { g2 with
            foundations :=
              modifyAt g2.foundations targetIndex fun s => s.push (firstCard cardsToMove)
            score := g2.score + 100 }
      (checkWinOrAutoComplete fuel (clearSelection { g3 with moves := g3.moves + 1 })).map
        Outcome.state

/-- Function `tryMoveToTableau(colIndex)`. -/
def tryMoveToTableau (fuel : Nat) (colIndex : Nat) (g : Game) : Option Game :=
  match g.selectedCard with
  | none => some g
  | some selectedCard =>
    match g.tableau[colIndex]? with
    | none => some g
    | some targetStack =>
      match targetStack.peek with
      | some targetTop =>
        if targetTop.getColor = selectedCard.getColor then some (clearSelection g)
        else if targetTop.value ≠ selectedCard.value + 1 then some (clearSelection g)
        else performMove fuel .tableau colIndex g
      | none => performMove fuel .tableau colIndex g

/-- The test shared by `tryMoveToFreeCell` and `tryMoveToFoundation`: the
selection is in a tableau column and `selectedIndex !== cards.length - 1`,
written `selectedIndex + 1 ≠ cards.length` on natural numbers. -/
def notTopOfColumn (g : Game) : Bool :=
  match g.selectedSource with
  | some source =>
    match source.type, g.tableau[source.index]? with
    | .tableau, some stack => decide (g.selectedIndex.getD 0 + 1 ≠ stack.toArray.length)
    | _, _ => false
  | none => false

/-- Function `tryMoveToFreeCell(cellIndex)`. -/
def tryMoveToFreeCell (fuel : Nat) (cellIndex : Nat) (g : Game) : Option Game :=
  match g.selectedCard with
  | none => some g
  | some _ =>
    if notTopOfColumn g then some (clearSelection g)
    else
      match g.freeCells[cellIndex]? with
      | none => some g
      | some cell =>
        if !cell.isEmpty then some (clearSelection g)
        else performMove fuel .freecell cellIndex g

/-- Function `tryMoveToFoundation(foundIndex)`. -/
def tryMoveToFoundation (fuel : Nat) (foundIndex : Nat) (g : Game) : Option Game :=
  match g.selectedCard with
  | none => some g
  | some selectedCard =>
    if notTopOfColumn g then some (clearSelection g)
    else
      match g.foundations[foundIndex]?, SUITS[foundIndex]? with
      | some foundation, some targetSuit =>
        if selectedCard.suit ≠ targetSuit then some (clearSelection g)
        else
          match foundation.peek with
          | some foundTop =>
            if selectedCard.value ≠ foundTop.value + 1 then some (clearSelection g)
            else performMove fuel .foundation foundIndex g
          | none =>
            if selectedCard.value ≠ 1 then some (clearSelection g)
            else performMove fuel .foundation foundIndex g
      | _, _ => some g

/-- Function `handleCardClick(e, sourceType, sourceIndex, cardIndex)`. -/
def handleCardClick (fuel : Nat) (sourceType : PileType) (sourceIndex cardIndex : Nat)
    (g : Game) : Option Game :=
  match getCardAt g sourceType sourceIndex cardIndex with
  | none => some g
  | some _ =>
    match g.selectedCard with
    | none =>
      let blocked : Bool :=
        match sourceType, g.tableau[sourceIndex]? with
        | .tableau, some stack =>
          if cardIndex + 1 ≠ stack.toArray.length then
            (match canMoveSequence g sourceIndex cardIndex with
             | some true => false
             | _ => true)
          else false
        | _, _ => false
      if blocked then some g else some (selectCard sourceType sourceIndex cardIndex g)
    | some _ =>
      match sourceType with
      | .tableau => tryMoveToTableau fuel sourceIndex g
      | .foundation => tryMoveToFoundation fuel sourceIndex g
      | .freecell => some g

/-- Function `handleEmptyClick(targetType, targetIndex)`. -/
def handleEmptyClick (fuel : Nat) (targetType : PileType) (targetIndex : Nat) (g : Game) :
    Option Game :=
  match g.selectedCard with
  | none => some g
  | some _ =>
    match targetType with
    | .tableau => tryMoveToTableau fuel targetIndex g
    | .freecell => tryMoveToFreeCell fuel targetIndex g
    | .foundation => tryMoveToFoundation fuel targetIndex g

/-- Function `handleDragStart(e, sourceType, sourceIndex, cardIndex)`. -/
def handleDragStart (sourceType : PileType) (sourceIndex cardIndex : Nat) (g : Game) : Game :=
  let blocked : Bool :=
    match sourceType, g.tableau[sourceIndex]? with
    | .tableau, some stack =>
      if cardIndex + 1 ≠ stack.toArray.length then
        (match canMoveSequence g sourceIndex cardIndex with
         | some true => false
         | _ => true)
      else false
    | _, _ => false
  if blocked then g
  else
    match getCardAt g sourceType sourceIndex cardIndex with
    | none => g
    | some card =>
      let cardsToDrag : List (Option Card) :=
        match sourceType, g.tableau[sourceIndex]? with
        | .tableau, some stack => stack.toArray.drop cardIndex
        | _, _ => [some card]
      { g with dragState := some { sourceType := sourceType, sourceIndex := sourceIndex,
                                   cardIndex := cardIndex, cards := cardsToDrag } }

/-- Function `performDragMove(targetType, targetIndex)` for the drag `d`;
`none` when the fuel runs out.  When `saveState` throws nothing has been
written. -/
def performDragMove (fuel : Nat) (d : DragState) (targetType : PileType) (targetIndex : Nat)
    (g : Game) : Option Outcome :=
  match saveState g with
  | none => some (.threw g)
  | some g1 =>
    let g2 : Game :=
      match d.sourceType with
      | .tableau =>
        { g1 with
          tableau := modifyAt g1.tableau d.sourceIndex fun s =>
            d.cards.foldl (fun s _ => s.pop.2) s }
      | .freecell =>
        { g1 with freeCells := modifyAt g1.freeCells d.sourceIndex fun s => s.pop.2 }
      | .foundation => g1
    let g3 : Game :=
      match targetType with
      | .tableau =>
        { g2 with tableau := modifyAt g2.tableau targetIndex (pushAll d.cards) }
      | .freecell =>
        { g2 with
          freeCells := modifyAt g2.freeCells targetIndex fun s => s.push (firstCard d.cards) }
      | .foundation =>
        { g2 with
          foundations := modifyAt g2.foundations targetIndex fun s => s.push (firstCard d.cards)
          score := g2.score + 100 }
    checkWinOrAutoComplete fuel { g3 with moves := g3.moves + 1 }

/-- Function `tryDragMoveToTableau(colIndex)`: how the call ends; it returns
with the state unchanged when the move is refused. -/
def tryDragMoveToTableau (fuel : Nat) (d : DragState) (colIndex : Nat) (g : Game) :
    Option Outcome :=
  match g.tableau[colIndex]? with
  | none => some (.threw g)
  | some targetStack =>
    match targetStack.peek, firstCard d.cards with
    | some targetTop, some movingCard =>
      if targetTop.getColor = movingCard.getColor then some (.returned g)
      else if targetTop.value ≠ movingCard.value + 1 then some (.returned g)
      else performDragMove fuel d .tableau colIndex g
    | some _, none => some (.threw g)
    | none, _ => performDragMove fuel d .tableau colIndex g

/-- Function `tryDragMoveToFreeCell(cellIndex)`. -/
def tryDragMoveToFreeCell (fuel : Nat) (d : DragState) (cellIndex : Nat) (g : Game) :
    Option Outcome :=
  if d.cards.length > 1 then some (.returned g)
  else
    match g.freeCells[cellIndex]? with
    | none => some (.threw g)
    | some cell =>
      if !cell.isEmpty then some (.returned g)
      else performDragMove fuel d .freecell cellIndex g

/-- Function `tryDragMoveToFoundation(foundIndex)`. -/
def tryDragMoveToFoundation (fuel : Nat) (d : DragState) (foundIndex : Nat) (g : Game) :
    Option Outcome :=
  if d.cards.length > 1 then some (.returned g)
  else
    match g.foundations[foundIndex]?, SUITS[foundIndex]?, firstCard d.cards with
    | some foundation, some targetSuit, some movingCard =>
      if movingCard.suit ≠ targetSuit then some (.returned g)
      else
        match foundation.peek with
        | some foundTop =>
          if movingCard.value ≠ foundTop.value + 1 then some (.returned g)
          else performDragMove fuel d .foundation foundIndex g
        | none =>
          if movingCard.value ≠ 1 then some (.returned g)
          else performDragMove fuel d .foundation foundIndex g
    | _, _, _ => some (.threw g)

/-- Where the pointer is when the button is released: over a tableau column,
a free cell, a foundation, or none of them. -/
inductive DropTarget
  | column (col : Nat)
  | freeCell (index : Nat)
  | foundation (index : Nat)
  | elsewhere
  deriving DecidableEq

/-- Function `handleDragEnd(e)`, the element under the pointer given as a
drop target: `dragState` is reset unless the move threw. -/
def handleDragEnd (fuel : Nat) (target : DropTarget) (g : Game) : Option Game :=
  match g.dragState with
  | none => some g
  | some d =>
    let r : Option Outcome :=
      match target with
      | .column col => tryDragMoveToTableau fuel d col g
      | .freeCell index => tryDragMoveToFreeCell fuel d index g
      | .foundation index => tryDragMoveToFoundation fuel d index g
      | .elsewhere => some (.returned g)
    r.map fun o =>
      match o with
      | .returned g1 => { g1 with dragState := none }
      | .threw g1 => g1

/-- Function `undo()`. -/
def undo (g : Game) : Game :=
  match g.history.getLast? with
  | none => g
  | some state =>
    { g with
      history := g.history.dropLast
      tableau := (List.range 8).map fun i =>
        pushAll ((state.tableau.getD i []).map some) (Stack.new none)
      freeCells := (List.range 4).map fun i =>
        match (state.freeCells.getD i none) with
        | some card => (Stack.new (some 1)).push (some card)
        | none => Stack.new (some 1)
      foundations := (List.range 4).map fun i =>
        pushAll ((state.foundations.getD i []).map some) (Stack.new none)
      score := state.score
      moves := state.moves }

/-- What the player does: a click on a card, a click on a pile, a press on a
card, a release over a drop target, the undo button. -/
inductive Action
  | cardClick (sourceType : PileType) (sourceIndex cardIndex : Nat)
  | emptyClick (targetType : PileType) (targetIndex : Nat)
  | dragStart (sourceType : PileType) (sourceIndex cardIndex : Nat)
  | dragEnd (target : DropTarget)
  | undo
  deriving DecidableEq

/-- The handler that an action runs. -/
def Action.run (fuel : Nat) : Action → Game → Option Game
  | .cardClick sourceType sourceIndex cardIndex, g =>
    handleCardClick fuel sourceType sourceIndex cardIndex g
  | .emptyClick targetType targetIndex, g => handleEmptyClick fuel targetType targetIndex g
  | .dragStart sourceType sourceIndex cardIndex, g =>
    some (handleDragStart sourceType sourceIndex cardIndex g)
  | .dragEnd target, g => handleDragEnd fuel target g
  | .undo, g => some (FreeCell.undo g)

/-- The state after a sequence of actions, run from left to right. -/
def runActions (fuel : Nat) : List Action → Game → Option Game
  | [], g => some g
  | a :: rest, g =>
    match a.run fuel g with
    | none => none
    | some g1 => runActions fuel rest g1

/-! ## Notions used to state the properties of the FreeCell code -/

/-- The outcomes of the 51 random draws of one shuffle; all later draws are
0. -/
def staleDraws : List Nat :=
  [51, 50, 49, 48, 47, 46, 45, 44, 5, 42, 41, 40, 39, 38, 37, 36, 35, 34, 33, 32, 31, 30, 29,
   28, 27, 26, 25, 24, 23, 22, 21, 20, 19, 18, 17, 13, 15, 14, 13, 12, 11, 10, 9, 8, 7, 0, 5,
   4, 3, 2, 1]

/-- The random stream whose draws are `staleDraws`. -/
def staleRnd (k : Nat) : Nat := staleDraws.getD k 0

/-- A click that selects the last card of column 0, a drag of that card to
free cell 0, a drag of the last card of column 1 onto column 0, and a click on
foundation 0. -/
def staleClicks : List Action :=
  [.cardClick .tableau 0 6, .dragStart .tableau 0 6, .dragEnd (.freeCell 0),
   .dragStart .tableau 1 6, .dragEnd (.column 0), .emptyClick .foundation 0]

/-- The arrays of the four foundations. -/
def foundationArrays (g : Game) : List (List (Option Card)) :=
  g.foundations.map Stack.toArray

end FreeCell

/-! ## Properties of the Sudoku generator and solver -/

namespace Sudoku

theorem swap_perm {α : Type} (arr : List α) (i j : Nat) : (swap arr i j).Perm arr := by
  classical
  unfold swap
  split
  · rename_i a b ha hb
    obtain ⟨hi, hai⟩ := List.getElem?_eq_some_iff.1 ha
    obtain ⟨hj, hbj⟩ := List.getElem?_eq_some_iff.1 hb
    rw [List.perm_iff_count]
    intro x
    have hj2 : j < (arr.set i b).length := by simpa using hj
    rw [List.count_set _ _ _ _ hj2, List.count_set _ _ _ _ hi]
    simp only [List.getElem_set, hai, hbj, beq_iff_eq]
    have hpos_a : a = x → 0 < arr.count x := fun h =>
      List.count_pos_iff.2 (h ▸ hai ▸ List.getElem_mem hi)
    have hpos_b : b = x → 0 < arr.count x := fun h =>
      List.count_pos_iff.2 (h ▸ hbj ▸ List.getElem_mem hj)
    by_cases hij : i = j
    · subst hij
      have hab : a = b := by rw [← hai, ← hbj]
      subst hab
      simp only [if_true]
      by_cases hax : a = x
      · have := hpos_a hax
        simp [hax]; omega
      · simp [hax]
    · simp only [hij, if_false]
      by_cases hax : a = x <;> by_cases hbx : b = x
      · have := hpos_a hax; simp [hax, hbx]; omega
      · have := hpos_a hax; simp [hax, hbx]; omega
      · simp [hax, hbx]
      · simp [hax, hbx]
  · exact List.Perm.refl _

theorem shuffleLoop_perm {α : Type} (rnd : Nat → Nat) :
    ∀ (i : Nat) (arr : List α) (k : Nat), (shuffleLoop rnd i arr k).1.Perm arr
  | 0, _, _ => List.Perm.refl _
  | i + 1, arr, k => (shuffleLoop_perm rnd i _ (k + 1)).trans (swap_perm arr _ _)

theorem shuffleArray_perm {α : Type} (rnd : Nat → Nat) (array : List α) (k : Nat) :
    (shuffleArray rnd array k).1.Perm array :=
  shuffleLoop_perm rnd _ array k

theorem mem_allPositions (p : Fin 9 × Fin 9) : p ∈ allPositions := by
  unfold allPositions
  simp [List.mem_flatMap, List.mem_map]

theorem nodup_allPositions : allPositions.Nodup := by decide

theorem Peer.symm {r c r' c' : Fin 9} (h : Peer r c r' c') : Peer r' c' r c := by
  obtain ⟨h1, h2⟩ := h
  refine ⟨?_, ?_⟩
  · rcases h1 with h | h
    · exact Or.inl (Ne.symm h)
    · exact Or.inr (Ne.symm h)
  · rcases h2 with h | h | ⟨h, h'⟩
    · exact Or.inl h.symm
    · exact Or.inr (Or.inl h.symm)
    · exact Or.inr (Or.inr ⟨h.symm, h'.symm⟩)

theorem box_iff : ∀ r row : Fin 9, (∃ d : Fin 3, boxIdx row d = r) ↔ r.val / 3 = row.val / 3 := by
  decide

theorem isValid_eq_true_iff (b : SudokuBoard) (row col : Fin 9) (d : Nat) :
    b.isValid row col d = true ↔
      (∀ c, c ≠ col → b.grid row c ≠ d) ∧ (∀ r, r ≠ row → b.grid r col ≠ d) ∧
      (∀ r c, r.val / 3 = row.val / 3 → c.val / 3 = col.val / 3 → (r ≠ row ∨ c ≠ col) →
        b.grid r c ≠ d) := by
  unfold SudokuBoard.isValid
  simp only [List.any_eq_true, List.mem_finRange, true_and, Bool.and_eq_true, bne_iff_ne,
    beq_iff_eq, Bool.or_eq_true, ne_eq]
  constructor
  · intro h
    split at h
    · simp at h
    · split at h
      · simp at h
      · split at h
        · simp at h
        · rename_i h1 h2 h3
          refine ⟨fun c hc hd => h1 ⟨c, hc, hd⟩, fun r hr hd => h2 ⟨r, hr, hd⟩, ?_⟩
          intro r c hr hc hne hd
          obtain ⟨dr, hdr⟩ := (box_iff r row).2 hr
          obtain ⟨dc, hdc⟩ := (box_iff c col).2 hc
          exact h3 ⟨dr, dc, by rw [hdr, hdc]; exact hne, by rw [hdr, hdc]; exact hd⟩
  · rintro ⟨h1, h2, h3⟩
    rw [if_neg, if_neg, if_neg]
    · rintro ⟨dr, dc, hne, hd⟩
      exact h3 _ _ ((box_iff _ row).1 ⟨dr, rfl⟩) ((box_iff _ col).1 ⟨dc, rfl⟩) hne hd
    · rintro ⟨r, hr, hd⟩
      exact h2 r hr hd
    · rintro ⟨c, hc, hd⟩
      exact h1 c hc hd

theorem isValid_iff_peer (b : SudokuBoard) (row col : Fin 9) (d : Nat) :
    b.isValid row col d = true ↔ ∀ r c, Peer row col r c → b.grid r c ≠ d := by
  rw [isValid_eq_true_iff]
  constructor
  · rintro ⟨h1, h2, h3⟩ r c ⟨hne, hp⟩
    rcases hp with h | h | ⟨h, h'⟩
    · subst h
      rcases hne with hne | hne
      · exact absurd rfl hne
      · exact h1 c hne
    · subst h
      rcases hne with hne | hne
      · exact h2 r hne
      · exact absurd rfl hne
    · exact h3 r c h h' hne
  · intro h
    refine ⟨fun c hc => h row c ⟨Or.inr hc, Or.inl rfl⟩,
      fun r hr => h r col ⟨Or.inl hr, Or.inr (Or.inl rfl)⟩,
      fun r c hr hc hne => h r c ⟨hne, Or.inr (Or.inr ⟨hr, hc⟩)⟩⟩

theorem countP_flip {α : Type} [DecidableEq α] (f f' : α → Bool) (p : α) (hf : f p = true)
    (hf' : f' p = false) (h : ∀ q, q ≠ p → f' q = f q) :
    ∀ l : List α, l.Nodup → p ∈ l → l.countP f' + 1 = l.countP f
  | [], _, hp => by simp at hp
  | a :: l, hnd, hp => by
    rw [List.nodup_cons] at hnd
    by_cases hap : a = p
    · subst hap
      have hrest : l.countP f' = l.countP f := by
        apply List.countP_congr
        intro x hx
        have hxa : x ≠ a := fun e => hnd.1 (e ▸ hx)
        rw [h x hxa]
      simp [List.countP_cons, hf, hf', hrest]
    · have hp' : p ∈ l := by
        rcases List.mem_cons.1 hp with e | e
        · exact absurd e.symm hap
        · exact e
      have ih := countP_flip f f' p hf hf' h l hnd.2 hp'
      simp only [List.countP_cons, h a hap]
      omega

theorem countEmpty_setValue (b : SudokuBoard) (row col : Fin 9) (num : Nat)
    (h0 : b.grid row col = 0) (hnum : num ≠ 0) :
    (b.setValue row col num).countEmpty + 1 = b.countEmpty := by
  unfold SudokuBoard.countEmpty
  apply countP_flip _ _ (row, col) _ _ _ _ nodup_allPositions (mem_allPositions _)
  · simp [h0]
  · simp [SudokuBoard.setValue, hnum]
  · rintro ⟨r, c⟩ hq
    have : ¬ (r = row ∧ c = col) := fun ⟨h1, h2⟩ => hq (by rw [h1, h2])
    simp [SudokuBoard.setValue, this]

theorem setValue_undo (b : SudokuBoard) (row col : Fin 9) (num : Nat)
    (h0 : b.grid row col = 0) : (b.setValue row col num).setValue row col 0 = b := by
  cases b with
  | mk g o =>
    simp only [SudokuBoard.setValue, SudokuBoard.mk.injEq, and_true]
    funext r c
    by_cases h : r = row ∧ c = col
    · obtain ⟨h1, h2⟩ := h
      subst h1; subst h2
      simp only [and_self, if_true]
      exact h0.symm
    · simp [h]

theorem findEmpty_some {b : SudokuBoard} {row col : Fin 9} (h : b.findEmpty = some (row, col)) :
    b.grid row col = 0 := by
  have := List.find?_some h
  simpa using this

theorem findEmpty_none {b : SudokuBoard} (h : b.findEmpty = none) : Full b.grid := by
  intro r c
  have := List.find?_eq_none.1 h (r, c) (mem_allPositions _)
  simpa using this

theorem countEmpty_of_findEmpty_none {b : SudokuBoard} (h : b.findEmpty = none) : b.countEmpty = 0 := by
  unfold SudokuBoard.countEmpty
  rw [List.countP_eq_zero]
  intro p hp
  have := List.find?_eq_none.1 h p hp
  exact this

theorem post_of_full {b : SudokuBoard} (h : b.findEmpty = none) : Post b true b :=
  ⟨fun h' => (nomatch h'), fun _ => ⟨rfl, findEmpty_none h, fun _ _ _ => rfl, id, id⟩⟩

theorem loopPost_nil (row col : Fin 9) (b : SudokuBoard) : LoopPost row col [] b false b :=
  ⟨fun _ => ⟨rfl, fun _ _ _ h => (nomatch h)⟩, fun h => (nomatch h)⟩

theorem loopPost_invalid {row col : Fin 9} {num : Nat} {rest : List Nat} {b b' : SudokuBoard}
    {r : Bool} (hv : ¬ b.isValid row col num = true) (h : LoopPost row col rest b r b') :
    LoopPost row col (num :: rest) b r b' := by
  refine ⟨fun hr => ?_, h.2⟩
  obtain ⟨hb, hS⟩ := h.1 hr
  refine ⟨hb, fun S hsol hag hmem => ?_⟩
  rcases List.mem_cons.1 hmem with e | e
  · rw [isValid_iff_peer] at hv
    push_neg at hv
    obtain ⟨r', c', hp, hd⟩ := hv
    by_cases h0 : num = 0
    · exact hsol.1 row col (e.trans h0)
    · have h1 : b.grid r' c' ≠ 0 := by rw [hd]; exact h0
      have h2 : S r' c' = num := (hag r' c' h1).trans hd
      have h3 := hsol.2.2 r' c' row col hp.symm (by rw [h2]; exact h0)
      exact h3 (e.trans h2.symm)
  · exact hS S hsol hag e

theorem agrees_setValue {b : SudokuBoard} {row col : Fin 9} (num : Nat)
    (h0 : b.grid row col = 0) {g : Grid} (h : Agrees (b.setValue row col num).grid g) :
    Agrees b.grid g := by
  intro r c hne
  have hrc : ¬ (r = row ∧ c = col) := fun ⟨h1, h2⟩ => hne (by rw [h1, h2]; exact h0)
  have := h r c (by simpa [SudokuBoard.setValue, hrc] using hne)
  simpa [SudokuBoard.setValue, hrc] using this

theorem noClash_setValue {b : SudokuBoard} {row col : Fin 9} {num : Nat}
    (hv : b.isValid row col num = true) (h : NoClash b.grid) :
    NoClash (b.setValue row col num).grid := by
  rw [isValid_iff_peer] at hv
  intro r c r' c' hp hne
  simp only [SudokuBoard.setValue] at hne ⊢
  by_cases h1 : r = row ∧ c = col
  · obtain ⟨e1, e2⟩ := h1
    subst e1; subst e2
    have h2 : ¬ (r' = r ∧ c' = c) := by
      rintro ⟨e1, e2⟩
      rcases hp.1 with h | h
      · exact h e1
      · exact h e2
    simp only [h2, if_false, and_self, if_true]
    exact hv r' c' hp
  · simp only [h1, if_false] at hne ⊢
    by_cases h2 : r' = row ∧ c' = col
    · obtain ⟨e1, e2⟩ := h2
      subst e1; subst e2
      simp only [and_self, if_true]
      exact fun e => hv r c hp.symm e.symm
    · simp only [h2, if_false]
      exact h r c r' c' hp hne

theorem inRange_setValue {b : SudokuBoard} {row col : Fin 9} {num : Nat}
    (hnum : num ≤ 9) (h : InRange b.grid) : InRange (b.setValue row col num).grid := by
  intro r c
  simp only [SudokuBoard.setValue]
  split
  · exact hnum
  · exact h r c

theorem loopPost_true {row col : Fin 9} {num : Nat} (rest : List Nat) {b b1 : SudokuBoard}
    (hv : b.isValid row col num = true) (hnum : num ≤ 9) (h0 : b.grid row col = 0)
    (h : Post (b.setValue row col num) true b1) : LoopPost row col (num :: rest) b true b1 := by
  refine ⟨fun hr => (nomatch hr), fun _ => ?_⟩
  obtain ⟨ho, hfull, hag, hnc, hir⟩ := h.2 rfl
  exact ⟨ho, hfull, agrees_setValue num h0 hag, fun h => hnc (noClash_setValue hv h),
    fun h => hir (inRange_setValue hnum h)⟩

theorem setValue_restore {row col : Fin 9} {num : Nat} {b b1 : SudokuBoard}
    (h0 : b.grid row col = 0) (h : Post (b.setValue row col num) false b1) :
    b1.setValue row col 0 = b := by
  rw [(h.1 rfl).1]
  exact setValue_undo b row col num h0

theorem loopPost_false {row col : Fin 9} {num : Nat} {rest : List Nat} {b b1 b' : SudokuBoard}
    {r : Bool} (h : Post (b.setValue row col num) false b1)
    (hl : LoopPost row col rest b r b') : LoopPost row col (num :: rest) b r b' := by
  obtain ⟨_, hno⟩ := h.1 rfl
  refine ⟨fun hr => ?_, hl.2⟩
  obtain ⟨hb, hS⟩ := hl.1 hr
  refine ⟨hb, fun S hsol hag hmem => ?_⟩
  rcases List.mem_cons.1 hmem with e | e
  · apply hno S hsol
    intro r c hne
    simp only [SudokuBoard.setValue] at hne ⊢
    by_cases h1 : r = row ∧ c = col
    · obtain ⟨e1, e2⟩ := h1
      subst e1; subst e2
      simp only [and_self, if_true]
      exact e
    · simp only [h1, if_false] at hne ⊢
      exact hag r c hne
  · exact hS S hsol hag e

theorem mem_digits (x : Nat) : x ∈ [1, 2, 3, 4, 5, 6, 7, 8, 9] ↔ 1 ≤ x ∧ x ≤ 9 := by
  simp only [List.mem_cons, List.mem_singleton, List.not_mem_nil, or_false]
  omega

theorem post_of_loop {row col : Fin 9} {nums : List Nat} {b b' : SudokuBoard} {r : Bool}
    (hall : ∀ d, 1 ≤ d → d ≤ 9 → d ∈ nums) (h : LoopPost row col nums b r b') : Post b r b' := by
  refine ⟨fun hr => ?_, h.2⟩
  obtain ⟨hb, hS⟩ := h.1 hr
  refine ⟨hb, fun S hsol hag => ?_⟩
  exact hS S hsol hag (hall _ (Nat.one_le_iff_ne_zero.2 (hsol.1 row col)) (hsol.2.1 row col))

theorem fillLoop_spec (recur : SudokuBoard → Nat → Option FillResult) (n : Nat) (row col : Fin 9)
    (IH : ∀ b k, b.countEmpty < n → ∃ r b' k', recur b k = some (r, b', k') ∧ Post b r b') :
    ∀ (nums : List Nat) (b : SudokuBoard) (k : Nat), b.grid row col = 0 → b.countEmpty ≤ n →
      (∀ x ∈ nums, 1 ≤ x ∧ x ≤ 9) →
      ∃ r b' k', fillLoop recur row col nums b k = some (r, b', k') ∧
        LoopPost row col nums b r b'
  | [], b, k, _, _, _ => ⟨false, b, k, rfl, loopPost_nil row col b⟩
  | num :: rest, b, k, h0, hn, hnums => by
    have hrest : ∀ x ∈ rest, 1 ≤ x ∧ x ≤ 9 := fun x hx => hnums x (List.mem_cons_of_mem _ hx)
    have hnum := hnums num (List.mem_cons_self _ _)
    by_cases hv : b.isValid row col num = true
    · have hce : (b.setValue row col num).countEmpty < n := by
        have := countEmpty_setValue b row col num h0 (by omega)
        omega
      obtain ⟨r1, b1, k1, hrec, hpost⟩ := IH _ k hce
      cases r1 with
      | true =>
        refine ⟨true, b1, k1, ?_, loopPost_true rest hv hnum.2 h0 hpost⟩
        simp only [fillLoop, hv, if_true, hrec]
      | false =>
        have hundo := setValue_restore h0 hpost
        obtain ⟨r, b', k', heq, hl⟩ := fillLoop_spec recur n row col IH rest b k1 h0 hn hrest
        refine ⟨r, b', k', ?_, loopPost_false hpost hl⟩
        simp only [fillLoop, hv, if_true, hrec, hundo, heq]
    · obtain ⟨r, b', k', heq, hl⟩ := fillLoop_spec recur n row col IH rest b k h0 hn hrest
      refine ⟨r, b', k', ?_, loopPost_invalid hv hl⟩
      simp only [fillLoop, hv, if_false, heq]
      rfl

theorem shuffled_numbers (rnd : Nat → Nat) (k : Nat) (x : Nat) :
    x ∈ (shuffleArray rnd [1, 2, 3, 4, 5, 6, 7, 8, 9] k).1 ↔ 1 ≤ x ∧ x ≤ 9 := by
  rw [(shuffleArray_perm rnd _ k).mem_iff]
  exact mem_digits x

theorem fillBoard_spec (rnd : Nat → Nat) :
    ∀ (fuel : Nat) (b : SudokuBoard) (k : Nat), b.countEmpty < fuel →
      ∃ r b' k', fillBoard rnd fuel b k = some (r, b', k') ∧ Post b r b'
  | 0, _, _, h => absurd h (Nat.not_lt_zero _)
  | fuel + 1, b, k, h => by
    cases hf : b.findEmpty with
    | none => exact ⟨true, b, k, by simp only [fillBoard, hf], post_of_full hf⟩
    | some p =>
      obtain ⟨row, col⟩ := p
      obtain ⟨r, b', k', heq, hl⟩ := fillLoop_spec (fillBoard rnd fuel) fuel row col
        (fun b k hb => fillBoard_spec rnd fuel b k hb)
        (shuffleArray rnd [1, 2, 3, 4, 5, 6, 7, 8, 9] k).1 b
        (shuffleArray rnd [1, 2, 3, 4, 5, 6, 7, 8, 9] k).2 (findEmpty_some hf)
        (Nat.lt_succ_iff.1 h) (fun x hx => (shuffled_numbers rnd k x).1 hx)
      refine ⟨r, b', k', ?_, post_of_loop (fun d h1 h2 => (shuffled_numbers rnd k d).2 ⟨h1, h2⟩) hl⟩
      simp only [fillBoard, hf, heq]

theorem solveLoop_spec (recur : SudokuBoard → List Step → Option SolveResult) (n : Nat)
    (row col : Fin 9)
    (IH : ∀ b st, b.countEmpty < n → ∃ r b' st', recur b st = some (r, b', st') ∧ Post b r b') :
    ∀ (nums : List Nat) (b : SudokuBoard) (st : List Step), b.grid row col = 0 →
      b.countEmpty ≤ n → (∀ x ∈ nums, 1 ≤ x ∧ x ≤ 9) →
      ∃ r b' st', solveLoop recur row col nums b st = some (r, b', st') ∧
        LoopPost row col nums b r b'
  | [], b, st, _, _, _ => ⟨false, b, st, rfl, loopPost_nil row col b⟩
  | num :: rest, b, st, h0, hn, hnums => by
    have hrest : ∀ x ∈ rest, 1 ≤ x ∧ x ≤ 9 := fun x hx => hnums x (List.mem_cons_of_mem _ hx)
    have hnum := hnums num (List.mem_cons_self _ _)
    by_cases hv : b.isValid row col num = true
    · have hce : (b.setValue row col num).countEmpty < n := by
        have := countEmpty_setValue b row col num h0 (by omega)
        omega
      obtain ⟨r1, b1, st1, hrec, hpost⟩ := IH _
        ((st ++ [{ type := .try_, row := row, col := col, num := num }]) ++
          [{ type := .place, row := row, col := col, num := num }]) hce
      cases r1 with
      | true =>
        refine ⟨true, b1, st1, ?_, loopPost_true rest hv hnum.2 h0 hpost⟩
        simp only [solveLoop, hv, if_true, hrec]
      | false =>
        have hundo := setValue_restore h0 hpost
        obtain ⟨r, b', st', heq, hl⟩ := solveLoop_spec recur n row col IH rest b
          (st1 ++ [{ type := .backtrack, row := row, col := col, num := 0 }]) h0 hn hrest
        refine ⟨r, b', st', ?_, loopPost_false hpost hl⟩
        simp only [solveLoop, hv, if_true, hrec, hundo, heq]
    · obtain ⟨r, b', st', heq, hl⟩ := solveLoop_spec recur n row col IH rest b
        (st ++ [{ type := .try_, row := row, col := col, num := num }]) h0 hn hrest
      refine ⟨r, b', st', ?_, loopPost_invalid hv hl⟩
      simp only [solveLoop, hv, if_false, heq]
      rfl

theorem solveRecursive_spec :
    ∀ (fuel : Nat) (b : SudokuBoard) (st : List Step), b.countEmpty < fuel →
      ∃ r b' st', solveRecursive fuel b st = some (r, b', st') ∧ Post b r b'
  | 0, _, _, h => absurd h (Nat.not_lt_zero _)
  | fuel + 1, b, st, h => by
    cases hf : b.findEmpty with
    | none => exact ⟨true, b, st, by simp only [solveRecursive, hf], post_of_full hf⟩
    | some p =>
      obtain ⟨row, col⟩ := p
      obtain ⟨r, b', st', heq, hl⟩ := solveLoop_spec (solveRecursive fuel) fuel row col
        (fun b st hb => solveRecursive_spec fuel b st hb)
        [1, 2, 3, 4, 5, 6, 7, 8, 9] b st (findEmpty_some hf)
        (Nat.lt_succ_iff.1 h) (fun x hx => (mem_digits x).1 hx)
      refine ⟨r, b', st', ?_, post_of_loop (fun d h1 h2 => (mem_digits d).2 ⟨h1, h2⟩) hl⟩
      simp only [solveRecursive, hf, heq]

theorem countEmpty_le (b : SudokuBoard) : b.countEmpty ≤ 81 := by
  unfold SudokuBoard.countEmpty
  exact (List.countP_le_length _).trans (by decide)

theorem noClash_of_unique {g : Grid} (h : Unique g) : NoClash g := by
  intro r c r' c' hp _
  obtain ⟨hne, hp⟩ := hp
  rcases hp with e | e | ⟨e1, e2⟩
  · subst e
    rcases hne with hne | hne
    · exact absurd rfl hne
    · exact h.1 r' c' c hne
  · subst e
    rcases hne with hne | hne
    · exact h.2.1 c' r' r hne
    · exact absurd rfl hne
  · exact h.2.2 r' c' r c e1 e2 hne

theorem unique_of_noClash {g : Grid} (hf : Full g) (h : NoClash g) : Unique g := by
  refine ⟨fun r c c' hne => ?_, fun c r r' hne => ?_, fun r c r' c' e1 e2 hne => ?_⟩
  · exact h r c' r c ⟨Or.inr hne, Or.inl rfl⟩ (hf _ _)
  · exact h r' c r c ⟨Or.inl hne, Or.inr (Or.inl rfl)⟩ (hf _ _)
  · exact h r' c' r c ⟨hne, Or.inr (Or.inr ⟨e1, e2⟩)⟩ (hf _ _)

theorem sampleSolution_unique : Unique sampleSolution := by
  refine ⟨?_, ?_, ?_⟩
  · intro r c c' hne
    have h1 := r.isLt; have h2 := c.isLt; have h3 := c'.isLt
    have h4 : c.val ≠ c'.val := fun e => hne (Fin.ext e)
    simp only [sampleSolution]
    omega
  · intro c r r' hne
    have h1 := r.isLt; have h2 := c.isLt; have h3 := r'.isLt
    have h4 : r.val ≠ r'.val := fun e => hne (Fin.ext e)
    simp only [sampleSolution]
    omega
  · intro r c r' c' e1 e2 hne
    have h1 := r.isLt; have h2 := c.isLt; have h3 := r'.isLt; have h5 := c'.isLt
    have h4 : r.val ≠ r'.val ∨ c.val ≠ c'.val := by
      rcases hne with h | h
      · exact Or.inl fun e => h (Fin.ext e)
      · exact Or.inr fun e => h (Fin.ext e)
    simp only [sampleSolution]
    omega

theorem sampleSolution_range (r c : Fin 9) : 1 ≤ sampleSolution r c ∧ sampleSolution r c ≤ 9 := by
  simp only [sampleSolution]
  omega

theorem sampleSolution_isSolution : IsSolution sampleSolution :=
  ⟨fun r c => by have := (sampleSolution_range r c).1; omega,
   fun r c => (sampleSolution_range r c).2, noClash_of_unique sampleSolution_unique⟩

theorem existsUnique_of_injective {ι : Type} [Fintype ι] (hcard : Fintype.card ι = 9)
    (f : ι → Nat) (hinj : Function.Injective f) (hr : ∀ i, 1 ≤ f i ∧ f i ≤ 9)
    (d : Nat) (h1 : 1 ≤ d) (h9 : d ≤ 9) : ∃! i, f i = d := by
  let F : ι → Fin 9 := fun i => ⟨f i - 1, by have := hr i; omega⟩
  have hF : Function.Injective F := by
    intro i j hij
    apply hinj
    have := congrArg Fin.val hij
    simp only [F] at this
    have := hr i; have := hr j
    omega
  have hbij : Function.Bijective F :=
    (Fintype.bijective_iff_injective_and_card F).2 ⟨hF, by simp [hcard]⟩
  obtain ⟨i, hi⟩ := hbij.2 ⟨d - 1, by omega⟩
  refine ⟨i, ?_, ?_⟩
  · have := congrArg Fin.val hi
    simp only [F] at this
    have := hr i
    show f i = d
    omega
  · intro j hj
    apply hF
    rw [hi]
    apply Fin.ext
    simp only [F]
    omega

theorem eachDigitOnce_of_solution {g : Grid} (h : IsSolution g) : EachDigitOnce g := by
  obtain ⟨hf, hr, hn⟩ := h
  have hu := unique_of_noClash hf hn
  have hrange : ∀ r c, 1 ≤ g r c ∧ g r c ≤ 9 := fun r c =>
    ⟨Nat.one_le_iff_ne_zero.2 (hf r c), hr r c⟩
  refine ⟨hrange, fun d h1 h9 => ⟨fun r => ?_, fun c => ?_, fun br bc => ?_⟩⟩
  · apply existsUnique_of_injective (by simp) (fun c => g r c) _ (fun c => hrange r c) d h1 h9
    intro c c' e
    by_contra hne
    exact hu.1 r c c' hne e
  · apply existsUnique_of_injective (by simp) (fun r => g r c) _ (fun r => hrange r c) d h1 h9
    intro r r' e
    by_contra hne
    exact hu.2.1 c r r' hne e
  · apply existsUnique_of_injective (by simp)
      (fun p : Fin 3 × Fin 3 => g (boxCell br p.1) (boxCell bc p.2)) _
      (fun p => hrange _ _) d h1 h9
    rintro ⟨a, b⟩ ⟨a', b'⟩ e
    by_contra hne
    refine hu.2.2 (boxCell br a) (boxCell bc b) (boxCell br a') (boxCell bc b') ?_ ?_ ?_ e
    · have := a.isLt; have := a'.isLt
      simp only [boxCell]; omega
    · have := b.isLt; have := b'.isLt
      simp only [boxCell]; omega
    · by_cases ha : a = a'
      · right
        intro hb
        apply hne
        have : b.val = b'.val := by
          have := congrArg Fin.val hb
          simp only [boxCell] at this
          omega
        rw [ha, Fin.ext this]
      · left
        intro hb
        apply ha
        have := congrArg Fin.val hb
        simp only [boxCell] at this
        exact Fin.ext (by omega)

theorem agrees_zero (b : SudokuBoard) (S : Grid) : Agrees b.clear.grid S := by
  intro r c h
  exact absurd rfl h

theorem noClash_zero (b : SudokuBoard) : NoClash b.clear.grid := by
  intro r c r' c' _ h
  exact absurd rfl h

theorem inRange_zero (b : SudokuBoard) : InRange b.clear.grid := by
  intro r c
  exact Nat.zero_le _

/-- Running `fillBoard` on a cleared board returns `true` with a solution. -/
theorem fillBoard_clear (rnd : Nat → Nat) (n : Nat) (b : SudokuBoard) (k : Nat) :
    ∃ b' k', fillBoard rnd (82 + n) b.clear k = some (true, b', k') ∧ IsSolution b'.grid := by
  obtain ⟨r, b', k', heq, hpost⟩ := fillBoard_spec rnd (82 + n) b.clear k
    (by have := countEmpty_le b.clear; omega)
  cases r with
  | false =>
    exact absurd (agrees_zero b sampleSolution)
      ((hpost.1 rfl).2 sampleSolution sampleSolution_isSolution)
  | true =>
    obtain ⟨_, hfull, _, hnc, hir⟩ := hpost.2 rfl
    exact ⟨b', k', heq, hfull, hir (inRange_zero b), hnc (noClash_zero b)⟩

theorem generatePuzzle_eq {rnd : Nat → Nat} {fuel : Nat} {s : Game} {k : Nat} {r : Bool}
    {b2 : SudokuBoard} {k2 : Nat} (h : fillBoard rnd fuel s.board.clear k = some (r, b2, k2)) :
    generatePuzzle rnd fuel s k =
      some ({ (removeCells rnd (DIFFICULTY s.currentDifficulty)
                { s with board := b2, solution := some b2.copyGrid } k2).1 with
              board := (removeCells rnd (DIFFICULTY s.currentDifficulty)
                { s with board := b2, solution := some b2.copyGrid } k2).1.board.saveAsOriginal },
            (removeCells rnd (DIFFICULTY s.currentDifficulty)
              { s with board := b2, solution := some b2.copyGrid } k2).2) := by
  simp only [generatePuzzle, h]

/-- Claim C1.  For every outcome of the random shuffles (every stream `rnd`
and counter `k`) and every fuel from 82 on, `generatePuzzle` returns, and the
grid it saves as `solution` is the board that `fillBoard` leaves on the
cleared board: every cell holds a digit `1..9`, and each digit `1..9` occurs
exactly once in every row, every column and every 3x3 box. -/
theorem generatePuzzle_solution_valid (rnd : Nat → Nat) (n : Nat) (s : Game) (k : Nat) :
    ∃ s' k' sol, generatePuzzle rnd (82 + n) s k = some (s', k') ∧ s'.solution = some sol ∧
      (∃ b' k2, fillBoard rnd (82 + n) s.board.clear k = some (true, b', k2) ∧ sol = b'.grid) ∧
      EachDigitOnce sol := by
  obtain ⟨b', k2, heq, hsol⟩ := fillBoard_clear rnd n s.board k
  exact ⟨_, _, b'.grid, generatePuzzle_eq heq, rfl, ⟨b', k2, heq, rfl⟩,
    eachDigitOnce_of_solution hsol⟩

theorem removeLoop_grid (count : Nat) :
    ∀ (l : List (Fin 9 × Fin 9)) (removed : Nat) (b : SudokuBoard) (r c : Fin 9),
      (removeLoop count l removed b).grid r c =
        if (r, c) ∈ l.take (count - removed) then 0 else b.grid r c
  | [], removed, b, r, c => by simp [removeLoop]
  | pos :: rest, removed, b, r, c => by
    by_cases h : removed ≥ count
    · have h0 : count - removed = 0 := by omega
      simp [removeLoop, h, h0]
    · have h1 : count - removed = (count - (removed + 1)) + 1 := by omega
      rw [removeLoop, if_neg h, removeLoop_grid count rest (removed + 1), h1, List.take_succ_cons]
      simp only [List.mem_cons, SudokuBoard.setValue]
      by_cases hp : (r, c) = pos
      · subst hp
        simp
      · have hp' : ¬ (r = pos.1 ∧ c = pos.2) := fun ⟨e1, e2⟩ => hp (Prod.ext e1 e2)
        simp [hp, hp']

theorem removeLoop_originalGrid (count : Nat) :
    ∀ (l : List (Fin 9 × Fin 9)) (removed : Nat) (b : SudokuBoard),
      (removeLoop count l removed b).originalGrid = b.originalGrid
  | [], _, _ => rfl
  | pos :: rest, removed, b => by
    by_cases h : removed ≥ count
    · simp [removeLoop, h]
    · rw [removeLoop, if_neg h, removeLoop_originalGrid count rest]
      rfl

theorem countP_of_mem_take {α : Type} (l : List α) (n : Nat) (p : α → Bool)
    (hp : ∀ x, p x = true ↔ x ∈ l.take n) (hnd : l.Nodup) (hn : n ≤ l.length) :
    l.countP p = n := by
  have hsplit : l.take n ++ l.drop n = l := List.take_append_drop n l
  have hdisj : List.Disjoint (l.take n) (l.drop n) := by
    rw [← hsplit] at hnd
    exact (List.nodup_append.1 hnd).2.2
  have h1 : (l.take n).countP p = n := by
    rw [List.countP_eq_length.2 (fun x hx => (hp x).2 hx), List.length_take]
    omega
  have h2 : (l.drop n).countP p = 0 := by
    rw [List.countP_eq_zero]
    intro x hx hx'
    exact hdisj ((hp x).1 hx') hx
  rw [← hsplit, List.countP_append, h1, h2, Nat.add_zero]

theorem removeCells_countEmpty (rnd : Nat → Nat) (count : Nat) (s : Game) (k : Nat)
    (hfull : Full s.board.grid) (hcount : count ≤ 81) :
    (removeCells rnd count s k).1.board.countEmpty = count := by
  have hperm := shuffleArray_perm rnd allPositions k
  have hnd : (shuffleArray rnd allPositions k).1.Nodup := hperm.nodup_iff.2 nodup_allPositions
  have hlen : (shuffleArray rnd allPositions k).1.length = 81 := by
    rw [hperm.length_eq]; decide
  simp only [SudokuBoard.countEmpty, removeCells]
  rw [← hperm.countP_eq]
  apply countP_of_mem_take _ count _ _ hnd (by omega)
  rintro ⟨r, c⟩
  rw [removeLoop_grid, Nat.sub_zero]
  by_cases hm : (r, c) ∈ (shuffleArray rnd allPositions k).1.take count
  · rw [if_pos hm]
    exact ⟨fun _ => hm, fun _ => rfl⟩
  · rw [if_neg hm]
    exact ⟨fun h => absurd (beq_iff_eq.1 h) (hfull r c), fun h => absurd h hm⟩

theorem removeCells_keeps (rnd : Nat → Nat) (count : Nat) (s : Game) (k : Nat) (r c : Fin 9)
    (h : (removeCells rnd count s k).1.board.grid r c ≠ 0) :
    (removeCells rnd count s k).1.board.grid r c = s.board.grid r c := by
  simp only [removeCells] at h ⊢
  rw [removeLoop_grid, Nat.sub_zero] at h ⊢
  by_cases hm : (r, c) ∈ (shuffleArray rnd allPositions k).1.take count
  · rw [if_pos hm] at h
    exact absurd rfl h
  · rw [if_neg hm]

theorem setValueRef_other (h : RowHeap) (gr : GridRef) (row col : Fin 9) (value : Nat)
    (a : Nat) (ha : a ≠ gr row) : (setValueRef h gr row col value).getD a (fun _ => 0) =
      h.getD a (fun _ => 0) := by
  unfold setValueRef
  simp only [List.getD_eq_getElem?_getD]
  rw [List.getElem?_set_ne (Ne.symm ha)]

theorem removeLoopRef_other (gr : GridRef) (count : Nat) (a : Nat) (ha : ∀ r, a ≠ gr r) :
    ∀ (l : List (Fin 9 × Fin 9)) (removed : Nat) (h : RowHeap),
      (removeLoopRef gr count l removed h).getD a (fun _ => 0) = h.getD a (fun _ => 0)
  | [], _, _ => rfl
  | pos :: rest, removed, h => by
    unfold removeLoopRef
    split
    · rfl
    · rw [removeLoopRef_other gr count a ha rest]
      exact setValueRef_other h gr pos.1 pos.2 0 a (ha pos.1)

theorem readGrid_copy (h : RowHeap) (gr : GridRef) :
    readGrid (copyGridRef h gr).1 (copyGridRef h gr).2 = readGrid h gr := by
  funext r c
  have hget : (h ++ List.ofFn (fun r : Fin 9 => readGrid h gr r))[h.length + r.val]? =
      some (readGrid h gr r) := by
    rw [List.getElem?_append_right (by omega), Nat.add_sub_cancel_left, List.getElem?_ofFn]
    unfold List.ofFnNthVal
    rw [dif_pos r.isLt]
  simp only [readGrid, copyGridRef, List.getD_eq_getElem?_getD]
  rw [hget]
  simp only [Option.getD_some, readGrid, List.getD_eq_getElem?_getD]

theorem copy_survives_removal (rnd : Nat → Nat) (count : Nat) (h : RowHeap) (gr : GridRef)
    (k : Nat) (hgr : ∀ r, gr r < h.length) :
    readGrid (removeCellsRef rnd count (copyGridRef h gr).1 gr k) (copyGridRef h gr).2 =
      readGrid h gr := by
  rw [← readGrid_copy h gr]
  funext r c
  simp only [readGrid, removeCellsRef]
  rw [removeLoopRef_other gr count _ (fun r' => by
    have := hgr r'
    simp only [copyGridRef]
    omega)]

/-- Reading the board after the loop on row addresses gives the board the
loop on values computes, when the nine rows are distinct arrays. -/
theorem readGrid_removeLoopRef (gr : GridRef) (hinj : Function.Injective gr) (count : Nat) :
    ∀ (l : List (Fin 9 × Fin 9)) (removed : Nat) (h : RowHeap) (o : Grid),
      (∀ r, gr r < h.length) →
      readGrid (removeLoopRef gr count l removed h) gr =
        (removeLoop count l removed { grid := readGrid h gr, originalGrid := o }).grid
  | [], _, _, _, _ => rfl
  | pos :: rest, removed, h, o, hgr => by
    unfold removeLoopRef removeLoop
    split
    · rfl
    · have hlen : ∀ r, gr r < (setValueRef h gr pos.1 pos.2 0).length := by
        intro r
        simp only [setValueRef, List.length_set]
        exact hgr r
      have hb : ({ grid := readGrid (setValueRef h gr pos.1 pos.2 0) gr, originalGrid := o } :
          SudokuBoard) =
          ({ grid := readGrid h gr, originalGrid := o } : SudokuBoard).setValue pos.1 pos.2 0 := by
        simp only [SudokuBoard.setValue, SudokuBoard.mk.injEq, and_true]
        funext r c
        simp only [readGrid, setValueRef, List.getD_eq_getElem?_getD]
        by_cases hr : r = pos.1
        · subst hr
          rw [List.getElem?_set_self (hgr _)]
          by_cases hc : c = pos.2
          · simp [hc]
          · simp [hc]
        · have : gr pos.1 ≠ gr r := fun e => hr (hinj e).symm
          rw [List.getElem?_set_ne this]
          simp [hr]
      rw [readGrid_removeLoopRef gr hinj count rest (removed + 1) _ o hlen, hb]

theorem removeCells_solution (rnd : Nat → Nat) (count : Nat) (s : Game) (k : Nat) :
    (removeCells rnd count s k).1.solution = s.solution := by
  simp only [removeCells]

theorem difficulty_le (d : Difficulty) : DIFFICULTY d ≤ 81 := by
  cases d <;> simp [DIFFICULTY]

theorem countEmpty_congr {b b' : SudokuBoard} (h : b'.grid = b.grid) :
    b'.countEmpty = b.countEmpty := by
  unfold SudokuBoard.countEmpty
  rw [h]

theorem generatePuzzle_shape {rnd : Nat → Nat} {fuel : Nat} {s : Game} {k : Nat} {r : Bool}
    {b2 : SudokuBoard} {k2 : Nat} (h : fillBoard rnd fuel s.board.clear k = some (r, b2, k2)) :
    ∃ s' k', generatePuzzle rnd fuel s k = some (s', k') ∧ s'.solution = some b2.copyGrid ∧
      s'.board.grid = (removeCells rnd (DIFFICULTY s.currentDifficulty)
        { s with board := b2, solution := some b2.copyGrid } k2).1.board.grid := by
  refine ⟨_, _, generatePuzzle_eq h, ?_, ?_⟩
  · simp only [removeCells]
  · simp only [SudokuBoard.saveAsOriginal]

/-- Claim C4.  Removing cells never alters the stored solution.  On row
addresses: when the rows of the board are allocated arrays, the grid read
through the copy that `copyGrid` made is, after `removeCells(count)` has
written through the rows of the board, cell for cell the grid the board held
before the removal, for every count and every shuffle outcome.  On the game
state: `removeCells` leaves the global `solution` as it was, and after
`generatePuzzle` the saved `solution` is the copy of the complete grid that
`fillBoard` left. -/
theorem generatePuzzle_solution_kept (rnd : Nat → Nat) (count : Nat) (h : RowHeap)
    (gr : GridRef) (k : Nat) (hgr : ∀ r, gr r < h.length) :
    readGrid (removeCellsRef rnd count (copyGridRef h gr).1 gr k) (copyGridRef h gr).2 =
      readGrid h gr ∧
    (∀ s : Game, (removeCells rnd count s k).1.solution = s.solution) ∧
    (∀ (n : Nat) (s : Game), ∃ b2 k2 s' k',
      fillBoard rnd (82 + n) s.board.clear k = some (true, b2, k2) ∧
      generatePuzzle rnd (82 + n) s k = some (s', k') ∧
      s'.solution = some b2.copyGrid ∧ ∀ r c, b2.copyGrid r c = b2.grid r c) := by
  refine ⟨copy_survives_removal rnd count h gr k hgr,
    fun s => removeCells_solution rnd count s k, fun n s => ?_⟩
  obtain ⟨b2, k2, heq, _⟩ := fillBoard_clear rnd n s.board k
  exact ⟨b2, k2, _, _, heq, generatePuzzle_eq heq, rfl, fun _ _ => rfl⟩

theorem generatePuzzle_solution_kept_witness :
    readGrid (removeCellsRef (fun _ => 0) 45
        (copyGridRef (List.ofFn (fun r : Fin 9 => sampleSolution r)) (fun r => r.val)).1
        (fun r => r.val) 0)
      (copyGridRef (List.ofFn (fun r : Fin 9 => sampleSolution r)) (fun r => r.val)).2 =
      readGrid (List.ofFn (fun r : Fin 9 => sampleSolution r)) (fun r => r.val) ∧
    (∀ s : Game, (removeCells (fun _ => 0) 45 s 0).1.solution = s.solution) ∧
    (∀ (n : Nat) (s : Game), ∃ b2 k2 s' k',
      fillBoard (fun _ => 0) (82 + n) s.board.clear 0 = some (true, b2, k2) ∧
      generatePuzzle (fun _ => 0) (82 + n) s 0 = some (s', k') ∧
      s'.solution = some b2.copyGrid ∧ ∀ r c, b2.copyGrid r c = b2.grid r c) :=
  generatePuzzle_solution_kept (fun _ => 0) 45 (List.ofFn (fun r : Fin 9 => sampleSolution r))
    (fun r => r.val) 0 (fun r => by rw [List.length_ofFn]; exact r.isLt)

/-- Claim C5.  Every puzzle made from a solution is solvable: if `S` holds
digits `1..9` with row, column and box uniqueness and every cell of the board
is either empty or equal to `S`, then `solveRecursive` (with any fuel from 82
on, whatever steps were recorded before) returns `true`, and the board it
leaves is full, satisfies row, column and box uniqueness, and agrees with the
puzzle on every given cell. -/
theorem solveRecursive_solves (S : Grid) (b : SudokuBoard) (n : Nat) (steps : List Step)
    (hrange : ∀ r c, 1 ≤ S r c ∧ S r c ≤ 9) (huniq : Unique S)
    (hpuzzle : ∀ r c, b.grid r c = 0 ∨ b.grid r c = S r c) :
    ∃ b' steps', solveRecursive (82 + n) b steps = some (true, b', steps') ∧
      Full b'.grid ∧ Unique b'.grid ∧ ∀ r c, b.grid r c ≠ 0 → b'.grid r c = b.grid r c := by
  have hS : IsSolution S :=
    ⟨fun r c => Nat.one_le_iff_ne_zero.1 (hrange r c).1, fun r c => (hrange r c).2,
      noClash_of_unique huniq⟩
  have hag : Agrees b.grid S := fun r c h => by
    rcases hpuzzle r c with e | e
    · exact absurd e h
    · exact e.symm
  have hnc : NoClash b.grid := by
    intro r c r' c' hp hne e
    have h1 : S r c = b.grid r c := hag r c hne
    have h2 : S r' c' = b.grid r' c' := hag r' c' (by rw [e]; exact hne)
    exact hS.2.2 r c r' c' hp (by rw [h1]; exact hne) (by rw [h1, h2]; exact e)
  obtain ⟨r, b', st', heq, hpost⟩ := solveRecursive_spec (82 + n) b steps
    (by have := countEmpty_le b; omega)
  cases r with
  | false => exact absurd hag ((hpost.1 rfl).2 S hS)
  | true =>
    obtain ⟨_, hfull, hag', hnc', _⟩ := hpost.2 rfl
    exact ⟨b', st', heq, hfull, unique_of_noClash hfull (hnc' hnc), hag'⟩

theorem solveRecursive_solves_witness :
    ∃ b' steps', solveRecursive (82 + 0) (SudokuBoard.new.loadGrid
        (fun r c => if r = c then 0 else sampleSolution r c)) [] = some (true, b', steps') ∧
      Full b'.grid ∧ Unique b'.grid ∧
      ∀ r c, (SudokuBoard.new.loadGrid (fun r c => if r = c then 0 else sampleSolution r c)).grid
        r c ≠ 0 → b'.grid r c = (SudokuBoard.new.loadGrid
          (fun r c => if r = c then 0 else sampleSolution r c)).grid r c :=
  solveRecursive_solves sampleSolution _ 0 [] sampleSolution_range sampleSolution_unique
    (fun r c => by
      simp only [SudokuBoard.loadGrid]
      by_cases h : r = c
      · exact Or.inl (if_pos h)
      · exact Or.inr (if_neg h))

/-- Claim C6.  The backtracking search terminates: for every board (whatever
its entries) `solveRecursive` returns a result as soon as the fuel exceeds the
number of empty cells, which is at most 81, and so does `fillBoard` for every
outcome of the shuffles; the recursion depth never exceeds the number of empty
cells plus one because each recursive call runs on a board with one empty
cell fewer. -/
theorem backtracking_terminates :
    (∀ (b : SudokuBoard) (steps : List Step) (n : Nat),
      b.countEmpty ≤ 81 ∧ ∃ res, solveRecursive (b.countEmpty + 1 + n) b steps = some res) ∧
    (∀ (rnd : Nat → Nat) (b : SudokuBoard) (k : Nat) (n : Nat),
      ∃ res, fillBoard rnd (b.countEmpty + 1 + n) b k = some res) := by
  refine ⟨fun b steps n => ⟨countEmpty_le b, ?_⟩, fun rnd b k n => ?_⟩
  · obtain ⟨r, b', st', heq, _⟩ := solveRecursive_spec (b.countEmpty + 1 + n) b steps (by omega)
    exact ⟨_, heq⟩
  · obtain ⟨r, b', k', heq, _⟩ := fillBoard_spec rnd (b.countEmpty + 1 + n) b k (by omega)
    exact ⟨_, heq⟩

/-- Claim C7 fails as stated.  On the board whose only non-empty cell is
`(0, 0)` holding 5, `isValid(0, 0, 5)` is true although 5 does appear in row 0,
in column 0 and in the box of `(0, 0)`: the cell `(row, col)` itself is
skipped by all three loops. -/
theorem isValid_own_cell_counterexample :
    ¬ ((SudokuBoard.new.setValue 0 0 5).isValid 0 0 5 = true ↔
        ((∀ c, (SudokuBoard.new.setValue 0 0 5).grid 0 c ≠ 5) ∧
          (∀ r, (SudokuBoard.new.setValue 0 0 5).grid r 0 ≠ 5) ∧
          (∀ r c : Fin 9, r.val / 3 = (0 : Fin 9).val / 3 → c.val / 3 = (0 : Fin 9).val / 3 →
            (SudokuBoard.new.setValue 0 0 5).grid r c ≠ 5))) := by
  intro h
  have hv : (SudokuBoard.new.setValue 0 0 5).isValid 0 0 5 = true := by decide
  exact (h.1 hv).1 0 (by decide)

/-- Claim C7, amended.  For every grid, every `row`, `col` in `0..8` and every
`d`, `isValid(row, col, d)` is true exactly when `d` occurs in no cell of row
`row` other than `(row, col)`, in no cell of column `col` other than
`(row, col)`, and in no cell of the box of `(row, col)` other than
`(row, col)`. -/
theorem isValid_spec (b : SudokuBoard) (row col : Fin 9) (d : Nat) :
    b.isValid row col d = true ↔
      (∀ c, c ≠ col → b.grid row c ≠ d) ∧ (∀ r, r ≠ row → b.grid r col ≠ d) ∧
      (∀ r c, r.val / 3 = row.val / 3 → c.val / 3 = col.val / 3 → (r ≠ row ∨ c ≠ col) →
        b.grid r c ≠ d) :=
  isValid_eq_true_iff b row col d

/-- Claim C8.  For every full board and every `count ≤ 81`, after
`removeCells(count)` exactly `count` cells are empty and every cell that is
not empty keeps the value it had; and a puzzle generated at difficulty
`medium` has exactly 45 empty cells, each of its non-empty cells being equal
to the stored solution at the same position. -/
theorem removeCells_spec (rnd : Nat → Nat) (count : Nat) (s : Game) (k : Nat)
    (hfull : ∀ r c, s.board.grid r c ≠ 0) (hcount : count ≤ 81) :
    ((removeCells rnd count s k).1.board.countEmpty = count ∧
      ∀ r c, (removeCells rnd count s k).1.board.grid r c ≠ 0 →
        (removeCells rnd count s k).1.board.grid r c = s.board.grid r c) ∧
    (∀ (n : Nat) (s0 : Game) (k0 : Nat), s0.currentDifficulty = Difficulty.medium →
      ∃ s' k' sol, generatePuzzle rnd (82 + n) s0 k0 = some (s', k') ∧
        s'.solution = some sol ∧ s'.board.countEmpty = 45 ∧
        ∀ r c, s'.board.grid r c ≠ 0 → s'.board.grid r c = sol r c) := by
  refine ⟨⟨removeCells_countEmpty rnd count s k hfull hcount,
    fun r c => removeCells_keeps rnd count s k r c⟩, fun n s0 k0 hd => ?_⟩
  obtain ⟨b2, k2, heq, hsol⟩ := fillBoard_clear rnd n s0.board k0
  obtain ⟨s', k', hgen, hsolution, hgrid⟩ := generatePuzzle_shape heq
  have h45 : DIFFICULTY s0.currentDifficulty = 45 := by rw [hd]; rfl
  refine ⟨s', k', b2.copyGrid, hgen, hsolution, ?_, ?_⟩
  · rw [countEmpty_congr hgrid]
    exact (removeCells_countEmpty rnd (DIFFICULTY s0.currentDifficulty)
      { s0 with board := b2, solution := some b2.copyGrid } k2 hsol.1
      (difficulty_le _)).trans h45
  · intro r c h
    rw [hgrid] at h ⊢
    exact removeCells_keeps rnd (DIFFICULTY s0.currentDifficulty)
      { s0 with board := b2, solution := some b2.copyGrid } k2 r c h

theorem removeCells_spec_witness :
    ((removeCells (fun _ => 0) 45 { freshGame with board := SudokuBoard.new.loadGrid sampleSolution }
        0).1.board.countEmpty = 45 ∧
      ∀ r c, (removeCells (fun _ => 0) 45
          { freshGame with board := SudokuBoard.new.loadGrid sampleSolution } 0).1.board.grid r c ≠ 0 →
        (removeCells (fun _ => 0) 45
          { freshGame with board := SudokuBoard.new.loadGrid sampleSolution } 0).1.board.grid r c =
          sampleSolution r c) ∧
    (∀ (n : Nat) (s0 : Game) (k0 : Nat), s0.currentDifficulty = Difficulty.medium →
      ∃ s' k' sol, generatePuzzle (fun _ => 0) (82 + n) s0 k0 = some (s', k') ∧
        s'.solution = some sol ∧ s'.board.countEmpty = 45 ∧
        ∀ r c, s'.board.grid r c ≠ 0 → s'.board.grid r c = sol r c) :=
  removeCells_spec (fun _ => 0) 45 { freshGame with board := SudokuBoard.new.loadGrid sampleSolution }
    0 (fun r c => Nat.one_le_iff_ne_zero.1 (sampleSolution_range r c).1) (by decide)

end Sudoku

/-! ## Properties of `dijkstra` -/

namespace RouteFinder

section
variable {α : Type} [DecidableEq α]

theorem lookup_mem {β : Type} (a : α) (b : β) :
    ∀ l : List (α × β), l.lookup a = some b → (a, b) ∈ l
  | [], h => by simp [List.lookup] at h
  | (x, y) :: l, h => by
    by_cases e : a = x
    · subst e
      simp [List.lookup] at h
      simp [h]
    · have hb : (a == x) = false := beq_eq_false_iff_ne.2 e
      simp only [List.lookup, hb] at h
      exact List.mem_cons_of_mem _ (lookup_mem a b l h)

theorem lookup_of_mem_keys {β : Type} (a : α) :
    ∀ l : List (α × β), a ∈ l.map Prod.fst → ∃ b, l.lookup a = some b
  | [], h => by simp at h
  | (x, y) :: l, h => by
    by_cases e : a = x
    · subst e
      exact ⟨y, by simp [List.lookup]⟩
    · have hb : (a == x) = false := beq_eq_false_iff_ne.2 e
      have h' : a ∈ l.map Prod.fst := by
        rcases List.mem_cons.1 h with h1 | h1
        · exact absurd h1 e
        · exact h1
      obtain ⟨b, hb'⟩ := lookup_of_mem_keys a l h'
      exact ⟨b, by simp only [List.lookup, hb]; exact hb'⟩

theorem weight_mem_adj {g : Graph α} {u v : α} {w : Nat} (h : weight g u v = some w) :
    v ∈ (adj g u).map Prod.fst :=
  List.mem_map.2 ⟨(v, w), lookup_mem v w _ h, rfl⟩

theorem weight_mem_keys {g : Graph α} {u v : α} {w : Nat} (h : weight g u v = some w) :
    u ∈ keys g := by
  unfold weight adj at h
  cases hl : g.lookup u with
  | none => simp [hl, List.lookup] at h
  | some a => exact List.mem_map.2 ⟨(u, a), lookup_mem u a g hl, rfl⟩

theorem keys_subset_distKeys (g : Graph α) (start : α) :
    ∀ n ∈ keys g, n ∈ (init g start).distKeys := by
  intro n hn
  simp only [init]
  split
  · exact hn
  · exact List.mem_append_left _ hn

theorem start_mem_distKeys (g : Graph α) (start : α) : start ∈ (init g start).distKeys := by
  simp only [init]
  split
  · assumption
  · simp

theorem JSNum.lt_num_iff {x : JSNum} {b : Nat} :
    x.lt (.num b) = true ↔ ∃ a, x = .num a ∧ a < b := by
  cases x <;> simp [JSNum.lt]

theorem JSNum.lt_infinity_iff {x : JSNum} :
    x.lt .infinity = true ↔ ∃ a, x = .num a := by
  cases x <;> simp [JSNum.lt]

theorem JSNum.lt_undefined (x : JSNum) : x.lt .undefined = false := by
  cases x <;> rfl

theorem JSNum.num_lt {a : Nat} {y : JSNum} :
    (JSNum.num a).lt y = true ↔ y = .infinity ∨ ∃ b, y = .num b ∧ a < b := by
  cases y <;> simp [JSNum.lt]

theorem JSNum.lt_trans_false {x y z : JSNum} (h1 : x.lt y = false) (h2 : z.lt y = true) :
    x.lt z = false := by
  cases x <;> cases y <;> cases z <;> simp_all [JSNum.lt]
  omega

theorem scanMin_ok (st : State α) :
    ∀ (rest seen : List α) (acc : Option α × JSNum), ScanOk st seen acc →
      ScanOk st (seen ++ rest) (scanMin st rest acc)
  | [], seen, acc, h => by simpa [scanMin] using h
  | n :: rest, seen, acc, h => by
    have hl : seen ++ n :: rest = (seen ++ [n]) ++ rest := by simp
    rw [hl]
    unfold scanMin
    split
    · rename_i hc
      apply scanMin_ok st rest (seen ++ [n])
      obtain ⟨hnv, hlt⟩ := hc
      obtain ⟨a, ha⟩ : ∃ a, st.dist n = .num a := by
        rcases h.2 with ⟨_, h2⟩ | ⟨x, a, _, h2, _⟩
        · rw [h2] at hlt; exact JSNum.lt_infinity_iff.1 hlt
        · rw [h2] at hlt
          obtain ⟨a', ha', _⟩ := JSNum.lt_num_iff.1 hlt
          exact ⟨a', ha'⟩
      refine ⟨?_, Or.inr ⟨n, a, rfl, ha, by simp, hnv, ha⟩⟩
      intro m hm hmv
      rcases List.mem_append.1 hm with hm | hm
      · exact JSNum.lt_trans_false (h.1 m hm hmv) hlt
      · have : m = n := by simpa using hm
        subst this
        show (st.dist m).lt (st.dist m) = false
        rw [ha]; simp [JSNum.lt]
    · rename_i hc
      apply scanMin_ok st rest (seen ++ [n])
      refine ⟨?_, ?_⟩
      · intro m hm hmv
        rcases List.mem_append.1 hm with hm | hm
        · exact h.1 m hm hmv
        · have : m = n := by simpa using hm
          subst this
          by_contra hne
          exact hc ⟨hmv, by simpa using hne⟩
      · rcases h.2 with h2 | ⟨x, a, h1, h2, h3, h4⟩
        · exact Or.inl h2
        · exact Or.inr ⟨x, a, h1, h2, List.mem_append_left _ h3, h4⟩

theorem findMin_ok (st : State α) : ScanOk st st.distKeys (findMin st) := by
  have := scanMin_ok st st.distKeys [] (none, .infinity) ⟨by simp, Or.inl ⟨rfl, rfl⟩⟩
  simpa [findMin] using this
theorem JSNum.num_of_lt {x y : JSNum} (h : x.lt y = true) : ∃ b, x = .num b := by
  cases x with
  | num b => exact ⟨b, rfl⟩
  | undefined => exact nomatch h
  | infinity => exact nomatch h

theorem JSNum.lt_irrefl (x : JSNum) : x.lt x = false := by
  cases x <;> simp [JSNum.lt]

theorem toDouble_small (places : Fin 1075) {n : Nat} (h : n < 2 ^ 53) :
    toDouble places n = .num n := by
  simp only [toDouble, if_pos h]

theorem halvings_small (fuel : Nat) {n : Nat} (h : n < 2 ^ 53) : halvings fuel n = 0 := by
  cases fuel with
  | zero => rfl
  | succ f => simp only [halvings, if_pos h]

/-- Halving `n` as often as `halvings` says leaves a number of exactly 53 binary digits. -/
theorem halvings_spec : ∀ (fuel n : Nat), n < 2 ^ 53 * 2 ^ fuel →
    n / 2 ^ halvings fuel n < 2 ^ 53 ∧
    (2 ^ 53 ≤ n → 2 ^ 52 ≤ n / 2 ^ halvings fuel n ∧ 1 ≤ halvings fuel n)
  | 0, n, h => by
    have hn : n < 2 ^ 53 := by simpa using h
    refine ⟨by simpa [halvings] using hn, fun h2 => absurd hn (Nat.not_lt.2 h2)⟩
  | fuel + 1, n, h => by
    by_cases hn : n < 2 ^ 53
    · rw [halvings_small (fuel + 1) hn]
      exact ⟨by simpa using hn, fun h2 => absurd hn (Nat.not_lt.2 h2)⟩
    · have hhalf : n / 2 < 2 ^ 53 * 2 ^ fuel := by
        have h' : n < 2 * (2 ^ 53 * 2 ^ fuel) := by
          rw [show 2 * (2 ^ 53 * 2 ^ fuel) = 2 ^ 53 * 2 ^ (fuel + 1) by ring]
          exact h
        exact Nat.div_lt_of_lt_mul h'
      obtain ⟨ih1, ih2⟩ := halvings_spec fuel (n / 2) hhalf
      have hdiv : n / 2 ^ (halvings fuel (n / 2) + 1) = n / 2 / 2 ^ halvings fuel (n / 2) := by
        rw [pow_succ, Nat.mul_comm, Nat.div_div_eq_div_mul]
      simp only [halvings, if_neg hn]
      rw [hdiv]
      refine ⟨ih1, fun _ => ⟨?_, Nat.le_add_left _ _⟩⟩
      by_cases h2 : 2 ^ 53 ≤ n / 2
      · exact (ih2 h2).1
      · rw [halvings_small fuel (Nat.lt_of_not_le h2)]
        simp only [pow_zero, Nat.div_one]
        omega

theorem lt_two_pow_fuel (n : Nat) : n < 2 ^ 53 * 2 ^ n :=
  lt_of_lt_of_le (Nat.lt_two_pow n) (Nat.le_mul_of_pos_left _ (by norm_num))

/-- The significand chosen between `q` and `q + 1` for a remainder `r` out of `P = 2 * half`:
the nearer one, the even one when `r` is halfway. -/
theorem round_significand (q r half : Nat) (hr : r < 2 * half) :
    ∃ m, (if r < half then q else if half < r then q + 1 else if q % 2 = 0 then q else q + 1)
        = m ∧ (m = q ∨ (m = q + 1 ∧ half ≤ r)) ∧
      2 * (q * (2 * half) + r) ≤ 2 * (m * (2 * half)) + 2 * half ∧
      2 * (m * (2 * half)) ≤ 2 * (q * (2 * half) + r) + 2 * half ∧
      ((2 * (q * (2 * half) + r) = 2 * (m * (2 * half)) + 2 * half ∨
        2 * (m * (2 * half)) = 2 * (q * (2 * half) + r) + 2 * half) → m % 2 = 0) := by
  generalize hx : q * (2 * half) = x
  have hx1 : (q + 1) * (2 * half) = x + 2 * half := by rw [Nat.add_mul, Nat.one_mul, hx]
  by_cases c1 : r < half
  · refine ⟨q, by rw [if_pos c1], Or.inl rfl, ?_, ?_, ?_⟩ <;> rw [hx] <;> omega
  · by_cases c2 : half < r
    · refine ⟨q + 1, by rw [if_neg c1, if_pos c2], Or.inr ⟨rfl, by omega⟩, ?_, ?_, ?_⟩ <;> rw [hx1] <;>
        omega
    · by_cases c3 : q % 2 = 0
      · refine ⟨q, by rw [if_neg c1, if_neg c2, if_pos c3], Or.inl rfl, ?_, ?_, fun _ => c3⟩ <;>
          rw [hx] <;> omega
      · refine ⟨q + 1, by rw [if_neg c1, if_neg c2, if_neg c3], Or.inr ⟨rfl, by omega⟩,
          ?_, ?_, fun _ => by omega⟩ <;> rw [hx1] <;> omega

/-- The value `toDouble` gives to a number of `n ≥ 2^53` units is `Infinity` or a number
`m * 2^e` of 53 binary digits `m` (or `m = 2^53`) that lies within half a last place `2^e`
of `n`; when `n` lies halfway between two such numbers, `m` is even. -/
theorem toDouble_nearest (places : Fin 1075) (n : Nat) (h : 2 ^ 53 ≤ n) :
    toDouble places n = .infinity ∨
    ∃ m e, toDouble places n = .num (m * 2 ^ e) ∧ 2 ^ 52 ≤ m ∧ m ≤ 2 ^ 53 ∧
      e ≤ 971 + places.val ∧ (e = 971 + places.val → m < 2 ^ 53) ∧
      2 * n ≤ 2 * (m * 2 ^ e) + 2 ^ e ∧ 2 * (m * 2 ^ e) ≤ 2 * n + 2 ^ e ∧
      ((2 * n = 2 * (m * 2 ^ e) + 2 ^ e ∨ 2 * (m * 2 ^ e) = 2 * n + 2 ^ e) → m % 2 = 0) := by
  obtain ⟨h1, h2⟩ := halvings_spec n n (lt_two_pow_fuel n)
  obtain ⟨h2, h3⟩ := h2 h
  have hn : ¬ n < 2 ^ 53 := Nat.not_lt.2 h
  generalize he : halvings n n = e at h1 h2 h3
  have hdm : n / 2 ^ e * 2 ^ e + n % 2 ^ e = n := Nat.div_add_mod' n (2 ^ e)
  have hr : n % 2 ^ e < 2 ^ e := Nat.mod_lt _ (Nat.two_pow_pos e)
  have hhalf : 2 ^ e = 2 * 2 ^ (e - 1) := by
    obtain ⟨k, rfl⟩ : ∃ k, e = k + 1 := ⟨e - 1, by omega⟩
    simp [pow_succ, Nat.mul_comm]
  obtain ⟨m, hm, hmq, n1, n2, n3⟩ :=
    round_significand (n / 2 ^ e) (n % 2 ^ e) (2 ^ (e - 1)) (hhalf ▸ hr)
  rw [← hhalf, hdm] at n1 n2 n3
  simp only [toDouble, if_neg hn, he, hm]
  by_cases hov : 971 + places.val < e ∨ (e = 971 + places.val ∧ m = 2 ^ 53)
  · left
    rw [if_pos hov]
  · right
    rw [if_neg hov]
    refine ⟨m, e, rfl, by omega, by omega, ?_, ?_, n1, n2, n3⟩
    · by_contra hc
      exact hov (Or.inl (Nat.lt_of_not_le hc))
    · intro hc
      by_contra hm2
      exact hov (Or.inr ⟨hc, by omega⟩)
/-- The value is `Infinity` only for a number of at least `2^1024 - 2^970`, the middle
between the largest double and `2^1024`. -/
theorem toDouble_infinity (places : Fin 1075) (n : Nat) (h : toDouble places n = .infinity) :
    2 ^ 53 * 2 ^ (971 + places.val) ≤ n + 2 ^ (970 + places.val) := by
  by_cases hn : n < 2 ^ 53
  · rw [toDouble_small places hn] at h
    exact nomatch h
  obtain ⟨h1, h2⟩ := halvings_spec n n (lt_two_pow_fuel n)
  obtain ⟨h2, h3⟩ := h2 (Nat.le_of_not_lt hn)
  generalize he : halvings n n = e at h1 h2 h3
  have hdm : n / 2 ^ e * 2 ^ e + n % 2 ^ e = n := Nat.div_add_mod' n (2 ^ e)
  have hr : n % 2 ^ e < 2 ^ e := Nat.mod_lt _ (Nat.two_pow_pos e)
  have hhalf : 2 ^ e = 2 * 2 ^ (e - 1) := by
    obtain ⟨k, rfl⟩ : ∃ k, e = k + 1 := ⟨e - 1, by omega⟩
    simp [pow_succ, Nat.mul_comm]
  obtain ⟨m, hm, hmq, _, _, _⟩ :=
    round_significand (n / 2 ^ e) (n % 2 ^ e) (2 ^ (e - 1)) (hhalf ▸ hr)
  simp only [toDouble, if_neg hn, he, hm] at h
  have hA : 2 ^ (971 + places.val) = 2 * 2 ^ (970 + places.val) := by
    rw [show 971 + places.val = 970 + places.val + 1 by omega, pow_succ, Nat.mul_comm]
  by_cases hov : 971 + places.val < e ∨ (e = 971 + places.val ∧ m = 2 ^ 53)
  · rcases hov with hov | ⟨hov, hm53⟩
    · have hpow : 2 ^ (971 + places.val + 1) ≤ 2 ^ e := Nat.pow_le_pow_right (by norm_num) hov
      have hq : 2 ^ 52 * 2 ^ e ≤ n / 2 ^ e * 2 ^ e := Nat.mul_le_mul_right _ h2
      rw [pow_succ] at hpow
      clear hm hmq hhalf hr h
      generalize 2 ^ (971 + places.val) = A at hpow ⊢
      generalize 2 ^ (970 + places.val) = B
      generalize n % 2 ^ e = r at hdm
      generalize n / 2 ^ e * 2 ^ e = x at hq hdm
      generalize 2 ^ e = P at hpow hq
      omega
    · have hB : 2 ^ (e - 1) = 2 ^ (970 + places.val) := by
        rw [show e - 1 = 970 + places.val by omega]
      clear hm hr h
      generalize n % 2 ^ e = r at hdm hmq
      generalize n / 2 ^ e = q at hdm hmq h1 h2
      rw [hA]
      rw [hhalf, hB] at hdm
      rw [hB] at hmq
      clear hhalf hA hB
      generalize 2 ^ (970 + places.val) = A at hdm hmq ⊢
      rcases hmq with hmq | ⟨hmq, hge⟩
      · omega
      · have hq : q = 2 ^ 53 - 1 := by omega
        subst hq
        omega
  · rw [if_neg hov] at h
    exact nomatch h

/-- Below `2^53` the sum of a recorded distance and a weight is exact. -/
theorem JSNum.add_exact (places : Fin 1075) {a w : Nat} (h : a + w < 2 ^ 53) :
    (JSNum.num a).add places w = .num (a + w) := by
  have hw : w < 2 ^ 53 := lt_of_le_of_lt (Nat.le_add_left w a) h
  simp only [JSNum.add, toDouble_small places hw, toDouble_small places h]

theorem foldl_max_le (l : List Nat) : ∀ (b x : Nat), x = b ∨ x ∈ l → x ≤ l.foldl max b := by
  induction l with
  | nil =>
    intro b x h
    rcases h with h | h
    · exact le_of_eq h
    · exact absurd h (List.not_mem_nil x)
  | cons y l ih =>
    intro b x h
    simp only [List.foldl_cons]
    rcases h with h | h
    · exact le_trans (h ▸ le_max_left b y) (ih (max b y) (max b y) (Or.inl rfl))
    · rcases List.mem_cons.1 h with h | h
      · exact le_trans (h ▸ le_max_right b y) (ih (max b y) (max b y) (Or.inl rfl))
      · exact ih (max b y) x (Or.inr h)

theorem lookup_mem_pair {β : Type} (a : α) (b : β) :
    ∀ l : List (α × β), l.lookup a = some b → (a, b) ∈ l
  | [], h => nomatch h
  | (x, y) :: l, h => by
    by_cases e : a = x
    · subst e
      simp only [List.lookup, beq_self_eq_true] at h
      rw [Option.some.inj h]
      exact List.mem_cons_self _ _
    · have hne : (a == x) = false := by simpa using e
      simp only [List.lookup, hne] at h
      exact List.mem_cons_of_mem _ (lookup_mem_pair a b l h)

/-- Every weight of the graph is at most `maxWeight`. -/
theorem weight_le_maxWeight {g : Graph α} {u v : α} {w : Nat} (h : weight g u v = some w) :
    w ≤ maxWeight g := by
  unfold weight adj at h
  cases hl : g.lookup u with
  | none => rw [hl] at h; exact nomatch h
  | some nbrs =>
    rw [hl] at h
    simp only [Option.getD_some] at h
    have h1 : (u, nbrs) ∈ g := lookup_mem_pair u nbrs g hl
    have h2 : (v, w) ∈ nbrs := lookup_mem_pair v w nbrs h
    have h3 : w ≤ (nbrs.map Prod.snd).foldl max 0 :=
      foldl_max_le _ 0 w (Or.inr (List.mem_map.2 ⟨(v, w), h2, rfl⟩))
    have h4 : (nbrs.map Prod.snd).foldl max 0 ≤ maxWeight g :=
      foldl_max_le _ 0 _ (Or.inr (List.mem_map.2 ⟨(u, nbrs), h1, rfl⟩))
    exact le_trans h3 h4

theorem RelaxRel.refl (places : Fin 1075) (g : Graph α) (curr : α) (a : Nat) (st : State α) :
    RelaxRel places g curr a st st :=
  ⟨rfl, rfl, fun _ => Or.inl ⟨rfl, rfl⟩⟩

theorem JSNum.num_lt_trans {a b : Nat} {y : JSNum} (h1 : (JSNum.num a).lt (.num b) = true)
    (h2 : (JSNum.num b).lt y = true) : (JSNum.num a).lt y = true := by
  cases y <;> simp_all [JSNum.lt]
  omega

theorem RelaxRel.trans {places : Fin 1075} {g : Graph α} {curr : α} {a : Nat}
    {s1 s2 s3 : State α} (h12 : RelaxRel places g curr a s1 s2)
    (h23 : RelaxRel places g curr a s2 s3) : RelaxRel places g curr a s1 s3 := by
  refine ⟨h23.visited_eq.trans h12.visited_eq, h23.keys_eq.trans h12.keys_eq, fun v => ?_⟩
  rcases h23.change v with ⟨e1, e2⟩ | ⟨hv, w, b, hw, hb, hd, hp, hlt⟩
  · rcases h12.change v with ⟨e1', e2'⟩ | ⟨hv', w', b', hw', hb', hd', hp', hlt'⟩
    · exact Or.inl ⟨e1.trans e1', e2.trans e2'⟩
    · exact Or.inr ⟨hv', w', b', hw', hb', e1.trans hd', e2.trans hp', hlt'⟩
  · rw [h12.visited_eq] at hv
    refine Or.inr ⟨hv, w, b, hw, hb, hd, hp, ?_⟩
    rcases h12.change v with ⟨e1', _⟩ | ⟨_, w', b', _, _, hd', _, hlt'⟩
    · rw [← e1']; exact hlt
    · rw [hd'] at hlt
      exact JSNum.num_lt_trans hlt hlt'

theorem RelaxRel.dist_curr {places : Fin 1075} {g : Graph α} {curr : α} {a : Nat}
    {s1 s2 : State α} (h : RelaxRel places g curr a s1 s2) (hc : curr ∈ s1.visited) :
    s2.dist curr = s1.dist curr := by
  rcases h.change curr with ⟨e, _⟩ | ⟨hv, _⟩
  · exact e
  · exact absurd hc hv

theorem RelaxRel.done_keep {places : Fin 1075} {g : Graph α} {curr : α} {a : Nat}
    {s1 s2 : State α} (h : RelaxRel places g curr a s1 s2) {v : α} {w : Nat}
    (hw : weight g curr v = some w)
    (hd : ((JSNum.num a).add places w).lt (s1.dist v) = false) :
    ((JSNum.num a).add places w).lt (s2.dist v) = false := by
  rcases h.change v with ⟨e, _⟩ | ⟨_, w', b, hw', hb, hd', _, _⟩
  · rw [e]; exact hd
  · have : w' = w := Option.some.inj (hw'.symm.trans hw)
    subst this
    rw [hd', hb]
    exact JSNum.lt_irrefl _

theorem relaxStep_rel (places : Fin 1075) (g : Graph α) (curr : α) (a : Nat) (st : State α)
    (nb : α) (ha : st.dist curr = .num a) :
    RelaxRel places g curr a st (relaxStep places g curr st nb) ∧
      (nb ∉ st.visited → ∀ w, weight g curr nb = some w →
        ((JSNum.num a).add places w).lt
          ((relaxStep places g curr st nb).dist nb) = false) := by
  unfold relaxStep
  by_cases hv : nb ∉ st.visited
  · rw [if_pos hv]
    cases hw : weight g curr nb with
    | none =>
      exact ⟨RelaxRel.refl places g curr a st, fun _ w h => nomatch h⟩
    | some w =>
      simp only [ha]
      by_cases hlt : ((JSNum.num a).add places w).lt (st.dist nb) = true
      · rw [if_pos hlt]
        obtain ⟨b, hb⟩ := JSNum.num_of_lt hlt
        refine ⟨⟨rfl, rfl, fun v => ?_⟩, fun _ w' hw' => ?_⟩
        · by_cases e : v = nb
          · subst e
            exact Or.inr ⟨hv, w, b, hw, hb, by simp [hb], by simp, by rw [← hb]; exact hlt⟩
          · exact Or.inl ⟨by simp [Function.update, e], by simp [Function.update, e]⟩
        · have : w' = w := (Option.some.inj hw').symm
          subst this
          simp only [Function.update_same]
          exact JSNum.lt_irrefl _
      · rw [if_neg hlt]
        refine ⟨RelaxRel.refl places g curr a st, fun _ w' hw' => ?_⟩
        have : w' = w := (Option.some.inj hw').symm
        subst this
        simpa using hlt
  · rw [if_neg hv]
    exact ⟨RelaxRel.refl places g curr a st, fun h => absurd h hv⟩

theorem foldl_relax_rel (places : Fin 1075) (g : Graph α) (curr : α) (a : Nat) :
    ∀ (l : List α) (st : State α), curr ∈ st.visited → st.dist curr = .num a →
      RelaxRel places g curr a st (l.foldl (relaxStep places g curr) st) ∧
      ∀ v ∈ l, v ∉ st.visited → ∀ w, weight g curr v = some w →
        ((JSNum.num a).add places w).lt
          ((l.foldl (relaxStep places g curr) st).dist v) = false
  | [], st, _, _ => ⟨RelaxRel.refl places g curr a st, fun _ h => nomatch h⟩
  | nb :: l, st, hc, ha => by
    obtain ⟨h1, h1d⟩ := relaxStep_rel places g curr a st nb ha
    have hc' : curr ∈ (relaxStep places g curr st nb).visited := by rw [h1.visited_eq]; exact hc
    have ha' : (relaxStep places g curr st nb).dist curr = .num a := (h1.dist_curr hc).trans ha
    obtain ⟨h2, h2d⟩ :=
      foldl_relax_rel places g curr a l (relaxStep places g curr st nb) hc' ha'
    refine ⟨h1.trans h2, fun v hv hvv w hw => ?_⟩
    simp only [List.foldl_cons]
    by_cases hvl : v ∈ l
    · exact h2d v hvl (by rw [h1.visited_eq]; exact hvv) w hw
    · have : v = nb := by
        rcases List.mem_cons.1 hv with e | e
        · exact e
        · exact absurd e hvl
      subst this
      exact h2.done_keep hw (h1d hvv w hw)

theorem relax_rel (places : Fin 1075) (g : Graph α) (curr : α) (a : Nat) (st : State α)
    (hc : curr ∈ st.visited) (ha : st.dist curr = .num a) :
    RelaxRel places g curr a st (relax places g curr st) ∧
      ∀ v w, weight g curr v = some w → v ∉ st.visited →
        ((JSNum.num a).add places w).lt ((relax places g curr st).dist v) = false := by
  obtain ⟨h1, h2⟩ := foldl_relax_rel places g curr a ((adj g curr).map Prod.fst) st hc ha
  exact ⟨h1, fun v w hw hv => h2 v (weight_mem_adj hw) hv w hw⟩

theorem pathCost_cons {g : Graph α} {u t : α} {acc : List α} {w c : Nat}
    (hw : weight g u t = some w) (hc : pathCost g (t :: acc) = some c) :
    pathCost g (u :: t :: acc) = some (w + c) := by
  simp only [pathCost, hw, hc]

/-- A path extended by one edge at its end. -/
theorem pathCost_snoc {g : Graph α} {v : α} {w : Nat} :
    ∀ (p : List α) (u : α) (d : Nat), p.getLast? = some u → pathCost g p = some d →
      weight g u v = some w → pathCost g (p ++ [v]) = some (d + w)
  | [], _, _, h, _, _ => nomatch h
  | [x], u, d, h1, h2, hw => by
    have hxu : x = u := by simpa using h1
    have hd : d = 0 := by simpa [pathCost] using h2.symm
    subst hxu; subst hd
    have : pathCost g [x, v] = some (w + 0) := pathCost_cons hw rfl
    simpa using this
  | x :: y :: rest, u, d, h1, h2, hw => by
    cases hxy : weight g x y with
    | none => simp [pathCost, hxy] at h2
    | some w1 =>
      cases hc : pathCost g (y :: rest) with
      | none => simp [pathCost, hxy, hc] at h2
      | some c =>
        have hd : d = w1 + c := by simpa [pathCost, hxy, hc] using h2.symm
        have ih := pathCost_snoc (y :: rest) u c (List.getLast?_cons_cons.symm.trans h1) hc hw
        have : pathCost g (x :: y :: (rest ++ [v])) = some (w1 + (c + w)) :=
          pathCost_cons hxy ih
        rw [hd, Nat.add_assoc]
        exact this

theorem isPath_snoc {g : Graph α} {s u v : α} {p : List α} {d w : Nat}
    (hp : IsPath g s u p d) (hw : weight g u v = some w) :
    IsPath g s v (p ++ [v]) (d + w) := by
  obtain ⟨h1, h2, h3⟩ := hp
  refine ⟨?_, by simp, pathCost_snoc p u d h2 h3 hw⟩
  cases p with
  | nil => exact nomatch h1
  | cons x rest => simpa using h1

theorem isPath_single (g : Graph α) (s : α) : IsPath g s s [s] 0 :=
  ⟨rfl, rfl, rfl⟩

theorem inv_init (g : Graph α) (start : α) : Inv g start (init g start) where
  keys_eq := rfl
  defined := by
    intro n
    simp only [init]
    by_cases h1 : n = start
    · subst h1
      by_cases h2 : n ∈ keys g <;> simp [h2]
    · by_cases h2 : n ∈ keys g
      · by_cases h3 : start ∈ keys g <;> simp [h1, h2, h3]
      · by_cases h3 : start ∈ keys g <;> simp [h1, h2, h3]
  start0 := by simp [init]
  vis_sub := fun u h => nomatch h
  vis_nodup := List.nodup_nil
  vis_fin := fun u h => nomatch h
  prev_ok := fun v u h => nomatch h
  fin_prev := by
    intro v b h
    simp only [init] at h
    by_cases h1 : v = start
    · exact Or.inl h1
    · by_cases h2 : v ∈ keys g <;> simp [h1, h2] at h
  lonely := by
    intro _ v b h
    simp only [init] at h
    by_cases h1 : v = start
    · exact h1
    · by_cases h2 : v ∈ keys g <;> simp [h1, h2] at h
  reach := by
    intro v b h
    simp only [init] at h
    by_cases h1 : v = start
    · rw [h1]; exact ⟨[start], 0, isPath_single g start⟩
    · by_cases h2 : v ∈ keys g <;> simp [h1, h2] at h

theorem exact_init (g : Graph α) (start : α) : Exact g start (init g start) where
  bound := by
    intro v b h
    simp only [init] at h
    by_cases h1 : v = start
    · simp only [h1, if_true] at h
      rw [← JSNum.num.inj h]
      exact Nat.zero_le _
    · by_cases h2 : v ∈ keys g <;> simp [h1, h2] at h
  attained := by
    intro v b h
    simp only [init] at h
    by_cases h1 : v = start
    · simp only [h1, if_true] at h
      rw [← JSNum.num.inj h, h1]
      exact ⟨[start], isPath_single g start⟩
    · by_cases h2 : v ∈ keys g <;> simp [h1, h2] at h
  edge := fun u h => nomatch h
  mono := fun u h => nomatch h
  prev_exact := fun v u h => nomatch h

theorem indexOf_append_left {l : List α} {u : α} (x : α) (h : u ∈ l) :
    (l ++ [x]).indexOf u = l.indexOf u :=
  List.indexOf_append_of_mem h

theorem indexOf_append_self {l : List α} {x : α} (h : x ∉ l) :
    (l ++ [x]).indexOf x = l.length := by
  rw [List.indexOf_append_of_not_mem h]
  simp

/-- What one pass of the loop body does, in terms of the node `c` the scan
found: `c` is an unvisited key of least distance `a`, it is added to
`visited`, and the edges out of it are relaxed. -/
theorem step_setup (places : Fin 1075) {st : State α} (g : Graph α) {c : α}
    (hc : (findMin st).1 = some c) :
    ∃ a, c ∈ st.distKeys ∧ c ∉ st.visited ∧ st.dist c = .num a ∧
      (∀ n ∈ st.distKeys, n ∉ st.visited → (st.dist n).lt (.num a) = false) ∧
      setAdd st.visited c = st.visited ++ [c] ∧
      RelaxRel places g c a { st with visited := st.visited ++ [c] }
        (relax places g c { st with visited := st.visited ++ [c] }) ∧
      (∀ v w, weight g c v = some w → v ∉ st.visited ++ [c] →
        ((JSNum.num a).add places w).lt
          ((relax places g c { st with visited := st.visited ++ [c] }).dist v) = false) := by
  obtain ⟨hmin, hacc⟩ := findMin_ok st
  obtain ⟨x, a, hx, hm2, hck, hcv, hca⟩ : ∃ x a, (findMin st).1 = some x ∧
      (findMin st).2 = .num a ∧ x ∈ st.distKeys ∧ x ∉ st.visited ∧ st.dist x = .num a := by
    rcases hacc with ⟨h1, _⟩ | h
    · rw [h1] at hc; exact nomatch hc
    · exact h
  have hxc : x = c := Option.some.inj (hx.symm.trans hc)
  subst hxc
  rw [hm2] at hmin
  have hset : setAdd st.visited x = st.visited ++ [x] := by simp [setAdd, hcv]
  have hcin : x ∈ ({ st with visited := st.visited ++ [x] } : State α).visited := by simp
  obtain ⟨hR, hdone⟩ :=
    relax_rel places g x a { st with visited := st.visited ++ [x] } hcin hca
  exact ⟨a, hck, hcv, hca, hmin, hset, hR, hdone⟩

/-- One pass of the loop body keeps the invariant. -/
theorem inv_step (places : Fin 1075) {g : Graph α} {start : α} {st : State α}
    (hI : Inv g start st) {c : α} (hc : (findMin st).1 = some c) :
    Inv g start (relax places g c { st with visited := setAdd st.visited c }) ∧
      (relax places g c { st with visited := setAdd st.visited c }).visited = st.visited ++ [c] := by
  obtain ⟨a, hck, hcv, hca, hmin, hset, hR, hdone⟩ := step_setup places g hc
  rw [hset]
  have hvis : (relax places g c { st with visited := st.visited ++ [c] }).visited = st.visited ++ [c] :=
    hR.visited_eq
  have hkeys : (relax places g c { st with visited := st.visited ++ [c] }).distKeys = st.distKeys :=
    hR.keys_eq
  have hkeep : ∀ u, u ∈ st.visited ++ [c] →
      (relax places g c { st with visited := st.visited ++ [c] }).dist u = st.dist u ∧
      (relax places g c { st with visited := st.visited ++ [c] }).prev u = st.prev u := by
    intro u hu
    rcases hR.change u with h | ⟨hv, _⟩
    · exact h
    · exact absurd hu hv
  refine ⟨?_, hvis⟩
  constructor
  · exact hkeys.trans hI.keys_eq
  · intro n
    rw [hkeys]
    rcases hR.change n with ⟨e, _⟩ | ⟨_, w, b, _, _, hd, _, hlt⟩
    · rw [e]; exact hI.defined n
    · rw [hd]
      constructor
      · intro h; exact nomatch h
      · intro hn
        have := (hI.defined n).2 hn
        simp only at hlt
        rw [this] at hlt
        simp [JSNum.lt] at hlt
  · rcases hR.change start with ⟨e, _⟩ | ⟨_, w, b, _, _, _, _, hlt⟩
    · rw [e]; exact hI.start0
    · simp only at hlt
      rw [hI.start0] at hlt
      simp [JSNum.lt] at hlt
  · intro u hu
    rw [hvis] at hu
    rw [hkeys]
    rcases List.mem_append.1 hu with h | h
    · exact hI.vis_sub u h
    · have : u = c := by simpa using h
      rw [this]; exact hck
  · rw [hvis]
    exact List.Nodup.append hI.vis_nodup (List.nodup_singleton c)
      (by intro y hy hy'; have : y = c := by simpa using hy'
          exact hcv (this ▸ hy))
  · intro u hu
    rw [hvis] at hu
    rw [(hkeep u hu).1]
    rcases List.mem_append.1 hu with h | h
    · exact hI.vis_fin u h
    · have : u = c := by simpa using h
      rw [this]; exact ⟨a, hca⟩
  · -- prev_ok
    intro v u hp
    rw [hvis]
    rcases hR.change v with ⟨e1, e2⟩ | ⟨hvn, w', b, hw', _, hd, hp', _⟩
    · rw [e2] at hp
      obtain ⟨h1, ⟨bv, h2⟩, h5⟩ := hI.prev_ok v u hp
      have hu' : u ∈ st.visited ++ [c] := List.mem_append_left _ h1
      refine ⟨hu', ⟨bv, e1.trans h2⟩, fun hvv => ?_⟩
      rw [indexOf_append_left c h1]
      rcases List.mem_append.1 hvv with h | h
      · rw [indexOf_append_left c h]
        exact h5 h
      · have hvx : v = c := by simpa using h
        rw [hvx, indexOf_append_self hcv]
        exact List.indexOf_lt_length.2 h1
    · rw [hp'] at hp
      have hux : c = u := Option.some.inj hp
      subst hux
      have hu' : c ∈ st.visited ++ [c] := by simp
      exact ⟨hu', ⟨b, hd⟩, fun hvv => absurd hvv hvn⟩
  · -- fin_prev
    intro v b hb
    rcases hR.change v with ⟨e1, e2⟩ | ⟨_, w', b', _, _, _, hp', _⟩
    · rw [e1] at hb
      rcases hI.fin_prev v b hb with h | ⟨u, h⟩
      · exact Or.inl h
      · exact Or.inr ⟨u, e2.trans h⟩
    · exact Or.inr ⟨c, hp'⟩
  · -- lonely
    intro hs v b hb
    rcases hR.change v with ⟨e1, _⟩ | ⟨_, w', b', hw', _, _, _, _⟩
    · rw [e1] at hb
      exact hI.lonely hs v b hb
    · have hxs : c = start := hI.lonely hs c a hca
      rw [hxs] at hw'
      exact absurd (weight_mem_keys hw') hs
  · -- reach
    intro v b hb
    rcases hR.change v with ⟨e1, _⟩ | ⟨_, w', b', hw', _, _, _, _⟩
    · rw [e1] at hb
      exact hI.reach v b hb
    · obtain ⟨p, d, hp⟩ := hI.reach c a hca
      exact ⟨p ++ [v], d + w', isPath_snoc hp hw'⟩

/-- One pass of the loop body keeps the exact part of the invariant, as long
as the number of nodes times the largest weight stays below `2^53`. -/
theorem exact_step (places : Fin 1075) {g : Graph α} {start : α} {st : State α}
    (hI : Inv g start st) (hE : Exact g start st) {c : α} (hc : (findMin st).1 = some c)
    (hlen : st.visited.length < (keys g).length)
    (hsmall : (keys g).length * maxWeight g < 2 ^ 53) :
    Exact g start (relax places g c { st with visited := setAdd st.visited c }) := by
  obtain ⟨a, hck, hcv, hca, hmin, hset, hR, hdone⟩ := step_setup places g hc
  rw [hset]
  have hvis : (relax places g c { st with visited := st.visited ++ [c] }).visited = st.visited ++ [c] :=
    hR.visited_eq
  have hkeys : (relax places g c { st with visited := st.visited ++ [c] }).distKeys = st.distKeys :=
    hR.keys_eq
  have hkeep : ∀ u, u ∈ st.visited ++ [c] →
      (relax places g c { st with visited := st.visited ++ [c] }).dist u = st.dist u ∧
      (relax places g c { st with visited := st.visited ++ [c] }).prev u = st.prev u := by
    intro u hu
    rcases hR.change u with h | ⟨hv, _⟩
    · exact h
    · exact absurd hu hv
  -- every sum formed in this pass is exact
  have hstep : (st.visited.length + 1) * maxWeight g ≤ (keys g).length * maxWeight g :=
    Nat.mul_le_mul_right _ hlen
  have hab : a ≤ st.visited.length * maxWeight g := hE.bound c a hca
  have hsum : ∀ v w, weight g c v = some w → a + w ≤ (st.visited.length + 1) * maxWeight g := by
    intro v w hw
    have := weight_le_maxWeight hw
    rw [Nat.add_mul, Nat.one_mul]
    omega
  have hex : ∀ v w, weight g c v = some w → (JSNum.num a).add places w = .num (a + w) :=
    fun v w hw => JSNum.add_exact places (lt_of_le_of_lt (le_trans (hsum v w hw) hstep) hsmall)
  have hRx : ∀ v, ((relax places g c { st with visited := st.visited ++ [c] }).dist v = st.dist v ∧
        (relax places g c { st with visited := st.visited ++ [c] }).prev v = st.prev v) ∨
      (v ∉ st.visited ++ [c] ∧ ∃ w, weight g c v = some w ∧
        (relax places g c { st with visited := st.visited ++ [c] }).dist v = .num (a + w) ∧
        (relax places g c { st with visited := st.visited ++ [c] }).prev v = some c ∧
        (JSNum.num (a + w)).lt (st.dist v) = true) := by
    intro v
    rcases hR.change v with h | ⟨hv, w, b, hw, hb, hd, hp, hlt⟩
    · exact Or.inl h
    · have hbw : b = a + w := JSNum.num.inj (hb.symm.trans (hex v w hw))
      subst hbw
      exact Or.inr ⟨hv, w, hw, hd, hp, hlt⟩
  have hdonex : ∀ v w, weight g c v = some w → v ∉ st.visited ++ [c] →
      (JSNum.num (a + w)).lt
        ((relax places g c { st with visited := st.visited ++ [c] }).dist v) = false := by
    intro v w hw hv
    rw [← hex v w hw]
    exact hdone v w hw hv
  constructor
  · -- bound
    intro v b hb
    rw [hvis, List.length_append, List.length_singleton]
    rcases hRx v with ⟨e, _⟩ | ⟨_, w, hw, hd, _, _⟩
    · rw [e] at hb
      have := hE.bound v b hb
      rw [Nat.add_mul, Nat.one_mul]
      omega
    · rw [hd] at hb
      rw [← JSNum.num.inj hb]
      exact hsum v w hw
  · -- attained
    intro v b hb
    rcases hRx v with ⟨e, _⟩ | ⟨_, w, hw, hd, _, _⟩
    · rw [e] at hb
      exact hE.attained v b hb
    · rw [hd] at hb
      rw [← JSNum.num.inj hb]
      obtain ⟨p, hp⟩ := hE.attained c a hca
      exact ⟨p ++ [v], isPath_snoc hp hw⟩
  · -- edge
    intro u hu v w hw hvk
    rw [hvis] at hu
    rw [hkeys] at hvk
    rw [(hkeep u hu).1]
    rcases List.mem_append.1 hu with h | h
    · obtain ⟨au, b, h1, h2, h3⟩ := hE.edge u h v w hw hvk
      rcases hRx v with ⟨e, _⟩ | ⟨_, w', _, hd, _, hlt⟩
      · exact ⟨au, b, h1, e.trans h2, h3⟩
      · rw [h2] at hlt
        have : a + w' < b := by simpa [JSNum.lt] using hlt
        exact ⟨au, a + w', h1, hd, by omega⟩
    · have hux : u = c := by simpa using h
      subst hux
      by_cases hvv : v ∈ st.visited ++ [u]
      · rw [(hkeep v hvv).1]
        rcases List.mem_append.1 hvv with h' | h'
        · obtain ⟨b, hb⟩ := hI.vis_fin v h'
          have := hE.mono v h' u hcv b a hb hca
          exact ⟨a, b, hca, hb, by omega⟩
        · have : v = u := by simpa using h'
          subst this
          exact ⟨a, a, hca, hca, by omega⟩
      · have hd := hdonex v w hw hvv
        have hdef : (relax places g u { st with visited := st.visited ++ [u] }).dist v ≠ .undefined := by
          intro hund
          rcases hRx v with ⟨e, _⟩ | ⟨_, w', _, hd', _, _⟩
          · rw [e] at hund
            exact (hI.defined v).1 hund hvk
          · rw [hd'] at hund; exact nomatch hund
        cases hdv : (relax places g u { st with visited := st.visited ++ [u] }).dist v with
        | undefined => exact absurd hdv hdef
        | infinity => rw [hdv] at hd; simp [JSNum.lt] at hd
        | num b =>
          rw [hdv] at hd
          have : b ≤ a + w := by simpa [JSNum.lt] using hd
          exact ⟨a, b, hca, rfl, this⟩
  · -- mono
    intro u hu v hv au b hau hb
    rw [hvis] at hu hv
    rw [(hkeep u hu).1] at hau
    have hax : ∀ au', u ∈ st.visited → st.dist u = .num au' → au' ≤ a :=
      fun au' h h' => hE.mono u h c hcv au' a h' hca
    rcases hRx v with ⟨e, _⟩ | ⟨_, w', _, hd, _, hlt⟩
    · rw [e] at hb
      rcases List.mem_append.1 hu with h | h
      · exact hE.mono u h v (fun h' => hv (List.mem_append_left _ h')) au b hau hb
      · have hux : u = c := by simpa using h
        subst hux
        have hvk : v ∈ st.distKeys := by
          by_contra hn
          rw [(hI.defined v).2 hn] at hb
          exact nomatch hb
        have := hmin v hvk (fun h' => hv (List.mem_append_left _ h'))
        rw [hb] at this
        have hau' : au = a := by
          have := hau.symm.trans hca
          exact JSNum.num.inj this
        have : ¬ b < a := by simpa [JSNum.lt] using this
        omega
    · rw [hd] at hb
      have hb' : a + w' = b := JSNum.num.inj hb
      rcases List.mem_append.1 hu with h | h
      · have := hax au h hau
        omega
      · have hux : u = c := by simpa using h
        subst hux
        have hau' : au = a := JSNum.num.inj (hau.symm.trans hca)
        omega
  · -- prev_exact
    intro v u hp
    rcases hRx v with ⟨e1, e2⟩ | ⟨hvn, w', hw', hd, hp', _⟩
    · rw [e2] at hp
      obtain ⟨au, w, h2, h3, h4⟩ := hE.prev_exact v u hp
      have hu' : u ∈ st.visited ++ [c] := List.mem_append_left _ (hI.prev_ok v u hp).1
      exact ⟨au, w, (hkeep u hu').1.trans h2, h3, e1.trans h4⟩
    · rw [hp'] at hp
      have hux : c = u := Option.some.inj hp
      subst hux
      have hu' : c ∈ st.visited ++ [c] := by simp
      exact ⟨a, w', (hkeep c hu').1.trans hca, hw', hd⟩

theorem findMin_dist_ne_infinity (st : State α) {c : α} (hc : (findMin st).1 = some c) :
    st.dist c ≠ .infinity := by
  obtain ⟨_, hacc⟩ := findMin_ok st
  rcases hacc with ⟨h1, _⟩ | ⟨x, a, hx, _, _, _, hxa⟩
  · rw [h1] at hc; exact nomatch hc
  · have : x = c := Option.some.inj (hx.symm.trans hc)
    subst this
    rw [hxa]
    exact fun h => nomatch h

theorem mainLoop_spec (places : Fin 1075) (g : Graph α) (start : α) :
    ∀ (fuel : Nat) (st : State α), Inv g start st → st.visited.length ≤ (keys g).length →
      (keys g).length ≤ fuel + st.visited.length →
      ∃ st', mainLoop places g fuel st = some st' ∧ Inv g start st' ∧
        st'.visited.length ≤ (keys g).length ∧ Stopped g st' ∧
        ((keys g).length * maxWeight g < 2 ^ 53 → Exact g start st → Exact g start st')
  | 0, st, hI, hle, hfuel => by
    refine ⟨st, ?_, hI, hle, Or.inl (by omega), fun _ h => h⟩
    unfold mainLoop
    rw [if_neg (by omega)]
  | fuel + 1, st, hI, hle, hfuel => by
    unfold mainLoop
    by_cases hlt : st.visited.length < (keys g).length
    · rw [if_pos hlt]
      cases hc : (findMin st).1 with
      | none => exact ⟨st, rfl, hI, hle, Or.inr hc, fun _ h => h⟩
      | some c =>
        simp only
        rw [if_neg (findMin_dist_ne_infinity st hc)]
        obtain ⟨hI', hvis⟩ := inv_step places hI hc
        have hlen : (relax places g c { st with visited := setAdd st.visited c }).visited.length =
            st.visited.length + 1 := by rw [hvis]; simp
        obtain ⟨st', h1, h2, h3, h4, h5⟩ :=
          mainLoop_spec places g start fuel _ hI' (by omega) (by omega)
        exact ⟨st', h1, h2, h3, h4, fun hs hE => h5 hs (exact_step places hI hE hc hlt hs)⟩
    · rw [if_neg hlt]
      exact ⟨st, rfl, hI, hle, Or.inl hlt, fun _ h => h⟩

theorem unvisited_infinity {g : Graph α} {start : α} {st : State α} (hI : Inv g start st)
    (hstop : Stopped g st) : ∀ v ∈ keys g, v ∉ st.visited → st.dist v = .infinity := by
  intro v hv hvv
  have hvk : v ∈ st.distKeys := by rw [hI.keys_eq]; exact keys_subset_distKeys g start v hv
  have hdef : st.dist v ≠ .undefined := fun h => (hI.defined v).1 h hvk
  rcases hstop with hlen | hnone
  · by_cases hs : start ∈ keys g
    · exfalso
      have hk : st.distKeys = keys g := by rw [hI.keys_eq]; simp [init, hs]
      have hsub : st.visited ⊆ keys g := fun u hu => hk ▸ hI.vis_sub u hu
      have hperm := (hI.vis_nodup.subperm hsub).perm_of_length_le (by omega)
      exact hvv (hperm.mem_iff.2 hv)
    · cases hd : st.dist v with
      | undefined => exact absurd hd hdef
      | infinity => rfl
      | num b =>
        have := hI.lonely hs v b hd
        rw [this] at hv
        exact absurd hv hs
  · obtain ⟨hmin, hacc⟩ := findMin_ok st
    have h2 : (findMin st).2 = .infinity := by
      rcases hacc with ⟨_, h2⟩ | ⟨x, a, hx, _⟩
      · exact h2
      · rw [hnone] at hx; exact nomatch hx
    have := hmin v hvk hvv
    rw [h2] at this
    cases hd : st.dist v with
    | undefined => exact absurd hd hdef
    | infinity => rfl
    | num b => rw [hd] at this; simp [JSNum.lt] at this

/-- The state the main loop ends in. -/
theorem mainLoop_total (places : Fin 1075) (g : Graph α) (start : α) (n : Nat) :
    ∃ st, mainLoop places g ((keys g).length + n) (init g start) = some st ∧ Inv g start st ∧
      st.visited.length ≤ (keys g).length ∧ Stopped g st ∧
      ((keys g).length * maxWeight g < 2 ^ 53 → Exact g start st) := by
  obtain ⟨st, h1, h2, h3, h4, h5⟩ :=
    mainLoop_spec places g start ((keys g).length + n) (init g start) (inv_init g start)
      (Nat.zero_le _) (by simp [init])
  exact ⟨st, h1, h2, h3, h4, fun hs => h5 hs (exact_init g start)⟩

theorem prev_index_lt {g : Graph α} {start : α} {st : State α} (hI : Inv g start st) {v u : α}
    (h : st.prev v = some u) : st.visited.indexOf u < st.visited.indexOf v := by
  obtain ⟨hu, _, hidx⟩ := hI.prev_ok v u h
  by_cases hv : v ∈ st.visited
  · exact hidx hv
  · rw [List.indexOf_eq_length.2 hv]
    exact List.indexOf_lt_length.2 hu

/-- The predecessor walk ends within `indexOf t + 1` steps and lists nodes
in strictly increasing order of visit, hence without repetition. -/
theorem walk_total (truthy : α → Bool) {g : Graph α} {start : α} {st : State α}
    (hI : Inv g start st) :
    ∀ (fuel : Nat) (t : α) (acc : List α), st.visited.indexOf t < fuel →
      (t :: acc).Pairwise (fun x y => st.visited.indexOf x < st.visited.indexOf y) →
      ∃ p, walk truthy st.prev fuel (some t) acc = some p ∧
        p.Pairwise (fun x y => st.visited.indexOf x < st.visited.indexOf y)
  | 0, _, _, h, _ => absurd h (Nat.not_lt_zero _)
  | fuel + 1, t, acc, h, hp => by
    by_cases ht : truthy t = true
    · cases hprev : st.prev t with
      | none =>
        refine ⟨t :: acc, ?_, hp⟩
        simp only [walk, ht, if_true, hprev]
      | some u =>
        have hlt := prev_index_lt hI hprev
        have hp' : (u :: t :: acc).Pairwise
            (fun x y => st.visited.indexOf x < st.visited.indexOf y) := by
          refine List.pairwise_cons.2 ⟨fun y hy => ?_, hp⟩
          rcases List.mem_cons.1 hy with e | e
          · rw [e]; exact hlt
          · exact lt_trans hlt ((List.pairwise_cons.1 hp).1 y e)
        obtain ⟨p, h1, h2⟩ := walk_total truthy hI fuel u (t :: acc) (by omega) hp'
        refine ⟨p, ?_, h2⟩
        simp only [walk, ht, if_true, hprev]
        exact h1
    · refine ⟨acc, ?_, (List.pairwise_cons.1 hp).2⟩
      simp only [walk, ht, if_false, Bool.false_eq_true]

theorem mem_distKeys_of_num {g : Graph α} {start : α} {st : State α} (hI : Inv g start st)
    {v : α} {b : Nat} (h : st.dist v = .num b) : v ∈ st.distKeys := by
  by_contra hn
  rw [(hI.defined v).2 hn] at h
  exact nomatch h

/-- When every key of `dist` is truthy, the predecessor walk from a node of
finite distance yields a path from `start` whose cost is that distance plus
the cost of the part already built. -/
theorem walk_path (truthy : α → Bool) {g : Graph α} {start : α} {st : State α}
    (hI : Inv g start st) (hE : Exact g start st)
    (htr : ∀ v ∈ st.distKeys, truthy v = true) (e : α) :
    ∀ (fuel : Nat) (t : α) (acc : List α) (a c : Nat), st.visited.indexOf t < fuel →
      st.dist t = .num a → pathCost g (t :: acc) = some c → (t :: acc).getLast? = some e →
      ∃ p, walk truthy st.prev fuel (some t) acc = some p ∧ IsPath g start e p (a + c)
  | 0, _, _, _, _, h, _, _, _ => absurd h (Nat.not_lt_zero _)
  | fuel + 1, t, acc, a, c, h, ha, hc, hl => by
    have ht : truthy t = true := htr t (mem_distKeys_of_num hI ha)
    cases hprev : st.prev t with
    | none =>
      refine ⟨t :: acc, by simp only [walk, ht, if_true, hprev], ?_, hl, ?_⟩
      · rcases hI.fin_prev t a ha with h1 | ⟨u, h1⟩
        · rw [h1]; rfl
        · rw [hprev] at h1; exact nomatch h1
      · rcases hI.fin_prev t a ha with h1 | ⟨u, h1⟩
        · rw [h1, hI.start0] at ha
          have : a = 0 := (JSNum.num.inj ha).symm
          rw [this, Nat.zero_add]; exact hc
        · rw [hprev] at h1; exact nomatch h1
    | some u =>
      have hlt := prev_index_lt hI hprev
      obtain ⟨au, w, h1, h2, h3⟩ := hE.prev_exact t u hprev
      have hta : a = au + w := JSNum.num.inj (ha.symm.trans h3)
      obtain ⟨p, hp1, hp2⟩ := walk_path truthy hI hE htr e fuel u (t :: acc) au (w + c)
        (by omega) h1 (pathCost_cons h2 hc) (List.getLast?_cons_cons.trans hl)
      refine ⟨p, by simp only [walk, ht, if_true, hprev]; exact hp1, ?_⟩
      rw [hta, Nat.add_assoc]
      exact hp2

/-- At the end of the main loop no path beats the recorded distance. -/
theorem dist_le_path {g : Graph α} {start : α} {st : State α} (hI : Inv g start st)
    (hE : Exact g start st)
    (hfin : ∀ v ∈ keys g, v ∉ st.visited → st.dist v = .infinity) :
    ∀ (p : List α) (u v : α) (a d : Nat), st.dist u = .num a → IsPath g u v p d →
      v ∈ keys g → ∃ b, st.dist v = .num b ∧ b ≤ a + d
  | [], _, _, _, _, _, hp, _ => nomatch hp.1
  | [x], u, v, a, d, ha, hp, _ => by
    obtain ⟨h1, h2, h3⟩ := hp
    have hxu : x = u := by simpa using h1
    have hxv : x = v := by simpa using h2
    have hd : d = 0 := by simpa [pathCost] using h3.symm
    subst hxu; subst hxv
    exact ⟨a, ha, by omega⟩
  | x :: y :: rest, u, v, a, d, ha, hp, hv => by
    obtain ⟨h1, h2, h3⟩ := hp
    have hxu : x = u := by simpa using h1
    subst hxu
    cases hw : weight g x y with
    | none => simp [pathCost, hw] at h3
    | some w =>
      cases hc : pathCost g (y :: rest) with
      | none => simp [pathCost, hw, hc] at h3
      | some c =>
        have hd : d = w + c := by simpa [pathCost, hw, hc] using h3.symm
        have hxk : x ∈ keys g := weight_mem_keys hw
        have hxv : x ∈ st.visited := by
          by_contra hn
          rw [hfin x hxk hn] at ha
          exact nomatch ha
        have hyk : y ∈ keys g := by
          cases rest with
          | nil =>
            have : y = v := by simpa using h2
            rw [this]; exact hv
          | cons z rest' =>
            cases hw' : weight g y z with
            | none => simp [pathCost, hw'] at hc
            | some w' => exact weight_mem_keys hw'
        have hyd : y ∈ st.distKeys := by
          rw [hI.keys_eq]; exact keys_subset_distKeys g start y hyk
        obtain ⟨a', b', e1, e2, e3⟩ := hE.edge x hxv y w hw hyd
        have haa : a' = a := JSNum.num.inj (e1.symm.trans ha)
        obtain ⟨b, hb1, hb2⟩ := dist_le_path hI hE hfin (y :: rest) y v b' c e2
          ⟨rfl, (List.getLast?_cons_cons).symm.trans h2, hc⟩ hv
        exact ⟨b, hb1, by omega⟩

theorem pathCost_chain {g : Graph α} :
    ∀ (p : List α) (d : Nat), pathCost g p = some d →
      p.Chain' (fun u v => ∃ w, weight g u v = some w)
  | [], _, _ => List.chain'_nil
  | [_], _, _ => List.chain'_singleton _
  | x :: y :: rest, d, h => by
    cases hw : weight g x y with
    | none => simp [pathCost, hw] at h
    | some w =>
      cases hc : pathCost g (y :: rest) with
      | none => simp [pathCost, hw, hc] at h
      | some c => exact List.chain'_cons.2 ⟨⟨w, hw⟩, pathCost_chain (y :: rest) c hc⟩

/-- The result of `dijkstra` in terms of the final state of the main loop. -/
theorem dijkstra_result (places : Fin 1075) (truthy : α → Bool) (g : Graph α)
    (start end_ : α) (n : Nat) :
    ∃ st path, dijkstra places truthy g ((keys g).length + 1 + n) start end_ =
        some { path := path, distance := st.dist end_ } ∧
      walk truthy st.prev ((keys g).length + 1 + n) (some end_) [] = some path ∧
      Inv g start st ∧ st.visited.length ≤ (keys g).length ∧
      (∀ v ∈ keys g, v ∉ st.visited → st.dist v = .infinity) ∧
      ((keys g).length * maxWeight g < 2 ^ 53 → Exact g start st) := by
  obtain ⟨st, h1, hI, hlen, hstop, hE⟩ := mainLoop_total places g start (1 + n)
  have hidx : st.visited.indexOf end_ < (keys g).length + 1 + n := by
    have := @List.indexOf_le_length _ _ end_ st.visited
    omega
  obtain ⟨p, hp, _⟩ := walk_total truthy hI _ end_ [] hidx (List.pairwise_singleton _ _)
  refine ⟨st, p, ?_, hp, hI, hlen, unvisited_infinity hI hstop, hE⟩
  have h1' : mainLoop places g ((keys g).length + 1 + n) (init g start) = some st := by
    rw [Nat.add_assoc]; exact h1
  simp only [dijkstra, h1', hp]

theorem walk_of_finite (truthy : α → Bool) {g : Graph α} {start end_ : α} {st : State α}
    (hI : Inv g start st) (hE : Exact g start st) (htr : ∀ v ∈ st.distKeys, truthy v = true)
    {fuel : Nat} {path : List α} {m : Nat}
    (hw : walk truthy st.prev fuel (some end_) [] = some path)
    (hfuel : st.visited.length < fuel) (hm : st.dist end_ = .num m) :
    IsPath g start end_ path m := by
  have hidx : st.visited.indexOf end_ < fuel :=
    lt_of_le_of_lt (@List.indexOf_le_length _ _ end_ st.visited) hfuel
  obtain ⟨p, hp1, hp2⟩ := walk_path truthy hI hE htr end_ fuel end_ [] m 0 hidx hm rfl rfl
  rw [hw] at hp1
  rw [Option.some.inj hp1]
  exact hp2

theorem truthy_distKeys {truthy : α → Bool} {g : Graph α} {start : α} {st : State α}
    (hI : Inv g start st) (hk : ∀ v ∈ keys g, truthy v = true) (hs : truthy start = true) :
    ∀ v ∈ st.distKeys, truthy v = true := by
  intro v hv
  rw [hI.keys_eq] at hv
  simp only [init] at hv
  by_cases h : start ∈ keys g
  · rw [if_pos h] at hv
    exact hk v hv
  · rw [if_neg h] at hv
    rcases List.mem_append.1 hv with h1 | h1
    · exact hk v h1
    · rw [List.mem_singleton.1 h1]; exact hs

theorem isPath_start_mem {g : Graph α} {s t : α} {p : List α} {d : Nat}
    (hp : IsPath g s t p d) (ht : t ∈ keys g) : s ∈ keys g := by
  obtain ⟨h1, h2, h3⟩ := hp
  match p, h1, h2, h3 with
  | [], h1, _, _ => exact nomatch h1
  | [x], h1, h2, _ =>
    have e1 : x = s := by simpa using h1
    have e2 : x = t := by simpa using h2
    rw [← e1, e2]
    exact ht
  | x :: y :: rest, h1, _, h3 =>
    have e1 : x = s := by simpa using h1
    subst e1
    cases hw : weight g x y with
    | none => simp [pathCost, hw] at h3
    | some w => exact weight_mem_keys hw

theorem weight_lookup {g : Graph α} {u v : α} {w : Nat} (h : weight g u v = some w) :
    ∃ nbrs, g.lookup u = some nbrs ∧ (v, w) ∈ nbrs := by
  unfold weight adj at h
  cases hl : g.lookup u with
  | none => rw [hl] at h; exact nomatch h
  | some nbrs =>
    rw [hl] at h
    exact ⟨nbrs, rfl, lookup_mem_pair v w nbrs h⟩

theorem bigGraph_weight_pos {u v : String} {w : Nat} (h : weight bigGraph u v = some w) :
    1 ≤ w := by
  obtain ⟨nbrs, h1, h2⟩ := weight_lookup h
  have hall : ∀ e ∈ bigGraph, ∀ x ∈ e.2, 1 ≤ x.2 := by decide
  exact hall (u, nbrs) (lookup_mem_pair u nbrs bigGraph h1) (v, w) h2

theorem bigGraph_weight_A {v : String} {w : Nat} (h : weight bigGraph "A" v = some w) :
    v = "B" ∧ w = 2 ^ 53 := by
  obtain ⟨nbrs, h1, h2⟩ := weight_lookup h
  have hl : bigGraph.lookup "A" = some [("B", 2 ^ 53)] := by decide
  rw [hl] at h1
  rw [← Option.some.inj h1] at h2
  have := List.mem_singleton.1 h2
  exact ⟨congrArg Prod.fst this, congrArg Prod.snd this⟩

/-- Every path from `A` to `C` in `bigGraph` costs at least `2^53 + 1`. -/
theorem bigGraph_paths : ∀ p d, IsPath bigGraph "A" "C" p d → 2 ^ 53 + 1 ≤ d := by
  rintro p d ⟨h1, h2, h3⟩
  match p, h1, h2, h3 with
  | [], h1, _, _ => exact nomatch h1
  | [x], h1, h2, _ =>
    have e1 : x = "A" := by simpa using h1
    have e2 : x = "C" := by simpa using h2
    rw [e1] at e2
    exact absurd e2 (by decide)
  | [x, y], h1, h2, h3 =>
    have e1 : x = "A" := by simpa using h1
    have e2 : y = "C" := by simpa using h2
    subst e1; subst e2
    have hw : weight bigGraph "A" "C" = none := by decide
    simp [pathCost, hw] at h3
  | x :: y :: z :: rest, h1, _, h3 =>
    have e1 : x = "A" := by simpa using h1
    subst e1
    cases hw : weight bigGraph "A" y with
    | none => simp [pathCost, hw] at h3
    | some w =>
      cases hw2 : weight bigGraph y z with
      | none => simp [pathCost, hw, hw2] at h3
      | some w2 =>
        cases hc : pathCost bigGraph (z :: rest) with
        | none => simp [pathCost, hw, hw2, hc] at h3
        | some c =>
          have hd : d = w + (w2 + c) := by
            have : pathCost bigGraph ("A" :: y :: z :: rest) = some (w + (w2 + c)) :=
              pathCost_cons hw (pathCost_cons hw2 hc)
            exact Option.some.inj (h3.symm.trans this)
          have := (bigGraph_weight_A hw).2
          have := bigGraph_weight_pos hw2
          omega

/-- Claim C2, counterexample. In `bigGraph`, whose weights are integers, the nodes `A` and
`C` are joined by one path without repetition, `A, B, C`, of weights `2^53` and `1`; every
path from `A` to `C` costs at least `2^53 + 1`, and that cost is attained.
`dijkstra("A", "C")` returns the distance `2^53`: the sum `2^53 + 1` is no double and is
rounded to `2^53`, which is the cost of no path. -/
theorem dijkstra_distance_rounded_counterexample :
    dijkstra 0 isTruthy bigGraph 4 "A" "C" =
      some { path := ["A", "B", "C"], distance := .num (2 ^ 53) } ∧
    "C" ∈ keys bigGraph ∧
    IsPath bigGraph "A" "C" ["A", "B", "C"] (2 ^ 53 + 1) ∧
    (∀ p d, IsPath bigGraph "A" "C" p d → 2 ^ 53 + 1 ≤ d) ∧
    ¬ ∃ p, IsPath bigGraph "A" "C" p (2 ^ 53) :=
  ⟨by decide, by decide, ⟨by decide, by decide, by decide⟩, bigGraph_paths,
    fun ⟨p, hp⟩ => absurd (bigGraph_paths p _ hp) (by omega)⟩

/-- Claim C2, amended. For every adjacency list `g` whose weights are whole numbers of a
unit `2^(-places)` (the non-negative integers when `places = 0`, binary fractions
otherwise) such that the number of nodes times the largest weight is below `2^53` units,
every `start` and every node `end_` of the graph, `dijkstra(start, end)` returns and its
`distance` is the minimum cost of a path from `start` to `end_`: it is at most the cost of
every path, it is the cost of some path when it is a number, and it is `Infinity` when there
is no path. -/
theorem dijkstra_distance_minimal (places : Fin 1075) (truthy : α → Bool) (g : Graph α)
    (start end_ : α) (n : Nat) (he : end_ ∈ keys g)
    (hsmall : (keys g).length * maxWeight g < 2 ^ 53) :
    ∃ r, dijkstra places truthy g ((keys g).length + 1 + n) start end_ = some r ∧
      (∀ p d, IsPath g start end_ p d → ∃ m, r.distance = .num m ∧ m ≤ d) ∧
      (∀ m, r.distance = .num m → ∃ p, IsPath g start end_ p m) ∧
      ((¬ ∃ p d, IsPath g start end_ p d) → r.distance = .infinity) := by
  obtain ⟨st, path, hres, hwalk, hI, hlen, hfin, hE⟩ := dijkstra_result places truthy g start end_ n
  have hE := hE hsmall
  refine ⟨_, hres, fun p d hp => ?_, fun m hm => hE.attained end_ m hm, fun hno => ?_⟩
  · obtain ⟨b, hb1, hb2⟩ := dist_le_path hI hE hfin p start end_ 0 d hI.start0 hp he
    exact ⟨b, hb1, by omega⟩
  · have hdef : st.dist end_ ≠ .undefined := fun h =>
      (hI.defined end_).1 h (by rw [hI.keys_eq]; exact keys_subset_distKeys g start end_ he)
    cases hd : st.dist end_ with
    | undefined => exact absurd hd hdef
    | infinity => rfl
    | num m =>
      obtain ⟨p, d, hp⟩ := hI.reach end_ m hd
      exact absurd ⟨p, d, hp⟩ hno

theorem dijkstra_distance_minimal_witness :
    "E" ∈ keys graph ∧ (keys graph).length * maxWeight graph < 2 ^ 53 ∧
    ∃ r, dijkstra 0 isTruthy graph ((keys graph).length + 1 + 0) "A" "E" = some r ∧
      (∀ p d, IsPath graph "A" "E" p d → ∃ m, r.distance = .num m ∧ m ≤ d) ∧
      (∀ m, r.distance = .num m → ∃ p, IsPath graph "A" "E" p m) ∧
      ((¬ ∃ p d, IsPath graph "A" "E" p d) → r.distance = .infinity) :=
  ⟨by decide, by decide,
    dijkstra_distance_minimal 0 isTruthy graph "A" "E" 0 (by decide) (by decide)⟩

theorem unreachable_result (places : Fin 1075) (truthy : α → Bool) (g : Graph α) (start end_ : α) (n : Nat)
    (he : end_ ∈ keys g) (hno : ¬ ∃ p d, IsPath g start end_ p d) :
    dijkstra places truthy g ((keys g).length + 1 + n) start end_ =
      some { path := if truthy end_ = true then [end_] else [], distance := .infinity } := by
  obtain ⟨st, path, hres, hwalk, hI, hlen, hfin, _⟩ := dijkstra_result places truthy g start end_ n
  have hdef : st.dist end_ ≠ .undefined := fun h =>
    (hI.defined end_).1 h (by rw [hI.keys_eq]; exact keys_subset_distKeys g start end_ he)
  have hinf : st.dist end_ = .infinity := by
    cases hd : st.dist end_ with
    | undefined => exact absurd hd hdef
    | infinity => rfl
    | num m =>
      obtain ⟨p, d, hp⟩ := hI.reach end_ m hd
      exact absurd ⟨p, d, hp⟩ hno
  have hprev : st.prev end_ = none := by
    cases hp : st.prev end_ with
    | none => rfl
    | some u =>
      obtain ⟨_, ⟨b, h3⟩, _⟩ := hI.prev_ok end_ u hp
      rw [hinf] at h3
      exact nomatch h3
  have hpath : path = if truthy end_ = true then [end_] else [] := by
    have hf : (keys g).length + 1 + n = ((keys g).length + n) + 1 := by omega
    rw [hf] at hwalk
    by_cases ht : truthy end_ = true
    · simp only [walk, ht, if_true, hprev] at hwalk
      rw [if_pos ht]
      exact (Option.some.inj hwalk).symm
    · simp only [walk, ht, if_false, Bool.false_eq_true] at hwalk
      rw [if_neg ht]
      exact (Option.some.inj hwalk).symm
  rw [hres, hpath, hinf]

theorem twoIslands_no_path : ¬ ∃ p d, IsPath twoIslands "A" "B" p d := by
  rintro ⟨p, d, h1, h2, h3⟩
  match p, h1, h2, h3 with
  | [], h1, _, _ => exact nomatch h1
  | [x], h1, h2, _ =>
    have e1 : x = "A" := by simpa using h1
    have e2 : x = "B" := by simpa using h2
    rw [e1] at e2
    exact absurd e2 (by decide)
  | x :: y :: rest, h1, _, h3 =>
    have e1 : x = "A" := by simpa using h1
    subst e1
    have hw : weight twoIslands "A" y = none := rfl
    simp [pathCost, hw] at h3

/-- Claim C3 fails as stated.  In the graph of two nodes `A`, `B` without
edges no path leads from `A` to `B`, and `dijkstra("A", "B")` returns distance
`Infinity` with the path `["B"]`, which is not empty. -/
theorem unreachable_path_nonempty_counterexample :
    (¬ ∃ p d, IsPath twoIslands "A" "B" p d) ∧
      ∃ r, dijkstra 0 isTruthy twoIslands 3 "A" "B" = some r ∧ r.distance = .infinity ∧
        r.path = ["B"] ∧ r.path ≠ [] :=
  ⟨twoIslands_no_path, { path := ["B"], distance := .infinity }, by decide, rfl, rfl,
    by simp⟩

/-- Claim C3, amended.  For every adjacency list, whatever its weights, every
`start` and every node `end_` of the graph such that no path leads from
`start` to `end_`, `dijkstra(start, end)` returns distance `Infinity` and the
path that consists of the single node `end_`; when `end_` is a falsy name (the
empty string) the reconstruction loop is not entered and the path is empty. -/
theorem dijkstra_unreachable (places : Fin 1075) (truthy : α → Bool) (g : Graph α) (start end_ : α) (n : Nat)
    (he : end_ ∈ keys g) (hno : ¬ ∃ p d, IsPath g start end_ p d) :
    dijkstra places truthy g ((keys g).length + 1 + n) start end_ =
      some { path := if truthy end_ = true then [end_] else [], distance := .infinity } :=
  unreachable_result places truthy g start end_ n he hno

theorem dijkstra_unreachable_witness :
    "B" ∈ keys twoIslands ∧ (¬ ∃ p d, IsPath twoIslands "A" "B" p d) ∧
    dijkstra 0 isTruthy twoIslands ((keys twoIslands).length + 1 + 0) "A" "B" =
      some { path := if isTruthy "B" = true then ["B"] else [], distance := .infinity } :=
  ⟨by decide, twoIslands_no_path,
    dijkstra_unreachable 0 isTruthy twoIslands "A" "B" 0 (by decide) twoIslands_no_path⟩

/-- Claim C9, counterexample. In `namelessGraph` the node named by the empty string and the
node `A` are joined by an edge of weight `1`, so each is reachable from the other. From the
empty name to `A`, `dijkstra` returns the path `["A"]`, which does not begin with `start`:
the reconstruction loop stops at the empty name, which is falsy. From `A` to the empty name
it returns the empty path with distance `1`. -/
theorem dijkstra_path_falsy_counterexample :
    IsPath namelessGraph "" "A" ["", "A"] 1 ∧
    dijkstra 0 isTruthy namelessGraph 3 "" "A" = some { path := ["A"], distance := .num 1 } ∧
    (["A"] : List String).head? ≠ some "" ∧
    pathCost namelessGraph ["A"] ≠ some 1 ∧
    IsPath namelessGraph "A" "" ["A", ""] 1 ∧
    dijkstra 0 isTruthy namelessGraph 3 "A" "" = some { path := [], distance := .num 1 } :=
  ⟨⟨by decide, by decide, by decide⟩, by decide, by decide, by decide,
    ⟨by decide, by decide, by decide⟩, by decide⟩

/-- Claim C9, amended. For every adjacency list whose node names are truthy (no node is named
by the empty string) and whose weights are whole numbers of a unit `2^(-places)` (the
non-negative integers when `places = 0`, binary fractions otherwise) such that the number of
nodes times the largest weight is below `2^53` units, every `start` and every node `end_`
of the graph reachable from `start`, the path returned by `dijkstra(start, end)` begins
with `start`, ends with `end_`, has every two consecutive nodes joined by an edge, and the
sum of those edge weights is the returned distance. -/
theorem dijkstra_path_valid (places : Fin 1075) (truthy : α → Bool) (g : Graph α)
    (start end_ : α) (n : Nat) (he : end_ ∈ keys g)
    (hsmall : (keys g).length * maxWeight g < 2 ^ 53)
    (hk : ∀ v ∈ keys g, truthy v = true) (hreach : ∃ p d, IsPath g start end_ p d) :
    ∃ r d, dijkstra places truthy g ((keys g).length + 1 + n) start end_ = some r ∧
      r.distance = .num d ∧ r.path.head? = some start ∧ r.path.getLast? = some end_ ∧
      r.path.Chain' (fun u v => ∃ w, weight g u v = some w) ∧ pathCost g r.path = some d := by
  obtain ⟨st, path, hres, hwalk, hI, hlen, hfin, hE⟩ := dijkstra_result places truthy g start end_ n
  have hE := hE hsmall
  obtain ⟨p, d, hp⟩ := hreach
  have hs : truthy start = true := hk start (isPath_start_mem hp he)
  obtain ⟨b, hb1, _⟩ := dist_le_path hI hE hfin p start end_ 0 d hI.start0 hp he
  obtain ⟨h1, h2, h3⟩ :=
    walk_of_finite truthy hI hE (truthy_distKeys hI hk hs) hwalk (by omega) hb1
  exact ⟨_, b, hres, hb1, h1, h2, pathCost_chain path b h3, h3⟩

theorem dijkstra_path_valid_witness :
    "E" ∈ keys graph ∧ (keys graph).length * maxWeight graph < 2 ^ 53 ∧
    (∀ v ∈ keys graph, isTruthy v = true) ∧
    (∃ p d, IsPath graph "A" "E" p d) ∧
    ∃ r d, dijkstra 0 isTruthy graph ((keys graph).length + 1 + 0) "A" "E" = some r ∧
      r.distance = .num d ∧ r.path.head? = some "A" ∧ r.path.getLast? = some "E" ∧
      r.path.Chain' (fun u v => ∃ w, weight graph u v = some w) ∧
      pathCost graph r.path = some d :=
  ⟨by decide, by decide, by decide,
    ⟨["A", "B", "D", "E"], 6, by decide, by decide, by decide⟩,
    dijkstra_path_valid 0 isTruthy graph "A" "E" 0 (by decide) (by decide) (by decide)
      ⟨["A", "B", "D", "E"], 6, by decide, by decide, by decide⟩⟩

/-- Claim C10.  `dijkstra` terminates for every graph and every `start`,
`end_`, whatever the weights and whichever node names are truthy.  The main
loop ends within `|V|` passes of its body (`|V|` units of fuel suffice),
visits no node twice, and stops in a state where no unvisited node of the
graph has a finite distance; from any node the predecessor walk ends within
`|visited| + 1` steps and never meets a node twice. -/
theorem dijkstra_terminates (places : Fin 1075) (truthy : α → Bool) (g : Graph α) (start end_ : α) (n : Nat) :
    (∃ st, mainLoop places g ((keys g).length + n) (init g start) = some st ∧ st.visited.Nodup ∧
      st.visited.length ≤ (keys g).length ∧
      (∀ v ∈ keys g, v ∉ st.visited → st.dist v = .infinity) ∧
      ∃ path, walk truthy st.prev (st.visited.length + 1 + n) (some end_) [] = some path ∧
        path.Nodup) ∧
    ∃ r, dijkstra places truthy g ((keys g).length + 1 + n) start end_ = some r := by
  constructor
  · obtain ⟨st, h1, hI, hlen, hstop, _⟩ := mainLoop_total places g start n
    have hidx : st.visited.indexOf end_ < st.visited.length + 1 + n := by
      have := @List.indexOf_le_length _ _ end_ st.visited
      omega
    obtain ⟨p, hp, hpw⟩ := walk_total truthy hI _ end_ [] hidx (List.pairwise_singleton _ _)
    exact ⟨st, h1, hI.vis_nodup, hlen, unvisited_infinity hI hstop, p, hp,
      hpw.imp (fun h => Nat.ne_of_lt h |> fun hne e => hne (by rw [e]))⟩
  · obtain ⟨st, path, hres, _⟩ := dijkstra_result places truthy g start end_ n
    exact ⟨_, hres⟩

/-- Binary fractions: with half units, the route from A to C in `halvesGraph` costs
`0.5 + 1.5 = 2`, four half units. -/
theorem dijkstra_halvesGraph_A_C :
    dijkstra 1 isTruthy halvesGraph 4 "A" "C" =
      some { path := ["A", "B", "C"], distance := .num 4 } := by
  decide

/-- Rounding of fractions: in units of `2^(-55)` the doubles `0.1` and `0.2` are
`3602879701896397` and `7205759403792794` units, and their sum is rounded to
`10808639105689192` units, the double `0.30000000000000004`. -/
theorem add_point_one_point_two :
    (JSNum.num 3602879701896397).add 55 7205759403792794 = .num 10808639105689192 := by
  decide

/-- The shipped graph: the route from A to E. -/
theorem dijkstra_graph_A_E :
    dijkstra 0 isTruthy graph 7 "A" "E" =
      some { path := ["A", "B", "D", "E"], distance := .num 6 } := by
  decide

end

end RouteFinder

/-! ## Properties of `PriorityQueue` -/

namespace RouteFinder

/-! ## Properties of the priority queue -/

theorem priority_le_of_not_lt {β : Type} [LinearOrder β] {a b : β}
    (h : (Priority.val a).lt (Priority.val b) = false) :
    (Priority.val b).le (Priority.val a) = true := by
  simp only [Priority.lt, decide_eq_false_iff_not, not_lt] at h
  simpa [Priority.le] using h

theorem priority_lt_le_chain {β : Type} [LinearOrder β] {a : β} {y z : Priority β}
    (h1 : (Priority.val a).lt y = true) (h2 : y.le z = true) :
    (Priority.val a).lt z = true := by
  cases y with
  | nan => exact nomatch h1
  | val b =>
    cases z with
    | nan => exact nomatch h2
    | val c =>
      simp only [Priority.lt, Priority.le, decide_eq_true_eq] at h1 h2 ⊢
      exact lt_of_lt_of_le h1 h2

theorem priority_le_of_lt {β : Type} [LinearOrder β] {a : β} {y : Priority β}
    (h : (Priority.val a).lt y = true) : (Priority.val a).le y = true := by
  cases y with
  | nan => exact nomatch h
  | val b =>
    simp only [Priority.lt, Priority.le, decide_eq_true_eq] at h ⊢
    exact le_of_lt h

theorem priority_le_refl {β : Type} [LinearOrder β] (a : β) :
    (Priority.val a).le (Priority.val a) = true := by
  simp [Priority.le]

/-- Where `insertItem` puts an item whose priority is a number, in an ordered array holding
no `NaN`: after every held item that is not larger, before every held item that is larger. -/
theorem insertItem_split {α β : Type} [LinearOrder β] (e : α) (x : β) :
    ∀ l : List (Item α β), Ordered l → (∀ y ∈ l, y.priority ≠ Priority.nan) →
      ∃ l1 l2, l = l1 ++ l2 ∧
        insertItem { element := e, priority := .val x } l =
          l1 ++ [{ element := e, priority := .val x }] ++ l2 ∧
        (∀ y ∈ l1, y.priority.le (.val x) = true) ∧
        (∀ y ∈ l2, (Priority.val x).lt y.priority = true) := by
  intro l
  induction l with
  | nil =>
    intro _ _
    exact ⟨[], [], rfl, rfl, fun y hy => absurd hy (List.not_mem_nil y),
      fun y hy => absurd hy (List.not_mem_nil y)⟩
  | cons z rest ih =>
    intro ho hn
    have ho2 := List.pairwise_cons.1 ho
    by_cases hlt : (Priority.val x).lt z.priority = true
    · refine ⟨[], z :: rest, rfl, ?_, fun y hy => absurd hy (List.not_mem_nil y), ?_⟩
      · simp only [insertItem, hlt, if_true, List.nil_append, List.singleton_append]
      · intro y hy
        rcases List.mem_cons.1 hy with rfl | hy
        · exact hlt
        · exact priority_lt_le_chain hlt (ho2.1 y hy)
    · obtain ⟨l1, l2, h1, h2, h3, h4⟩ :=
        ih ho2.2 (fun y hy => hn y (List.mem_cons_of_mem _ hy))
      refine ⟨z :: l1, l2, by rw [h1]; rfl, ?_, ?_, h4⟩
      · simp only [insertItem, hlt, if_false, h2, List.cons_append, Bool.false_eq_true]
      · intro y hy
        rcases List.mem_cons.1 hy with rfl | hy
        · have hz := hn y (List.mem_cons_self _ _)
          cases hp : y.priority with
          | nan => exact absurd hp hz
          | val b =>
            rw [hp] at hlt
            exact priority_le_of_not_lt (Bool.eq_false_iff.2 hlt)
        · exact h3 y hy

theorem ordered_insert_middle {α β : Type} [LinearOrder β] (item : Item α β) (x : β)
    (hx : item.priority = .val x) (l1 l2 : List (Item α β)) (ho : Ordered (l1 ++ l2))
    (h1 : ∀ y ∈ l1, y.priority.le (.val x) = true)
    (h2 : ∀ y ∈ l2, (Priority.val x).lt y.priority = true) :
    Ordered (l1 ++ [item] ++ l2) := by
  unfold Ordered at ho ⊢
  rw [List.pairwise_append] at ho
  rw [List.append_assoc, List.pairwise_append]
  refine ⟨ho.1, ?_, ?_⟩
  · rw [List.singleton_append, List.pairwise_cons]
    exact ⟨fun y hy => by rw [hx]; exact priority_le_of_lt (h2 y hy), ho.2.1⟩
  · intro a ha b hb
    rw [List.singleton_append] at hb
    rcases List.mem_cons.1 hb with rfl | hb
    · rw [hx]; exact h1 a ha
    · exact ho.2.2 a ha b hb

theorem mem_of_mem_tail_items {α β : Type} (q : PriorityQueue α β) (y : Item α β)
    (hy : y ∈ q.dequeue.2.items) : y ∈ q.items := by
  unfold PriorityQueue.dequeue at hy
  split at hy
  · exact hy
  · split at hy
    · exact hy
    · rename_i x rest heq
      rw [heq]
      exact List.mem_cons_of_mem _ hy

theorem ordered_dequeue {α β : Type} [LinearOrder β] (q : PriorityQueue α β)
    (ho : Ordered q.items) : Ordered q.dequeue.2.items := by
  unfold PriorityQueue.dequeue
  split
  · exact ho
  · split
    · exact ho
    · rename_i x rest heq
      rw [heq] at ho
      exact (List.pairwise_cons.1 ho).2

/-- Running calls none of which enqueues `NaN`, from an ordered array holding no `NaN`,
leaves an ordered array holding no `NaN`. -/
theorem runOps_ordered {α β : Type} [LinearOrder β] :
    ∀ (ops : List (QueueOp α β)) (q : PriorityQueue α β), NoNaN ops → Ordered q.items →
      (∀ y ∈ q.items, y.priority ≠ Priority.nan) →
      Ordered (runOps ops q).items ∧ ∀ y ∈ (runOps ops q).items, y.priority ≠ Priority.nan := by
  intro ops
  induction ops with
  | nil => intro q _ ho hn; exact ⟨ho, hn⟩
  | cons op ops ih =>
    intro q hops ho hn
    have hops2 : NoNaN ops := fun e he => hops e (List.mem_cons_of_mem _ he)
    cases op with
    | enqueue e p =>
      cases p with
      | nan => exact absurd (List.mem_cons_self _ _) (hops e)
      | val x =>
        obtain ⟨l1, l2, h1, h2, h3, h4⟩ := insertItem_split e x q.items ho hn
        refine ih (q.enqueue e (.val x)) hops2 ?_ ?_
        · show Ordered (insertItem _ q.items)
          rw [h2]
          exact ordered_insert_middle _ x rfl l1 l2 (h1 ▸ ho) h3 h4
        · intro y hy
          have hy2 : y ∈ insertItem { element := e, priority := .val x } q.items := hy
          rw [h2] at hy2
          simp only [List.mem_append, List.mem_singleton] at hy2
          rcases hy2 with (hy2 | rfl) | hy2
          · exact hn y (by rw [h1]; exact List.mem_append_left _ hy2)
          · exact fun h => nomatch h
          · exact hn y (by rw [h1]; exact List.mem_append_right _ hy2)
    | dequeue =>
      exact ih q.dequeue.2 hops2 (ordered_dequeue q ho)
        (fun y hy => hn y (mem_of_mem_tail_items q y hy))

/-- Claim C11, counterexample. After `enqueue("a", NaN)` and `enqueue("b", 1)` the array is
`[a : NaN, b : 1]`: both comparisons with `NaN` are false, so `b` is pushed behind `a`. The
array is not ordered by priority, and `dequeue` returns `a`, whose priority is not the
smallest: `NaN <= 1` is false while `1 <= 1` holds. -/
theorem nan_priority_breaks_order :
    (runOps nanCalls PriorityQueue.new).items =
      [{ element := "a", priority := .nan }, { element := "b", priority := .val 1 }] ∧
    (runOps nanCalls PriorityQueue.new).dequeue.1 = some "a" ∧
    ¬ Ordered (runOps nanCalls PriorityQueue.new).items ∧
    ¬ (∀ y ∈ (runOps nanCalls PriorityQueue.new).items,
        (Priority.nan : Priority Nat).le y.priority = true) ∧
    (∀ y ∈ (runOps nanCalls PriorityQueue.new).items,
        (Priority.val 1 : Priority Nat).le y.priority = true → y.element = "b") := by
  have h : (runOps nanCalls PriorityQueue.new).items =
      [{ element := "a", priority := .nan }, { element := "b", priority := .val 1 }] := by
    decide
  refine ⟨h, by decide, ?_, ?_, ?_⟩
  · rw [h]
    intro ho
    have := (List.pairwise_cons.1 ho).1 _ (List.mem_singleton_self _)
    exact nomatch this
  · rw [h]
    intro hall
    exact nomatch hall _ (List.mem_cons_self _ _)
  · rw [h]
    intro y hy hle
    rcases List.mem_cons.1 hy with rfl | hy
    · exact nomatch hle
    · rw [List.mem_singleton.1 hy]

/-- Claim C11, amended. Let the queue be the result of any calls of `enqueue` and `dequeue` on
a new queue, no call enqueueing the priority `NaN`. Then the array is in non-decreasing order
of priority. A further `enqueue(e, x)` changes the array by inserting exactly the item
`(e, x)`, behind every held item whose priority is not larger and before every held item
whose priority is larger, all other items keeping their order. `dequeue` on the empty queue
returns `null` and changes nothing; on a non-empty queue it returns the element of the first
item and removes exactly that item, and the priority of that item is the smallest held. -/
theorem priorityQueue_dequeue_min {α β : Type} [LinearOrder β] (ops : List (QueueOp α β))
    (hops : NoNaN ops) :
    Ordered (runOps ops PriorityQueue.new).items ∧
    (∀ (e : α) (x : β), ∃ l1 l2,
      (runOps ops PriorityQueue.new).items = l1 ++ l2 ∧
      ((runOps ops PriorityQueue.new).enqueue e (.val x)).items =
        l1 ++ [{ element := e, priority := .val x }] ++ l2 ∧
      (∀ y ∈ l1, y.priority.le (.val x) = true) ∧
      (∀ y ∈ l2, (Priority.val x).lt y.priority = true)) ∧
    ((runOps ops PriorityQueue.new).items = [] →
      (runOps ops PriorityQueue.new).dequeue = (none, runOps ops PriorityQueue.new)) ∧
    (∀ (x : Item α β) (rest : List (Item α β)),
      (runOps ops PriorityQueue.new).items = x :: rest →
        (runOps ops PriorityQueue.new).dequeue = (some x.element, { items := rest }) ∧
        ∀ y ∈ (runOps ops PriorityQueue.new).items, x.priority.le y.priority = true) := by
  have hinv := runOps_ordered ops (PriorityQueue.new : PriorityQueue α β) hops
    List.Pairwise.nil (fun y hy => absurd hy (List.not_mem_nil y))
  refine ⟨hinv.1, fun e x => insertItem_split e x _ hinv.1 hinv.2, ?_, ?_⟩
  · intro h
    simp [PriorityQueue.dequeue, PriorityQueue.isEmpty, h]
  · intro x rest h
    refine ⟨by simp [PriorityQueue.dequeue, PriorityQueue.isEmpty, h], ?_⟩
    intro y hy
    rw [h] at hy hinv
    rcases List.mem_cons.1 hy with rfl | hy
    · have hx := hinv.2 y (List.mem_cons_self _ _)
      cases hp : y.priority with
      | nan => exact absurd hp hx
      | val b => exact priority_le_refl b
    · exact (List.pairwise_cons.1 hinv.1).1 y hy

theorem priorityQueue_dequeue_min_witness :
    NoNaN sampleCalls ∧
    Ordered (runOps sampleCalls PriorityQueue.new).items ∧
    (∀ (e : String) (x : Nat), ∃ l1 l2,
      (runOps sampleCalls PriorityQueue.new).items = l1 ++ l2 ∧
      ((runOps sampleCalls PriorityQueue.new).enqueue e (.val x)).items =
        l1 ++ [{ element := e, priority := .val x }] ++ l2 ∧
      (∀ y ∈ l1, y.priority.le (.val x) = true) ∧
      (∀ y ∈ l2, (Priority.val x).lt y.priority = true)) ∧
    ((runOps sampleCalls PriorityQueue.new).items = [] →
      (runOps sampleCalls PriorityQueue.new).dequeue =
        (none, runOps sampleCalls PriorityQueue.new)) ∧
    (∀ (x : Item String Nat) (rest : List (Item String Nat)),
      (runOps sampleCalls PriorityQueue.new).items = x :: rest →
        (runOps sampleCalls PriorityQueue.new).dequeue = (some x.element, { items := rest }) ∧
        ∀ y ∈ (runOps sampleCalls PriorityQueue.new).items, x.priority.le y.priority = true) :=
  have h : NoNaN sampleCalls := fun e he => by simp [sampleCalls] at he
  ⟨h, priorityQueue_dequeue_min sampleCalls h⟩

theorem sampleCalls_items :
    (runOps sampleCalls PriorityQueue.new).items =
      [{ element := "x", priority := .val 5 }, { element := "z", priority := .val 5 }] := by
  decide

end RouteFinder

/-! ## Properties of the Tower of Hanoi solver -/

namespace Hanoi

theorem wf_new : Stack.new.WF := by
  simp [Stack.WF, Stack.new]

theorem push_items {s : Stack} (h : s.WF) (v : Option Nat) :
    (s.push v).items = s.items ++ [v] ∧ (s.push v).WF := by
  unfold Stack.WF at h
  have htop : s.top + 1 = (s.items.length : Int) := by omega
  constructor
  · simp only [Stack.push, arraySet, htop]
    rw [if_neg (by omega), if_neg (by simp)]
    simp
  · simp only [Stack.WF, Stack.push, arraySet, htop]
    rw [if_neg (by omega), if_neg (by simp)]
    simp

theorem pop_items {s : Stack} (h : s.WF) (l : List (Option Nat)) (v : Option Nat)
    (hl : s.items = l ++ [v]) :
    s.pop.1 = v ∧ s.pop.2.items = l ∧ s.pop.2.WF := by
  unfold Stack.WF at h
  have hlen : s.items.length = l.length + 1 := by rw [hl]; simp
  have htop : s.top = (l.length : Int) := by omega
  have hne : s.isEmpty = false := by
    simp only [Stack.isEmpty, htop]
    rw [beq_eq_false_iff_ne]
    omega
  simp only [Stack.pop, hne, Stack.WF, arrayGet, setLength, htop, hl]
  refine ⟨?_, ?_, ?_⟩
  · simp
  · simp
  · simp

/-- What `solve` does to the stacks and the counters. -/
theorem solve_spec :
    ∀ (n : Nat) (src tgt aux : Peg) (g : Game) (X Y : List (Option Nat)),
      src ≠ tgt → src ≠ aux → tgt ≠ aux → g.isSolving = true → (∀ p, (g.pegs p).WF) →
      (g.pegs src).items = X ++ tower n → (g.pegs tgt).items = Y →
      (solve n src tgt aux g).isSolving = true ∧
      (∀ p, ((solve n src tgt aux g).pegs p).WF) ∧
      ((solve n src tgt aux g).pegs src).items = X ∧
      ((solve n src tgt aux g).pegs tgt).items = Y ++ tower n ∧
      ((solve n src tgt aux g).pegs aux).items = (g.pegs aux).items ∧
      (solve n src tgt aux g).diskCount = g.diskCount ∧
      (solve n src tgt aux g).victoryShown = g.victoryShown
  | 0, src, tgt, aux, g, X, Y, _, _, _, hs, hwf, hsrc, htgt => by
    simp only [tower, List.append_nil] at hsrc
    exact ⟨hs, hwf, hsrc, by rw [tower, List.append_nil]; exact htgt, rfl, rfl, rfl⟩
  | n + 1, src, tgt, aux, g, X, Y, h1, h2, h3, hs, hwf, hsrc, htgt => by
    have hsrc' : (g.pegs src).items = (X ++ [some (n + 1)]) ++ tower n := by
      rw [hsrc]; simp [tower]
    obtain ⟨a1, a2, a3, a4, a5, a6, a7⟩ :=
      solve_spec n src aux tgt g (X ++ [some (n + 1)]) (g.pegs aux).items h2 h1 (Ne.symm h3)
        hs hwf hsrc' rfl
    -- the move of the largest disk
    obtain ⟨p1, p2, p3⟩ := pop_items (a2 src) X (some (n + 1)) a3
    have hg2s : (moveDisk src tgt (solve n src aux tgt g)).isSolving = true := a1
    have hpeg : ∀ p, ((moveDisk src tgt (solve n src aux tgt g)).pegs p) =
        if p = tgt then (((solve n src aux tgt g).pegs tgt).push (some (n + 1)))
        else if p = src then ((solve n src aux tgt g).pegs src).pop.2
        else (solve n src aux tgt g).pegs p := by
      intro p
      simp only [moveDisk, p1, if_neg (Ne.symm h1)]
    obtain ⟨q1, q2⟩ := push_items (a2 tgt) (some (n + 1))
    have hwf2 : ∀ p, ((moveDisk src tgt (solve n src aux tgt g)).pegs p).WF := by
      intro p
      rw [hpeg p]
      split
      · exact q2
      · split
        · exact p3
        · exact a2 p
    have haux2 : ((moveDisk src tgt (solve n src aux tgt g)).pegs aux).items =
        (g.pegs aux).items ++ tower n := by
      rw [hpeg aux, if_neg (Ne.symm h3), if_neg (Ne.symm h2)]
      exact a4
    have htgt2 : ((moveDisk src tgt (solve n src aux tgt g)).pegs tgt).items =
        Y ++ [some (n + 1)] := by
      rw [hpeg tgt, if_pos rfl, q1, a5, htgt]
    have hsrc2 : ((moveDisk src tgt (solve n src aux tgt g)).pegs src).items = X := by
      rw [hpeg src, if_neg h1, if_pos rfl]
      exact p2
    obtain ⟨b1, b2, b3, b4, b5, b6, b7⟩ :=
      solve_spec n aux tgt src (moveDisk src tgt (solve n src aux tgt g))
        (g.pegs aux).items (Y ++ [some (n + 1)]) (Ne.symm h3) (Ne.symm h2) (Ne.symm h1)
        hg2s hwf2 haux2 htgt2
    have hres : solve (n + 1) src tgt aux g =
        solve n aux tgt src (moveDisk src tgt (solve n src aux tgt g)) := by
      simp only [solve, hs, a1, hg2s, Bool.not_true, Bool.false_eq_true, if_false]
    rw [hres]
    refine ⟨b1, b2, b5.trans hsrc2, ?_, b3, ?_, ?_⟩
    · rw [b4]; simp [tower]
    · exact b6.trans a6
    · exact b7.trans a7

theorem two_pow_pred (n : Nat) : 2 ^ (n + 1) - 1 = (2 ^ n - 1) + 1 + (2 ^ n - 1) := by
  have : 0 < 2 ^ n := Nat.two_pow_pos n
  rw [Nat.pow_succ]
  omega

/-- Each run of `solve` adds `2 ^ n - 1` to the move counter and leaves the
displayed minimum alone. -/
theorem solve_moves :
    ∀ (n : Nat) (src tgt aux : Peg) (g : Game), g.isSolving = true →
      (solve n src tgt aux g).isSolving = true ∧
      (solve n src tgt aux g).moves = g.moves + (2 ^ n - 1) ∧
      (solve n src tgt aux g).minMoves = g.minMoves
  | 0, _, _, _, g, hs => ⟨hs, rfl, rfl⟩
  | n + 1, src, tgt, aux, g, hs => by
    obtain ⟨a1, a2, a3⟩ := solve_moves n src aux tgt g hs
    have hg2s : (moveDisk src tgt (solve n src aux tgt g)).isSolving = true := a1
    obtain ⟨b1, b2, b3⟩ :=
      solve_moves n aux tgt src (moveDisk src tgt (solve n src aux tgt g)) hg2s
    have hres : solve (n + 1) src tgt aux g =
        solve n aux tgt src (moveDisk src tgt (solve n src aux tgt g)) := by
      simp only [solve, hs, a1, hg2s, Bool.not_true, Bool.false_eq_true, if_false]
    rw [hres]
    refine ⟨b1, ?_, b3.trans a3⟩
    rw [b2, two_pow_pred]
    have : (moveDisk src tgt (solve n src aux tgt g)).moves =
        (solve n src aux tgt g).moves + 1 := rfl
    rw [this, a2]
    omega

theorem fillPeg_items : ∀ (n : Nat) (s : Stack), s.WF →
    (fillPeg n s).items = s.items ++ tower n ∧ (fillPeg n s).WF
  | 0, s, h => ⟨by simp [fillPeg, tower], h⟩
  | n + 1, s, h => by
    obtain ⟨h1, h2⟩ := push_items h (some (n + 1))
    obtain ⟨h3, h4⟩ := fillPeg_items n _ h2
    exact ⟨by rw [fillPeg, h3, h1]; simp [tower], by rw [fillPeg]; exact h4⟩

theorem toArray_of_wf {s : Stack} (h : s.WF) : s.toArray = s.items := by
  unfold Stack.WF at h
  have : (s.top + 1).toNat = s.items.length := by omega
  simp only [Stack.toArray, this, arrayGet]
  apply List.ext_getElem
  · simp
  · intro i h1 h2
    simp [List.getD_eq_getElem?_getD, h2]

theorem size_of_wf {s : Stack} (h : s.WF) : s.size = (s.items.length : Int) := by
  unfold Stack.WF at h
  simp only [Stack.size]
  omega

theorem length_tower : ∀ n, (tower n).length = n
  | 0 => rfl
  | n + 1 => by simp [tower, length_tower n]

/-- What follows `initGame()` in `startAutoSolve`, from the state `g1` in which
`solve` is called. -/
theorem autoSolve_tail (g1 : Game) (hs : g1.isSolving = true) (hm : g1.moves = 0)
    (hmin : g1.minMoves = 31) (hdc : g1.diskCount = 5) (hwf : ∀ p, (g1.pegs p).WF)
    (hA : (g1.pegs .A).items = tower g1.diskCount) (hB : (g1.pegs .B).items = [])
    (hC : (g1.pegs .C).items = []) (P : Game → Prop)
    (hP : ∀ r : Game, r.victoryShown = true → r.moves = 31 → r.minMoves = 31 →
      (r.pegs .A).toArray = [] → (r.pegs .B).toArray = [] → (r.pegs .C).toArray = tower 5 →
      P r) :
    P (let g2 := solve g1.diskCount .A .C .B g1
       let g3 := { g2 with isSolving := false }
       if (g3.pegs .C).size = (g3.diskCount : Int) then { g3 with victoryShown := true }
       else g3) := by
  obtain ⟨a1, a2, a3, a4, a5, a6, a7⟩ := solve_spec g1.diskCount .A .C .B g1 [] []
    (by decide) (by decide) (by decide) hs hwf (by rw [hA]; rfl) hC
  obtain ⟨m1, m2, m3⟩ := solve_moves g1.diskCount .A .C .B g1 hs
  generalize solve g1.diskCount .A .C .B g1 = g2 at a1 a2 a3 a4 a5 a6 a7 m1 m2 m3
  have hsize : (g2.pegs .C).size = (g2.diskCount : Int) := by
    rw [size_of_wf (a2 .C), a4, a6, List.nil_append, length_tower]
  show P (if (g2.pegs .C).size = (g2.diskCount : Int) then
    { g2 with isSolving := false, victoryShown := true } else { g2 with isSolving := false })
  rw [if_pos hsize]
  apply hP
  · rfl
  · show g2.moves = 31
    rw [m2, hm, hdc]
    norm_num
  · exact m3.trans hmin
  · show (g2.pegs .A).toArray = []
    rw [toArray_of_wf (a2 .A), a3]
  · show (g2.pegs .B).toArray = []
    rw [toArray_of_wf (a2 .B), a5, hB]
  · show (g2.pegs .C).toArray = tower 5
    rw [toArray_of_wf (a2 .C), a4, hdc, List.nil_append]

theorem startAutoSolve_elim (g : Game) (h : g.isSolving = false) (P : Game → Prop)
    (hP : ∀ r : Game, r.victoryShown = true → r.moves = 31 → r.minMoves = 31 →
      (r.pegs .A).toArray = [] → (r.pegs .B).toArray = [] → (r.pegs .C).toArray = tower 5 →
      P r) : P (startAutoSolve g) := by
  obtain ⟨h1, h2⟩ := fillPeg_items 5 Stack.new wf_new
  have hwf : ∀ p, (({ initGame g with isSolving := true } : Game).pegs p).WF := by
    intro p
    cases p
    · exact h2
    · exact wf_new
    · exact wf_new
  have hA : (({ initGame g with isSolving := true } : Game).pegs .A).items =
      tower ({ initGame g with isSolving := true } : Game).diskCount := h1
  unfold startAutoSolve
  rewrite [if_neg (by rw [h]; decide)]
  exact autoSolve_tail { initGame g with isSolving := true } rfl rfl rfl rfl hwf hA rfl rfl P hP

theorem startAutoSolve_spec (g : Game) (h : g.isSolving = false) :
    (startAutoSolve g).victoryShown = true ∧ (startAutoSolve g).moves = 31 ∧
    (startAutoSolve g).minMoves = 31 ∧
    ((startAutoSolve g).pegs .A).toArray = [] ∧ ((startAutoSolve g).pegs .B).toArray = [] ∧
    ((startAutoSolve g).pegs .C).toArray = tower 5 :=
  startAutoSolve_elim g h
    (fun r => r.victoryShown = true ∧ r.moves = 31 ∧ r.minMoves = 31 ∧
      (r.pegs .A).toArray = [] ∧ (r.pegs .B).toArray = [] ∧ (r.pegs .C).toArray = tower 5)
    (fun _ r1 r2 r3 r4 r5 r6 => ⟨r1, r2, r3, r4, r5, r6⟩)

/-- Claim C12.  For every `n`, `solve(n, 'A', 'C', 'B')` run to completion
from a state in which peg A holds the disks `n, n - 1, …, 1` bottom to top and
pegs B and C are empty ends with pegs A and B empty and peg C holding
`n, n - 1, …, 1` bottom to top, so that `pegs.C.size()` is `n`; and every
auto-solve started while none is running ends with that position for the five
disks and with the victory screen shown. -/
theorem solve_moves_whole_tower (n : Nat) (g : Game) (hs : g.isSolving = true)
    (hwf : ∀ p, (g.pegs p).WF) (hA : (g.pegs .A).toArray = tower n)
    (hB : (g.pegs .B).toArray = []) (hC : (g.pegs .C).toArray = []) :
    (((solve n .A .C .B g).pegs .A).toArray = [] ∧ ((solve n .A .C .B g).pegs .B).toArray = [] ∧
      ((solve n .A .C .B g).pegs .C).toArray = tower n ∧
      ((solve n .A .C .B g).pegs .C).size = (n : Int)) ∧
    (∀ g0 : Game, g0.isSolving = false →
      ((startAutoSolve g0).pegs .A).toArray = [] ∧ ((startAutoSolve g0).pegs .B).toArray = [] ∧
      ((startAutoSolve g0).pegs .C).toArray = tower 5 ∧
      (startAutoSolve g0).victoryShown = true) := by
  rw [toArray_of_wf (hwf .A)] at hA
  rw [toArray_of_wf (hwf .B)] at hB
  rw [toArray_of_wf (hwf .C)] at hC
  obtain ⟨_, a2, a3, a4, a5, _, _⟩ := solve_spec n .A .C .B g [] []
    (by decide) (by decide) (by decide) hs hwf (by rw [hA]; rfl) hC
  refine ⟨⟨?_, ?_, ?_, ?_⟩, fun g0 h0 => ?_⟩
  · rw [toArray_of_wf (a2 .A), a3]
  · rw [toArray_of_wf (a2 .B), a5, hB]
  · rw [toArray_of_wf (a2 .C), a4, List.nil_append]
  · rw [size_of_wf (a2 .C), a4, List.nil_append, length_tower]
  · obtain ⟨r1, _, _, r4, r5, r6⟩ := startAutoSolve_spec g0 h0
    exact ⟨r4, r5, r6, r1⟩

theorem solve_moves_whole_tower_witness :
    (((solve 5 .A .C .B demoGame).pegs .A).toArray = [] ∧
      ((solve 5 .A .C .B demoGame).pegs .B).toArray = [] ∧
      ((solve 5 .A .C .B demoGame).pegs .C).toArray = tower 5 ∧
      ((solve 5 .A .C .B demoGame).pegs .C).size = ((5 : Nat) : Int)) ∧
    (∀ g0 : Game, g0.isSolving = false →
      ((startAutoSolve g0).pegs .A).toArray = [] ∧ ((startAutoSolve g0).pegs .B).toArray = [] ∧
      ((startAutoSolve g0).pegs .C).toArray = tower 5 ∧
      (startAutoSolve g0).victoryShown = true) :=
  solve_moves_whole_tower 5 demoGame rfl
    (fun p => by
      cases p
      · exact (fillPeg_items 5 Stack.new wf_new).2
      · exact wf_new
      · exact wf_new) (by decide)
    (by decide) (by decide)

theorem runMoves_append : ∀ (l1 l2 : List (Peg × Peg)) (g : Game),
    runMoves (l1 ++ l2) g = runMoves l2 (runMoves l1 g)
  | [], _, _ => rfl
  | m :: l1, l2, g => by
    rw [List.cons_append, runMoves, runMoves, runMoves_append l1 l2]

theorem poppedDisks_append : ∀ (l1 l2 : List (Peg × Peg)) (g : Game),
    poppedDisks (l1 ++ l2) g = poppedDisks l1 g ++ poppedDisks l2 (runMoves l1 g)
  | [], _, _ => rfl
  | m :: l1, l2, g => by
    rw [List.cons_append, poppedDisks, poppedDisks, runMoves, poppedDisks_append l1 l2,
      List.cons_append]

theorem length_poppedDisks : ∀ (l : List (Peg × Peg)) (g : Game),
    (poppedDisks l g).length = l.length
  | [], _ => rfl
  | m :: l, g => by rw [poppedDisks, List.length_cons, length_poppedDisks l, List.length_cons]

theorem length_moveCalls : ∀ (n : Nat) (s t a : Peg), (moveCalls n s t a).length = 2 ^ n - 1
  | 0, _, _, _ => rfl
  | n + 1, s, t, a => by
    rw [moveCalls, List.length_append, List.length_append, length_moveCalls n,
      length_moveCalls n, List.length_singleton, two_pow_pred]

theorem runMoves_isSolving : ∀ (l : List (Peg × Peg)) (g : Game),
    (runMoves l g).isSolving = g.isSolving
  | [], _ => rfl
  | m :: l, g => by
    rw [runMoves, runMoves_isSolving l]
    rfl

/-- While `isSolving` stays true, `solve` is the run of the calls it makes. -/
theorem solve_eq_runMoves : ∀ (n : Nat) (s t a : Peg) (g : Game), g.isSolving = true →
    solve n s t a g = runMoves (moveCalls n s t a) g
  | 0, _, _, _, _, _ => rfl
  | n + 1, s, t, a, g, hs => by
    have e1 := solve_eq_runMoves n s a t g hs
    have h1 : (solve n s a t g).isSolving = true := by
      rw [e1, runMoves_isSolving]; exact hs
    have h2 : (moveDisk s t (solve n s a t g)).isSolving = true := h1
    have e2 := solve_eq_runMoves n a t s (moveDisk s t (solve n s a t g)) h2
    have hres : solve (n + 1) s t a g =
        solve n a t s (moveDisk s t (solve n s a t g)) := by
      simp only [solve, hs, h1, h2, Bool.not_true, Bool.false_eq_true, if_false]
    rw [hres, e2, e1, moveCalls, runMoves_append, runMoves_append]
    rfl

/-- What the calls of `solve` do to any `n` slots on top of the source peg:
they are what the calls pop, and they end on the target peg in their order. -/
theorem moveCalls_spec :
    ∀ (n : Nat) (src tgt aux : Peg) (g : Game) (X T : List (Option Nat)),
      src ≠ tgt → src ≠ aux → tgt ≠ aux → (∀ p, (g.pegs p).WF) →
      (g.pegs src).items = X ++ T → T.length = n →
      (∀ p, ((runMoves (moveCalls n src tgt aux) g).pegs p).WF) ∧
      ((runMoves (moveCalls n src tgt aux) g).pegs src).items = X ∧
      ((runMoves (moveCalls n src tgt aux) g).pegs tgt).items = (g.pegs tgt).items ++ T ∧
      ((runMoves (moveCalls n src tgt aux) g).pegs aux).items = (g.pegs aux).items ∧
      (∀ v ∈ poppedDisks (moveCalls n src tgt aux) g, v ∈ T)
  | 0, src, tgt, aux, g, X, T, _, _, _, hwf, hsrc, hT => by
    have hnil : T = [] := List.length_eq_zero.1 hT
    subst hnil
    rw [List.append_nil] at hsrc
    exact ⟨hwf, hsrc, (List.append_nil _).symm, rfl, fun v hv => nomatch hv⟩
  | n + 1, src, tgt, aux, g, X, T, h1, h2, h3, hwf, hsrc, hT => by
    obtain ⟨d, T1, hTe⟩ : ∃ d T1, T = d :: T1 := by
      cases T with
      | nil => exact nomatch hT
      | cons d T1 => exact ⟨d, T1, rfl⟩
    subst hTe
    have hT1 : T1.length = n := by simpa using hT
    have hsrc1 : (g.pegs src).items = (X ++ [d]) ++ T1 := by rw [hsrc]; simp
    obtain ⟨a2, a3, a4, a5, a6⟩ :=
      moveCalls_spec n src aux tgt g (X ++ [d]) T1 h2 h1 (Ne.symm h3) hwf hsrc1 hT1
    generalize hg1 : runMoves (moveCalls n src aux tgt) g = g1 at a2 a3 a4 a5
    obtain ⟨p1, p2, p3⟩ := pop_items (a2 src) X d a3
    have hpeg : ∀ p, ((moveDisk src tgt g1).pegs p) =
        if p = tgt then ((g1.pegs tgt).push d)
        else if p = src then (g1.pegs src).pop.2
        else g1.pegs p := by
      intro p
      simp only [moveDisk, p1, if_neg (Ne.symm h1)]
    obtain ⟨q1, q2⟩ := push_items (a2 tgt) d
    have hwf2 : ∀ p, ((moveDisk src tgt g1).pegs p).WF := by
      intro p
      rw [hpeg p]
      split
      · exact q2
      · split
        · exact p3
        · exact a2 p
    have haux2 : ((moveDisk src tgt g1).pegs aux).items = (g.pegs aux).items ++ T1 := by
      rw [hpeg aux, if_neg (Ne.symm h3), if_neg (Ne.symm h2)]
      exact a4
    have htgt2 : ((moveDisk src tgt g1).pegs tgt).items = (g.pegs tgt).items ++ [d] := by
      rw [hpeg tgt, if_pos rfl, q1, a5]
    have hsrc2 : ((moveDisk src tgt g1).pegs src).items = X := by
      rw [hpeg src, if_neg h1, if_pos rfl]
      exact p2
    obtain ⟨b2, b3, b4, b5, b6⟩ :=
      moveCalls_spec n aux tgt src (moveDisk src tgt g1) (g.pegs aux).items T1
        (Ne.symm h3) (Ne.symm h2) (Ne.symm h1) hwf2 haux2 hT1
    have hrun : runMoves (moveCalls (n + 1) src tgt aux) g =
        runMoves (moveCalls n aux tgt src) (moveDisk src tgt g1) := by
      rw [moveCalls, runMoves_append, runMoves_append, hg1]
      rfl
    have hpop : poppedDisks (moveCalls (n + 1) src tgt aux) g =
        poppedDisks (moveCalls n src aux tgt) g ++ [d] ++
          poppedDisks (moveCalls n aux tgt src) (moveDisk src tgt g1) := by
      rw [moveCalls, poppedDisks_append, poppedDisks_append, runMoves_append, hg1]
      simp only [poppedDisks, runMoves, p1]
    rw [hrun, hpop]
    refine ⟨b2, b5.trans hsrc2, ?_, b3, fun v hv => ?_⟩
    · rw [b4, htgt2]; simp
    · rcases List.mem_append.1 hv with hv | hv
      · rcases List.mem_append.1 hv with hv | hv
        · exact List.mem_cons_of_mem _ (a6 v hv)
        · rw [List.mem_singleton.1 hv]; exact List.mem_cons_self _ _
      · exact List.mem_cons_of_mem _ (b6 v hv)

theorem tower_isSome : ∀ (n : Nat) (v : Option Nat), v ∈ tower n → ∃ d, v = some d ∧ 1 ≤ d ∧ d ≤ n
  | 0, _, h => nomatch h
  | n + 1, v, h => by
    rcases List.mem_cons.1 h with e | e
    · exact ⟨n + 1, e, by omega, le_refl _⟩
    · obtain ⟨d, h1, h2, h3⟩ := tower_isSome n v e
      exact ⟨d, h1, h2, by omega⟩

/-- Claim C13.  For every `n` and every three peg names, `solve(n, source,
target, auxiliary)` run to completion is the run of `2 ^ n - 1` calls of
`moveDisk`, in the order of the recursive scheme, and adds exactly `2 ^ n - 1`
to the move counter.  When the three pegs are different and the source peg
holds at least `n` slots, every one of these calls pops one of the top `n`
slots of the source peg (never `undefined` from an empty peg), and the run
leaves those `n` slots on the target peg in their order, the rest of the source
peg and the auxiliary peg as they were.  After every auto-solve started while
none is running the `31 = 2 ^ 5 - 1` calls each moved one of the disks
`1 .. 5`, and the move counter is 31, the minimum that is displayed. -/
theorem solve_move_count (n : Nat) (source target auxiliary : Peg) (g : Game)
    (hs : g.isSolving = true) :
    solve n source target auxiliary g = runMoves (moveCalls n source target auxiliary) g ∧
    (moveCalls n source target auxiliary).length = 2 ^ n - 1 ∧
    (poppedDisks (moveCalls n source target auxiliary) g).length = 2 ^ n - 1 ∧
    (solve n source target auxiliary g).moves = g.moves + (2 ^ n - 1) ∧
    (source ≠ target → source ≠ auxiliary → target ≠ auxiliary → (∀ p, (g.pegs p).WF) →
      ∀ X T : List (Option Nat), (g.pegs source).items = X ++ T → T.length = n →
        (∀ v ∈ poppedDisks (moveCalls n source target auxiliary) g, v ∈ T) ∧
        ((solve n source target auxiliary g).pegs source).items = X ∧
        ((solve n source target auxiliary g).pegs target).items =
          (g.pegs target).items ++ T ∧
        ((solve n source target auxiliary g).pegs auxiliary).items =
          (g.pegs auxiliary).items) ∧
    (∀ g0 : Game, g0.isSolving = false →
      (startAutoSolve g0).moves = 2 ^ 5 - 1 ∧
      (startAutoSolve g0).minMoves = (startAutoSolve g0).moves ∧
      (poppedDisks (moveCalls 5 .A .C .B)
        ({ initGame g0 with isSolving := true } : Game)).length = 31 ∧
      ∀ v ∈ poppedDisks (moveCalls 5 .A .C .B) ({ initGame g0 with isSolving := true } : Game),
        ∃ d, v = some d ∧ 1 ≤ d ∧ d ≤ 5) := by
  have he := solve_eq_runMoves n source target auxiliary g hs
  refine ⟨he, length_moveCalls n _ _ _, ?_, (solve_moves n source target auxiliary g hs).2.1,
    fun h1 h2 h3 hwf X T hsrc hT => ?_, fun g0 h0 => ?_⟩
  · rw [length_poppedDisks, length_moveCalls]
  · obtain ⟨_, a3, a4, a5, a6⟩ :=
      moveCalls_spec n source target auxiliary g X T h1 h2 h3 hwf hsrc hT
    rw [he]
    exact ⟨a6, a3, a4, a5⟩
  · obtain ⟨_, r2, r3, _⟩ := startAutoSolve_spec g0 h0
    obtain ⟨f1, f2⟩ := fillPeg_items 5 Stack.new wf_new
    have hwf : ∀ p, (({ initGame g0 with isSolving := true } : Game).pegs p).WF := by
      intro p
      cases p
      · exact f2
      · exact wf_new
      · exact wf_new
    have hA : (({ initGame g0 with isSolving := true } : Game).pegs .A).items =
        [] ++ tower 5 := f1
    obtain ⟨_, _, _, _, a6⟩ := moveCalls_spec 5 .A .C .B
      ({ initGame g0 with isSolving := true } : Game) [] (tower 5)
      (by decide) (by decide) (by decide) hwf hA (length_tower 5)
    refine ⟨r2, r3.trans r2.symm, ?_, fun v hv => tower_isSome 5 v (a6 v hv)⟩
    rw [length_poppedDisks, length_moveCalls]
    norm_num

theorem solve_move_count_witness :
    solve 3 .A .C .B demoGame = runMoves (moveCalls 3 .A .C .B) demoGame ∧
    (moveCalls 3 .A .C .B).length = 2 ^ 3 - 1 ∧
    (poppedDisks (moveCalls 3 .A .C .B) demoGame).length = 2 ^ 3 - 1 ∧
    (solve 3 .A .C .B demoGame).moves = demoGame.moves + (2 ^ 3 - 1) ∧
    (Peg.A ≠ Peg.C → Peg.A ≠ Peg.B → Peg.C ≠ Peg.B → (∀ p, (demoGame.pegs p).WF) →
      ∀ X T : List (Option Nat), (demoGame.pegs .A).items = X ++ T → T.length = 3 →
        (∀ v ∈ poppedDisks (moveCalls 3 .A .C .B) demoGame, v ∈ T) ∧
        ((solve 3 .A .C .B demoGame).pegs .A).items = X ∧
        ((solve 3 .A .C .B demoGame).pegs .C).items = (demoGame.pegs .C).items ++ T ∧
        ((solve 3 .A .C .B demoGame).pegs .B).items = (demoGame.pegs .B).items) ∧
    (∀ g0 : Game, g0.isSolving = false →
      (startAutoSolve g0).moves = 2 ^ 5 - 1 ∧
      (startAutoSolve g0).minMoves = (startAutoSolve g0).moves ∧
      (poppedDisks (moveCalls 5 .A .C .B)
        ({ initGame g0 with isSolving := true } : Game)).length = 31 ∧
      ∀ v ∈ poppedDisks (moveCalls 5 .A .C .B) ({ initGame g0 with isSolving := true } : Game),
        ∃ d, v = some d ∧ 1 ≤ d ∧ d ≤ 5) :=
  solve_move_count 3 .A .C .B demoGame rfl

end Hanoi

/-! ## Properties of the Sudoku completion check, hints and input handlers -/

namespace Sudoku

theorem setValue_put_back (b : SudokuBoard) (row col : Fin 9) :
    (b.setValue row col 0).setValue row col (b.grid row col) = b := by
  cases b with
  | mk g o =>
    simp only [SudokuBoard.setValue, SudokuBoard.mk.injEq, and_true]
    funext r c
    by_cases h : r = row ∧ c = col
    · obtain ⟨h1, h2⟩ := h
      subst h1; subst h2
      simp
    · simp [h]

theorem isValid_cleared (b : SudokuBoard) (row col : Fin 9) (num : Nat) :
    (b.setValue row col 0).isValid row col num = b.isValid row col num := by
  rw [Bool.eq_iff_iff, isValid_iff_peer, isValid_iff_peer]
  have hgrid : ∀ r c, Peer row col r c → (b.setValue row col 0).grid r c = b.grid r c := by
    intro r c hp
    have : ¬ (r = row ∧ c = col) := by
      rintro ⟨e1, e2⟩
      rcases hp.1 with h | h
      · exact h e1
      · exact h e2
    simp [SudokuBoard.setValue, this]
  constructor
  · intro h r c hp
    rw [← hgrid r c hp]
    exact h r c hp
  · intro h r c hp
    rw [hgrid r c hp]
    exact h r c hp

theorem completeLoop_spec :
    ∀ (l : List (Fin 9 × Fin 9)) (b : SudokuBoard),
      (completeLoop l b).2 = b ∧
      ((completeLoop l b).1 = true ↔ ∀ p ∈ l, b.isValid p.1 p.2 (b.grid p.1 p.2) = true)
  | [], b => ⟨rfl, by simp [completeLoop]⟩
  | pos :: rest, b => by
    obtain ⟨h1, h2⟩ := completeLoop_spec rest b
    simp only [completeLoop, setValue_put_back, isValid_cleared]
    by_cases hv : b.isValid pos.1 pos.2 (b.grid pos.1 pos.2) = true
    · simp only [hv, Bool.not_true, Bool.false_eq_true, if_false]
      refine ⟨h1, ?_⟩
      rw [h2]
      constructor
      · intro h p hp
        rcases List.mem_cons.1 hp with e | e
        · rw [e]; exact hv
        · exact h p e
      · intro h p hp
        exact h p (List.mem_cons_of_mem _ hp)
    · have hv' : b.isValid pos.1 pos.2 (b.grid pos.1 pos.2) = false := by
        simpa using hv
      simp only [hv', Bool.not_false, if_true]
      refine ⟨trivial, ?_⟩
      constructor
      · intro h; exact nomatch h
      · intro h
        exact absurd (h pos (List.mem_cons_self _ _)) hv

theorem isFull_iff (b : SudokuBoard) : b.isFull = true ↔ Full b.grid := by
  simp only [SudokuBoard.isFull, List.all_eq_true, bne_iff_ne, ne_eq]
  constructor
  · intro h r c
    exact h (r, c) (mem_allPositions _)
  · intro h p _
    exact h p.1 p.2

theorem isComplete_spec (b : SudokuBoard) :
    b.isComplete.2 = b ∧ (b.isComplete.1 = true ↔ Full b.grid ∧ Unique b.grid) := by
  unfold SudokuBoard.isComplete
  by_cases hf : b.isFull = true
  · have hfull := (isFull_iff b).1 hf
    simp only [hf, Bool.not_true, Bool.false_eq_true, if_false]
    obtain ⟨h1, h2⟩ := completeLoop_spec allPositions b
    refine ⟨h1, ?_⟩
    rw [h2]
    constructor
    · intro h
      refine ⟨hfull, unique_of_noClash hfull ?_⟩
      intro r c r' c' hp _
      exact (isValid_iff_peer b r c _).1 (h (r, c) (mem_allPositions _)) r' c' hp
    · rintro ⟨_, hu⟩ p _
      rw [isValid_iff_peer]
      intro r c hp
      exact noClash_of_unique hu p.1 p.2 r c hp (hfull _ _)
  · have hf' : b.isFull = false := by simpa using hf
    simp only [hf', Bool.not_false, if_true]
    refine ⟨trivial, ?_⟩
    constructor
    · intro h; exact nomatch h
    · rintro ⟨h, _⟩
      exact absurd ((isFull_iff b).2 h) hf

/-- Claim C14.  For every grid, `isComplete()` returns true exactly when no
cell is 0 and no value occurs twice in a row, in a column or in a 3x3 box; it
leaves the board as it found it; and `checkWinCondition` declares the puzzle
complete on that test alone, without reading the stored solution. -/
theorem isComplete_iff (b : SudokuBoard) :
    (b.isComplete.1 = true ↔
      (∀ r c, b.grid r c ≠ 0) ∧
      (∀ r c c', c ≠ c' → b.grid r c ≠ b.grid r c') ∧
      (∀ c r r', r ≠ r' → b.grid r c ≠ b.grid r' c) ∧
      (∀ r c r' c', r.val / 3 = r'.val / 3 → c.val / 3 = c'.val / 3 → (r ≠ r' ∨ c ≠ c') →
        b.grid r c ≠ b.grid r' c')) ∧
    b.isComplete.2 = b ∧
    (∀ (elapsed : Nat) (s : Game),
      ((checkWinCondition elapsed s).gameState = .complete ↔
        s.board.isComplete.1 = true ∨ s.gameState = .complete) ∧
      (checkWinCondition elapsed s).solution = s.solution) := by
  obtain ⟨h1, h2⟩ := isComplete_spec b
  refine ⟨h2, h1, fun elapsed s => ?_⟩
  unfold checkWinCondition
  by_cases hc : s.board.isComplete.1 = true
  · simp [hc]
  · simp [hc]

set_option maxRecDepth 100000 in
theorem allPositions_rowMajor :
    allPositions.Pairwise (fun p q => p.1 < q.1 ∨ (p.1 = q.1 ∧ p.2 < q.2)) := by
  decide

theorem find_first_rowMajor (f : Fin 9 × Fin 9 → Bool) (p : Fin 9 × Fin 9)
    (h : allPositions.find? f = some p) :
    f p = true ∧ ∀ r c, Before r c p.1 p.2 → f (r, c) = false := by
  obtain ⟨hp, as, bs, hsplit, has⟩ := List.find?_eq_some.1 h
  refine ⟨hp, fun r c hb => ?_⟩
  have hpw := allPositions_rowMajor
  rw [hsplit] at hpw
  have hmem : (r, c) ∈ as ++ p :: bs := hsplit ▸ mem_allPositions (r, c)
  rcases List.mem_append.1 hmem with h1 | h1
  · simpa using has (r, c) h1
  · exfalso
    have hpbs := (List.pairwise_append.1 hpw).2.1
    rcases List.mem_cons.1 h1 with e | e
    · rw [← e] at hb
      unfold Before at hb
      rcases hb with h2 | ⟨_, h2⟩
      · exact lt_irrefl _ h2
      · exact lt_irrefl _ h2
    · have := (List.pairwise_cons.1 hpbs).1 (r, c) e
      unfold Before at hb
      simp only at this
      rcases hb with h2 | ⟨h2, h3⟩
      · rcases this with h4 | ⟨h4, _⟩
        · exact lt_asymm h2 h4
        · rw [h4] at h2; exact lt_irrefl _ h2
      · rcases this with h4 | ⟨_, h5⟩
        · rw [h2] at h4; exact lt_irrefl _ h4
        · exact lt_asymm h3 h5

/-- Claim C15.  For every grid and every solution grid, `getHint(solution)`
returns `null` exactly when the grid has no empty cell; otherwise the cell it
returns is empty, every cell before it in row-major order is filled, and the
value returned is the entry of the solution at that cell. -/
theorem getHint_spec (b : SudokuBoard) (solution : Grid) :
    (b.getHint solution = none ↔ ∀ r c, b.grid r c ≠ 0) ∧
    (∀ row col value, b.getHint solution = some (row, col, value) →
      b.grid row col = 0 ∧ value = solution row col ∧
      ∀ r c, (r < row ∨ (r = row ∧ c < col)) → b.grid r c ≠ 0) := by
  unfold SudokuBoard.getHint
  cases hf : allPositions.find? (fun p => b.grid p.1 p.2 == 0) with
  | none =>
    dsimp only
    refine ⟨⟨fun _ r c => ?_, fun _ => rfl⟩, fun _ _ _ h => (nomatch h)⟩
    have := List.find?_eq_none.1 hf (r, c) (mem_allPositions _)
    simpa using this
  | some p =>
    obtain ⟨h1, h2⟩ := find_first_rowMajor _ p hf
    dsimp only
    refine ⟨⟨fun h => (nomatch h), fun h => ?_⟩, fun row col value h => ?_⟩
    · exact absurd (by simpa using h1) (h p.1 p.2)
    · simp only [Option.some.injEq, Prod.mk.injEq] at h
      obtain ⟨e1, e2, e3⟩ := h
      subst e1; subst e2
      refine ⟨by simpa using h1, e3.symm, fun r c hb => ?_⟩
      have := h2 r c hb
      simpa using this

theorem guarded_setValue {O : Grid} {s : Game} (h : Guarded O s) {row col : Fin 9}
    (hno : s.board.isOriginal row col = false) (v : Nat) :
    GivensKept (s.board.setValue row col v) ∧ (s.board.setValue row col v).originalGrid = O := by
  refine ⟨fun r c hrc => ?_, h.2⟩
  have hrc' : s.board.isOriginal r c = true := hrc
  have hne : ¬ (r = row ∧ c = col) := by
    rintro ⟨e1, e2⟩
    rw [e1, e2, hno] at hrc'
    exact nomatch hrc'
  simp only [SudokuBoard.setValue, hne, if_false]
  exact h.1 r c hrc'

theorem guarded_checkWin {O : Grid} {s : Game} (h : Guarded O s) (elapsed : Nat) :
    Guarded O (checkWinCondition elapsed s) := by
  have hb := (isComplete_spec s.board).1
  simp only [checkWinCondition]
  split <;> (unfold Guarded; simp only [hb]; exact h)

theorem guarded_run {O : Grid} (a : Action) {s : Game} (h : Guarded O s) :
    Guarded O (a.run s) := by
  cases a with
  | cellClick row col =>
    simp only [Action.run, handleCellClick]
    split
    · exact h
    · split <;> exact h
  | numberPad num elapsed =>
    simp only [Action.run, handleNumberInput]
    split
    · exact h
    · rename_i row col _
      split
      · exact h
      · split
        · exact h
        · rename_i hno
          have hno' : s.board.isOriginal row col = false := by simpa using hno
          split
          · exact guarded_checkWin (s := { s with board := s.board.setValue row col num })
              (guarded_setValue h hno' num) elapsed
          · split
            · exact guarded_setValue h hno' 0
            · exact h
  | keyPress key elapsed =>
    simp only [Action.run, handleKeyPress]
    split
    · exact h
    · rename_i row col _
      split
      · exact h
      · split
        · exact h
        · split
          · exact h
          · split
            · exact h
            · split
              · exact h
              · split
                · exact h
                · rename_i hno
                  have hno' : s.board.isOriginal row col = false := by simpa using hno
                  split
                  · split
                    · exact guarded_checkWin
                        (s := { s with board := s.board.setValue row col _ })
                        (guarded_setValue h hno' _) elapsed
                    · exact guarded_setValue h hno' 0
                  · exact guarded_setValue h hno' 0
                  · exact guarded_setValue h hno' 0
                  · exact h
  | check =>
    simp only [Action.run, checkBoard]
    split <;> exact h
  | hint elapsed =>
    simp only [Action.run, useHint]
    split
    · exact h
    · split
      · exact h
      · rename_i solution _
        split
        · exact h
        · rename_i row col value hh
          have h0 : s.board.grid row col = 0 := ((getHint_spec s.board solution).2 _ _ _ hh).1
          have hno : s.board.isOriginal row col = false := by
            cases ho : s.board.isOriginal row col with
            | false => rfl
            | true =>
              have := h.1 row col ho
              simp only [SudokuBoard.isOriginal, bne_iff_ne, ne_eq] at ho
              exact absurd (this.symm.trans h0) ho
          exact guarded_checkWin
            (s := { s with hintsUsed := s.hintsUsed + 1, score := max 0 (s.score - 10),
                           board := s.board.setValue row col value,
                           selectedCell := some (row, col) })
            (guarded_setValue h hno value) elapsed
  | reset =>
    simp only [Action.run, resetPuzzle]
    split
    · exact h
    · refine ⟨fun r c _ => rfl, h.2⟩

theorem guarded_runActions {O : Grid} :
    ∀ (acts : List Action) (s : Game), Guarded O s → Guarded O (runActions acts s)
  | [], _, h => h
  | a :: rest, s, h => guarded_runActions rest (a.run s) (guarded_run a h)

theorem generatePuzzle_original (rnd : Nat → Nat) (n : Nat) (s0 : Game) (k : Nat) :
    ∃ s1 k1, generatePuzzle rnd (82 + n) s0 k = some (s1, k1) ∧
      s1.board.originalGrid = s1.board.grid := by
  obtain ⟨b2, k2, heq, _⟩ := fillBoard_clear rnd n s0.board k
  refine ⟨_, _, generatePuzzle_eq heq, ?_⟩
  simp only [SudokuBoard.saveAsOriginal]

/-- Claim C16.  Every puzzle generation succeeds and leaves `originalGrid`
equal to the grid; and in every state reached from the generated puzzle by
cell clicks, number-pad input, key presses (arrows, digits, Backspace, Delete,
others), checks, hints and resets, `originalGrid` is still that of the puzzle
and every cell for which `isOriginal` is true holds its `originalGrid`
value. -/
theorem givens_never_edited (rnd : Nat → Nat) (n : Nat) (s0 : Game) (k : Nat)
    (acts : List Action) :
    ∃ s1 k1, generatePuzzle rnd (82 + n) s0 k = some (s1, k1) ∧
      s1.board.originalGrid = s1.board.grid ∧
      (runActions acts s1).board.originalGrid = s1.board.originalGrid ∧
      ∀ r c, (runActions acts s1).board.isOriginal r c = true →
        (runActions acts s1).board.grid r c = (runActions acts s1).board.originalGrid r c := by
  obtain ⟨s1, k1, hgen, horig⟩ := generatePuzzle_original rnd n s0 k
  have h1 : Guarded s1.board.originalGrid s1 :=
    ⟨fun r c _ => (congrFun (congrFun horig r) c).symm, rfl⟩
  have hg := guarded_runActions acts s1 h1
  exact ⟨s1, k1, hgen, horig, hg.2, hg.1⟩

end Sudoku

/-! ## Properties of the Water Sort game -/

namespace WaterSort

theorem stack_eta (s : Stack) (l : List Color) (h : s.items = l) :
    ({ s with items := l } : Stack) = s := by
  cases s
  simp only at h
  subst h
  rfl

theorem pop_concat (s : Stack) (init : List Color) (last : Color)
    (h : s.items = init ++ [last]) : s.pop = (some last, { s with items := init }) := by
  simp [Stack.pop, Stack.isEmpty, h]

theorem push_not_full (s : Stack) (color : Color) (h : s.items.length < s.maxSize) :
    s.push color = (true, { s with items := s.items ++ [color] }) := by
  simp [Stack.push, Stack.isFull, h]

theorem undoLoop_append (src dst : Nat) :
    ∀ (l1 l2 : List Color) (tubes t1 : List Stack),
      undoLoop src dst l1 tubes = (t1, false) →
      undoLoop src dst (l1 ++ l2) tubes = undoLoop src dst l2 t1
  | [], l2, tubes, t1, h => by
    simp only [undoLoop, Prod.mk.injEq, and_true] at h
    rw [List.nil_append, h]
  | color :: rest, l2, tubes, t1, h => by
    rw [List.cons_append]
    cases hd : tubes[dst]? with
    | none =>
      simp only [undoLoop, hd] at h
      exact absurd (congrArg Prod.snd h) (by simp)
    | some dest =>
      cases hs : (tubes.set dst dest.pop.2)[src]? with
      | none =>
        simp only [undoLoop, hd, hs] at h
        exact absurd (congrArg Prod.snd h) (by simp)
      | some source =>
        simp only [undoLoop, hd, hs] at h ⊢
        exact undoLoop_append src dst rest l2 _ t1 h

theorem set_restore (tubes : List Stack) (src dst : Nat) (s d s1 d1 : Stack)
    (hs : tubes[src]? = some s) (hd : tubes[dst]? = some d) :
    ((((tubes.set src s1).set dst d1).set dst d).set src s) = tubes := by
  obtain ⟨h1, e1⟩ := List.getElem?_eq_some_iff.1 hs
  obtain ⟨h2, e2⟩ := List.getElem?_eq_some_iff.1 hd
  apply List.ext_getElem
  · simp
  · intro i hi1 hi2
    simp only [List.getElem_set]
    by_cases a : src = i
    · subst a; simp [e1]
    · by_cases b : dst = i
      · subst b; simp [a, e2]
      · simp [a, b]

/-- The pour loop ends, and undoing the colours it poured, last poured first,
gives back the tubes it started from. -/
theorem pourLoop_undo (src dst : Nat) (hne : src ≠ dst) (c : Option Color) :
    ∀ (fuel : Nat) (tubes : List Stack) (colors : List Color) (s d : Stack),
      tubes[src]? = some s → tubes[dst]? = some d → s.items.length ≤ fuel →
      s.items.length ≤ s.maxSize →
      ∃ tubes1 poured, pourLoop src dst c fuel tubes colors = some (tubes1, colors ++ poured) ∧
        undoLoop src dst poured.reverse tubes1 = (tubes, false) ∧
        ((!s.isEmpty && !d.isFull && s.peek == c) = true → poured ≠ []) := by
  intro fuel
  induction fuel with
  | zero =>
    intro tubes colors s d hs hd hf _
    have he : s.isEmpty = true := by
      have : s.items.length = 0 := Nat.le_zero.1 hf
      simp [Stack.isEmpty, this]
    refine ⟨tubes, [], ?_, rfl, fun h => ?_⟩
    · unfold pourLoop
      simp [hs, hd, he]
    · rw [he] at h; simp at h
  | succ fuel ih =>
    intro tubes colors s d hs hd hf hcap
    by_cases hc : (!s.isEmpty && !d.isFull && s.peek == c) = true
    · have hse : s.isEmpty = false := by
        cases h : s.isEmpty
        · rfl
        · rw [h] at hc; simp at hc
      have hdf : d.isFull = false := by
        cases h : d.isFull
        · rfl
        · rw [h] at hc; simp at hc
      have hnil : s.items ≠ [] := by
        intro h; simp [Stack.isEmpty, h] at hse
      obtain ⟨init, last, hil⟩ : ∃ init last, s.items = init ++ [last] :=
        ⟨s.items.dropLast, s.items.getLast hnil, (List.dropLast_append_getLast hnil).symm⟩
      have hlen : s.items.length = init.length + 1 := by rw [hil]; simp
      have hdlen : d.items.length < d.maxSize := by
        simpa [Stack.isFull] using hdf
      obtain ⟨h1, _⟩ := List.getElem?_eq_some_iff.1 hs
      obtain ⟨h2, _⟩ := List.getElem?_eq_some_iff.1 hd
      have hd1 : (tubes.set src { s with items := init })[dst]? = some d := by
        rw [List.getElem?_set_ne hne]; exact hd
      have hs2 : ((tubes.set src { s with items := init }).set dst
          { d with items := d.items ++ [last] })[src]? = some { s with items := init } := by
        rw [List.getElem?_set_ne (Ne.symm hne), List.getElem?_set_self h1]
      have hd2 : ((tubes.set src { s with items := init }).set dst
          { d with items := d.items ++ [last] })[dst]? =
          some { d with items := d.items ++ [last] } := by
        rw [List.getElem?_set_self (by simpa using h2)]
      obtain ⟨tubes1, poured, hp, hu, _⟩ := ih _ (colors ++ [last]) _ _ hs2 hd2
        (by show init.length ≤ fuel; omega) (by show init.length ≤ s.maxSize; omega)
      refine ⟨tubes1, last :: poured, ?_, ?_, fun _ => List.cons_ne_nil _ _⟩
      · unfold pourLoop
        simp only [hs, hd, hc, if_true, pop_concat s init last hil, hd1,
          push_not_full d last hdlen]
        rw [hp]
        simp
      · rw [List.reverse_cons, undoLoop_append src dst _ [last] _ _ hu]
        unfold undoLoop
        simp only [hd2]
        have hpop : ({ d with items := d.items ++ [last] } : Stack).pop.2 = d := by
          rw [pop_concat _ d.items last rfl]
        rw [hpop]
        have hs3 : (((tubes.set src { s with items := init }).set dst
            { d with items := d.items ++ [last] }).set dst d)[src]? =
            some { s with items := init } := by
          rw [List.getElem?_set_ne (Ne.symm hne)]; exact hs2
        simp only [hs3]
        have hpush : (({ s with items := init } : Stack).push last).2 = s := by
          rw [push_not_full _ last (by show init.length < s.maxSize; omega)]
          exact stack_eta s _ hil
        rw [hpush, set_restore tubes src dst s d _ _ hs hd]
        rfl
    · refine ⟨tubes, [], ?_, rfl, fun h => absurd h hc⟩
      unfold pourLoop
      simp only [hs, hd, hc]
      simp

theorem checkCompletedTubes_tubes (g : Game) :
    (checkCompletedTubes g).tubes = g.tubes ∧
    (checkCompletedTubes g).moveHistory = g.moveHistory ∧
    (checkCompletedTubes g).moves = g.moves ∧
    (checkCompletedTubes g).selectedTube = g.selectedTube ∧
    (checkCompletedTubes g).gameState = g.gameState := ⟨rfl, rfl, rfl, rfl, rfl⟩

theorem checkGameComplete_tubes (g : Game) :
    (checkGameComplete g).tubes = g.tubes ∧
    (checkGameComplete g).moveHistory = g.moveHistory ∧
    (checkGameComplete g).moves = g.moves ∧
    (checkGameComplete g).selectedTube = g.selectedTube := by
  unfold checkGameComplete
  dsimp only
  split <;> exact ⟨rfl, rfl, rfl, rfl⟩

/-- Claim C17, counterexample.  With both tubes empty the destination is not
full and is empty, yet `isValidMove` returns false: nothing can be poured from
an empty tube. -/
theorem isValidMove_empty_source_counterexample :
    isValidMove (Stack.new 4) (Stack.new 4) = false ∧
    ((Stack.new 4).isFull = false ∧
      ((Stack.new 4).isEmpty = true ∨ (Stack.new 4).peek = (Stack.new 4).peek)) := by
  decide

/-- Claim C17, amended.  For every pair of tubes, `isValidMove(source, dest)`
is true exactly when the source is not empty, the destination is not full, and
the destination is empty or the top colours of source and destination are the
same. -/
theorem isValidMove_iff (source dest : Stack) :
    isValidMove source dest = true ↔
      source.isEmpty = false ∧ dest.isFull = false ∧
        (dest.isEmpty = true ∨ source.peek = dest.peek) := by
  unfold isValidMove
  cases h1 : source.isEmpty <;> cases h2 : dest.isFull <;> cases h3 : dest.isEmpty <;> simp

/-- A pour between two different tubes followed by an undo, for a source tube
within its capacity and enough fuel. -/
theorem pour_then_undo (g : Game) (from_ to_ : Nat) (source dest : Stack) (fuel : Nat)
    (hs : g.tubes[from_]? = some source) (hd : g.tubes[to_]? = some dest)
    (hne : from_ ≠ to_) (hvalid : isValidMove source dest = true)
    (hcap : source.items.length ≤ source.maxSize) (hfuel : source.items.length ≤ fuel) :
    ∃ g1, performPour fuel from_ to_ g = some g1 ∧
      (∃ colors, colors ≠ [] ∧ g1.moveHistory =
        g.moveHistory ++ [{ from_ := from_, to_ := to_, colors := colors }]) ∧
      g1.moves = g.moves + 1 ∧
      (undoMove g1).tubes = g.tubes ∧
      (undoMove g1).moveHistory = g.moveHistory ∧
      (undoMove g1).moves = g.moves + 1 := by
  obtain ⟨tubes1, poured, hp, hu, hpoured⟩ :=
    pourLoop_undo from_ to_ hne source.peek fuel g.tubes [] source dest hs hd hfuel hcap
  have hne2 : poured ≠ [] := by
    apply hpoured
    have h1 := (isValidMove_iff source dest).1 hvalid
    simp [h1.1, h1.2.1]
  rw [List.nil_append] at hp
  have hperf : performPour fuel from_ to_ g = some (checkGameComplete (checkCompletedTubes
      { g with tubes := tubes1,
               moveHistory := g.moveHistory ++ [{ from_ := from_, to_ := to_, colors := poured }],
               moves := g.moves + 1 })) := by
    unfold performPour
    simp only [hs, hd, hp, Option.isNone_some, Bool.false_eq_true, false_and, if_false]
  refine ⟨_, hperf, ?_⟩
  generalize hg1 : checkGameComplete (checkCompletedTubes
      { g with tubes := tubes1,
               moveHistory := g.moveHistory ++ [{ from_ := from_, to_ := to_, colors := poured }],
               moves := g.moves + 1 }) = g1
  have ht : g1.tubes = tubes1 := by
    rw [← hg1]; exact (checkGameComplete_tubes _).1.trans rfl
  have hh : g1.moveHistory =
      g.moveHistory ++ [{ from_ := from_, to_ := to_, colors := poured }] := by
    rw [← hg1]; exact (checkGameComplete_tubes _).2.1.trans rfl
  have hm : g1.moves = g.moves + 1 := by
    rw [← hg1]; exact (checkGameComplete_tubes _).2.2.1.trans rfl
  refine ⟨⟨poured, hne2, hh⟩, hm, ?_⟩
  have hlast : g1.moveHistory.getLast? =
      some { from_ := from_, to_ := to_, colors := poured } := by
    rw [hh, List.getLast?_concat]
  have hdrop : g1.moveHistory.dropLast = g.moveHistory := by
    rw [hh, List.dropLast_concat]
  have hundo : undoMove g1 = checkCompletedTubes
      { g1 with moveHistory := g.moveHistory, tubes := g.tubes, selectedTube := none } := by
    unfold undoMove
    simp only [hlast, hdrop, ht, hu, Bool.false_eq_true, if_false]
  rw [hundo]
  exact ⟨rfl, rfl, hm⟩

theorem push_capacity (t : Stack) (color : Color) (h : t.items.length ≤ t.maxSize) :
    (t.push color).2.items.length ≤ (t.push color).2.maxSize := by
  unfold Stack.push
  by_cases hf : t.isFull = true
  · rw [if_pos hf]; exact h
  · rw [if_neg hf]
    have : t.items.length < t.maxSize := by simpa [Stack.isFull] using hf
    show (t.items ++ [color]).length ≤ t.maxSize
    rw [List.length_append, List.length_singleton]
    omega

theorem pop_capacity (t : Stack) (h : t.items.length ≤ t.maxSize) :
    t.pop.2.items.length ≤ t.pop.2.maxSize := by
  unfold Stack.pop
  split
  · exact h
  · show t.items.dropLast.length ≤ t.maxSize
    rw [List.length_dropLast]
    omega

theorem withinCapacity_set {tubes : List Stack} (h : WithinCapacity tubes) (i : Nat)
    (t : Stack) (ht : t.items.length ≤ t.maxSize) : WithinCapacity (tubes.set i t) := by
  intro x hx
  rcases List.mem_or_eq_of_mem_set hx with hx | hx
  · exact h x hx
  · rw [hx]; exact ht

theorem withinCapacity_get {tubes : List Stack} (h : WithinCapacity tubes) {i : Nat}
    {t : Stack} (ht : tubes[i]? = some t) : t.items.length ≤ t.maxSize :=
  by
  obtain ⟨hi, e⟩ := List.getElem?_eq_some_iff.1 ht
  exact h t (e ▸ List.getElem_mem hi)

theorem pourLoop_capacity (src dst : Nat) (c : Option Color) :
    ∀ (fuel : Nat) (tubes : List Stack) (colors : List Color) (r : List Stack × List Color),
      WithinCapacity tubes → pourLoop src dst c fuel tubes colors = some r →
      WithinCapacity r.1 := by
  intro fuel
  induction fuel with
  | zero =>
    intro tubes colors r hw h
    unfold pourLoop at h
    split at h
    · split at h
      · exact nomatch h
      · cases h; exact hw
    · cases h; exact hw
  | succ fuel ih =>
    intro tubes colors r hw h
    unfold pourLoop at h
    split at h
    · rename_i source dest hs hd
      split at h
      · have hw1 : WithinCapacity (tubes.set src source.pop.2) :=
          withinCapacity_set hw _ _ (pop_capacity _ (withinCapacity_get hw hs))
        dsimp only at h
        split at h
        · rename_i color dest1 _ hd1
          exact ih _ _ r (withinCapacity_set hw1 _ _
            (push_capacity _ _ (withinCapacity_get hw1 hd1))) h
        · cases h; exact hw1
      · cases h; exact hw
    · cases h; exact hw

theorem undoLoop_capacity (src dst : Nat) :
    ∀ (colors : List Color) (tubes : List Stack), WithinCapacity tubes →
      WithinCapacity (undoLoop src dst colors tubes).1
  | [], _, hw => hw
  | color :: rest, tubes, hw => by
    unfold undoLoop
    split
    · exact hw
    · rename_i dest hd
      have hw1 : WithinCapacity (tubes.set dst dest.pop.2) :=
        withinCapacity_set hw _ _ (pop_capacity _ (withinCapacity_get hw hd))
      dsimp only
      split
      · exact hw1
      · rename_i source hs
        exact undoLoop_capacity src dst rest _ (withinCapacity_set hw1 _ _
          (push_capacity _ _ (withinCapacity_get hw1 hs)))

theorem fillTube_capacity :
    ∀ (j : Nat) (tube : Stack) (colorPool : List Color), tube.items.length ≤ tube.maxSize →
      (fillTube j tube colorPool).1.items.length ≤ (fillTube j tube colorPool).1.maxSize
  | 0, _, _, h => h
  | j + 1, tube, colorPool, h => by
    unfold fillTube
    split
    · exact h
    · exact fillTube_capacity j _ _ (push_capacity _ _ h)

theorem fillTubes_capacity :
    ∀ (i : Nat) (tubes : List Stack) (colorPool : List Color), WithinCapacity tubes →
      WithinCapacity (fillTubes i tubes colorPool)
  | 0, _, _, h => h
  | i + 1, tubes, colorPool, h => by
    unfold fillTubes
    apply fillTubes_capacity i
    intro t ht
    rcases List.mem_append.1 ht with ht | ht
    · exact h t ht
    · rw [List.mem_singleton.1 ht]
      exact fillTube_capacity _ _ _ (Nat.zero_le _)

theorem sound_startNewGame (rnd : Nat → Nat) (k : Nat) : Sound (startNewGame rnd k).1 := by
  refine ⟨?_, fun h => absurd rfl h⟩
  intro t ht
  rcases List.mem_append.1 ht with ht | ht
  · exact fillTubes_capacity _ _ _ (fun _ h => absurd h (List.not_mem_nil _)) t ht
  · rw [List.eq_of_mem_replicate ht]
    exact Nat.zero_le _

theorem performPour_capacity {fuel from_ to_ : Nat} {g g1 : Game}
    (hw : WithinCapacity g.tubes) (h : performPour fuel from_ to_ g = some g1) :
    WithinCapacity g1.tubes := by
  unfold performPour at h
  split at h
  · cases h; exact hw
  · split at h
    · cases h; exact hw
    · split at h
      · exact nomatch h
      · rename_i tubes colors hp
        have := pourLoop_capacity _ _ _ _ _ _ _ hw hp
        cases h
        rw [(checkGameComplete_tubes _).1]
        exact this

theorem sound_handleTubeClick {fuel index : Nat} {g g1 : Game} (hg : Sound g)
    (h : handleTubeClick fuel index g = some g1) : Sound g1 := by
  unfold handleTubeClick at h
  split at h
  · cases h; exact hg
  · rename_i hplay
    have hplay : g.gameState = .playing := not_not.1 hplay
    split at h
    · split at h
      · cases h; exact hg
      · split at h
        · cases h; exact ⟨hg.1, fun _ => hplay⟩
        · cases h; exact hg
    · split at h
      · cases h; exact ⟨hg.1, fun hn => absurd rfl hn⟩
      · split at h
        · cases h; exact hg
        · split at h
          · cases h; exact ⟨hg.1, fun hn => absurd rfl hn⟩
          · cases h; exact hg
        · split at h
          · split at h
            · exact nomatch h
            · rename_i g2 hp
              cases h
              have hcap : WithinCapacity g2.tubes := performPour_capacity hg.1 hp
              exact ⟨hcap, fun hn => absurd rfl hn⟩
          · cases h; exact ⟨hg.1, fun hn => absurd rfl hn⟩

theorem sound_undoMove {g : Game} (hg : Sound g) : Sound (undoMove g) := by
  unfold undoMove
  split
  · exact hg
  · rename_i lastMove _
    dsimp only
    have hw := undoLoop_capacity lastMove.from_ lastMove.to_ lastMove.colors.reverse g.tubes hg.1
    split
    · exact ⟨hw, hg.2⟩
    · exact ⟨hw, fun hn => absurd rfl hn⟩

theorem reachable_sound {g : Game} (h : Reachable g) : Sound g := by
  induction h with
  | start rnd k => exact sound_startNewGame rnd k
  | click fuel index _ hc ih => exact sound_handleTubeClick ih hc
  | undo _ ih => exact sound_undoMove ih

theorem reachable_demoSelected : Reachable demoSelected :=
  Reachable.click 0 0 (Reachable.start (fun _ => 0) 0) (by rfl)

/-- Claim C18.  In every state the game goes through, for every two different
tubes for which `isValidMove` holds, `performPour(from, to)` ends, pours at
least one colour, records the pour as the last entry of `moveHistory` and adds
one to the move counter; `undoMove()` then gives every tube back exactly the
contents it had before the pour and removes the entry from `moveHistory`, the
move counter staying as the pour left it. -/
theorem performPour_undoMove (g : Game) (hr : Reachable g) (from_ to_ : Nat)
    (source dest : Stack) (n : Nat)
    (hs : g.tubes[from_]? = some source) (hd : g.tubes[to_]? = some dest)
    (hne : from_ ≠ to_) (hvalid : isValidMove source dest = true) :
    ∃ g1, performPour (source.size + n) from_ to_ g = some g1 ∧
      (∃ colors, colors ≠ [] ∧ g1.moveHistory =
        g.moveHistory ++ [{ from_ := from_, to_ := to_, colors := colors }]) ∧
      g1.moves = g.moves + 1 ∧
      (undoMove g1).tubes = g.tubes ∧
      (undoMove g1).moveHistory = g.moveHistory ∧
      (undoMove g1).moves = g.moves + 1 :=
  pour_then_undo g from_ to_ source dest (source.size + n) hs hd hne hvalid
    (withinCapacity_get (reachable_sound hr).1 hs) (Nat.le_add_right _ _)

theorem performPour_undoMove_witness :
    ∃ g1, performPour ((Stack.mk [.red, .green, .green, .green] 4).size + 0) 0 3
        (startNewGame (fun _ => 0) 0).1 = some g1 ∧
      (∃ colors, colors ≠ [] ∧ g1.moveHistory =
        (startNewGame (fun _ => 0) 0).1.moveHistory ++
          [{ from_ := 0, to_ := 3, colors := colors }]) ∧
      g1.moves = (startNewGame (fun _ => 0) 0).1.moves + 1 ∧
      (undoMove g1).tubes = (startNewGame (fun _ => 0) 0).1.tubes ∧
      (undoMove g1).moveHistory = (startNewGame (fun _ => 0) 0).1.moveHistory ∧
      (undoMove g1).moves = (startNewGame (fun _ => 0) 0).1.moves + 1 :=
  performPour_undoMove (startNewGame (fun _ => 0) 0).1 (Reachable.start (fun _ => 0) 0) 0 3
    (Stack.mk [.red, .green, .green, .green] 4) (Stack.mk [] 4) 0
    (by decide) (by decide) (by decide) (by decide)

/-- Claim C21.  In every state the game goes through in which a tube is
selected, a click on another tube for which `isValidMove(source, dest)` is
false returns the same state with the selection cleared: the tubes, the move
counter, the score, the sorted count and `moveHistory` are unchanged. -/
theorem invalid_move_rejected (g : Game) (hr : Reachable g) (selected index : Nat)
    (source dest : Stack) (fuel : Nat)
    (hsel : g.selectedTube = some selected) (hne : index ≠ selected)
    (hs : g.tubes[selected]? = some source) (hd : g.tubes[index]? = some dest)
    (hinv : isValidMove source dest = false) :
    handleTubeClick fuel index g = some { g with selectedTube := none } := by
  have hplay : g.gameState = .playing := (reachable_sound hr).2 (by rw [hsel]; simp)
  unfold handleTubeClick
  simp only [hplay, ne_eq, not_true_eq_false, if_false, hd, hsel, hs, hinv,
    if_neg (Ne.symm hne), Bool.false_eq_true]

theorem invalid_move_rejected_witness :
    handleTubeClick 0 1 demoSelected = some { demoSelected with selectedTube := none } :=
  invalid_move_rejected demoSelected reachable_demoSelected 0 1
    (Stack.mk [.red, .green, .green, .green] 4) (Stack.mk [.green, .blue, .blue, .blue] 4) 0
    (by decide) (by decide) (by decide) (by decide) (by decide)

end WaterSort

/-! ## Properties of the Memory Match shuffle -/

namespace MemoryMatch

theorem shuffleLoop_perm_input {α : Type} (rnd : Nat → Nat) :
    ∀ (i : Nat) (arr : List α) (k : Nat), (shuffleLoop rnd i arr k).1.Perm arr
  | 0, _, _ => List.Perm.refl _
  | i + 1, arr, k =>
    (shuffleLoop_perm_input rnd i _ (k + 1)).trans (Sudoku.swap_perm arr _ _)

theorem readArray_set_self {α : Type} (h : Heap α) (a : Nat) (l : List α) (ha : a < h.length) :
    readArray (h.set a l) a = l := by
  simp [readArray, ha]

theorem readArray_set_other {α : Type} (h : Heap α) (a b : Nat) (l : List α) (hab : a ≠ b) :
    readArray (h.set a l) b = readArray h b := by
  simp [readArray, List.getD_eq_getElem?_getD, List.getElem?_set_ne hab]

/-- The loop on an array object does to that object what the loop on its
contents does, and leaves the other objects alone. -/
theorem shuffleLoopRef_spec {α : Type} (rnd : Nat → Nat) (arr : Nat) :
    ∀ (i : Nat) (h : Heap α) (k : Nat), arr < h.length →
      readArray (shuffleLoopRef rnd arr i h k).1 arr = (shuffleLoop rnd i (readArray h arr) k).1 ∧
      (shuffleLoopRef rnd arr i h k).2 = (shuffleLoop rnd i (readArray h arr) k).2 ∧
      (shuffleLoopRef rnd arr i h k).1.length = h.length ∧
      ∀ b, b ≠ arr → readArray (shuffleLoopRef rnd arr i h k).1 b = readArray h b
  | 0, h, k, _ => ⟨rfl, rfl, rfl, fun _ _ => rfl⟩
  | i + 1, h, k, ha => by
    obtain ⟨h1, h2, h3, h4⟩ := shuffleLoopRef_spec rnd arr i
      (h.set arr (Sudoku.swap (readArray h arr) i (rnd k % (i + 1)))) (k + 1)
      (by simpa using ha)
    rw [readArray_set_self h arr _ ha] at h1 h2
    refine ⟨h1, h2, by simpa using h3, fun b hb => ?_⟩
    exact (h4 b hb).trans (readArray_set_other h arr b _ (Ne.symm hb))

theorem readArray_append_old {α : Type} (h : Heap α) (l : List α) (a : Nat) (ha : a < h.length) :
    readArray (h ++ [l]) a = readArray h a := by
  simp [readArray, List.getD_eq_getElem?_getD, List.getElem?_append_left ha]

theorem readArray_append_new {α : Type} (h : Heap α) (l : List α) :
    readArray (h ++ [l]) h.length = l := by
  simp [readArray]

/-- Claim C22.  For every input array object and every outcome of the random
draws, the array that `fisherYatesShuffle` returns is a permutation of the
input (the same elements with the same multiplicities, hence the same length);
it is a new array object, and the input array, like every other array that
existed before the call, holds exactly what it held. -/
theorem fisherYatesShuffle_perm {α : Type} (rnd : Nat → Nat) (h : Heap α) (array k : Nat)
    (ha : array < h.length) :
    (readArray (fisherYatesShuffleRef rnd h array k).1
        (fisherYatesShuffleRef rnd h array k).2.1).Perm (readArray h array) ∧
    (readArray (fisherYatesShuffleRef rnd h array k).1
        (fisherYatesShuffleRef rnd h array k).2.1).length = (readArray h array).length ∧
    readArray (fisherYatesShuffleRef rnd h array k).1
        (fisherYatesShuffleRef rnd h array k).2.1 =
      (fisherYatesShuffle rnd (readArray h array) k).1 ∧
    (fisherYatesShuffleRef rnd h array k).2.1 ≠ array ∧
    readArray (fisherYatesShuffleRef rnd h array k).1 array = readArray h array ∧
    (∀ a, a < h.length → readArray (fisherYatesShuffleRef rnd h array k).1 a = readArray h a) := by
  have hnew : readArray (h ++ [readArray h array]) h.length = readArray h array :=
    readArray_append_new h _
  obtain ⟨h1, _, _, h4⟩ := shuffleLoopRef_spec rnd h.length (readArray h array).length
    (h ++ [readArray h array]) k (by simp)
  rw [hnew] at h1
  have hres : readArray (fisherYatesShuffleRef rnd h array k).1
      (fisherYatesShuffleRef rnd h array k).2.1 =
      (fisherYatesShuffle rnd (readArray h array) k).1 := by
    simp only [fisherYatesShuffleRef, spread, hnew]
    exact h1
  have hframe : ∀ a, a < h.length →
      readArray (fisherYatesShuffleRef rnd h array k).1 a = readArray h a := by
    intro a hlt
    simp only [fisherYatesShuffleRef, spread, hnew]
    exact (h4 a (Nat.ne_of_lt hlt)).trans (readArray_append_old h _ a hlt)
  have hperm : (fisherYatesShuffle rnd (readArray h array) k).1.Perm (readArray h array) :=
    shuffleLoop_perm_input rnd _ _ k
  refine ⟨hres ▸ hperm, ?_, hres, ?_, hframe array ha, hframe⟩
  · rw [hres]; exact hperm.length_eq
  · exact Nat.ne_of_gt ha

theorem fisherYatesShuffle_perm_witness :
    (readArray (fisherYatesShuffleRef (fun n => n + 1) [[1, 2, 3, 4]] 0 0).1
        (fisherYatesShuffleRef (fun n => n + 1) [[1, 2, 3, 4]] 0 0).2.1).Perm
      (readArray [[1, 2, 3, 4]] 0) ∧
    (readArray (fisherYatesShuffleRef (fun n => n + 1) [[1, 2, 3, 4]] 0 0).1
        (fisherYatesShuffleRef (fun n => n + 1) [[1, 2, 3, 4]] 0 0).2.1).length =
      (readArray [[1, 2, 3, 4]] 0).length ∧
    readArray (fisherYatesShuffleRef (fun n => n + 1) [[1, 2, 3, 4]] 0 0).1
        (fisherYatesShuffleRef (fun n => n + 1) [[1, 2, 3, 4]] 0 0).2.1 =
      (fisherYatesShuffle (fun n => n + 1) (readArray [[1, 2, 3, 4]] 0) 0).1 ∧
    (fisherYatesShuffleRef (fun n => n + 1) [[1, 2, 3, 4]] 0 0).2.1 ≠ 0 ∧
    readArray (fisherYatesShuffleRef (fun n => n + 1) [[1, 2, 3, 4]] 0 0).1 0 =
      readArray [[1, 2, 3, 4]] 0 ∧
    (∀ a, a < [[1, 2, 3, 4]].length →
      readArray (fisherYatesShuffleRef (fun n => n + 1) [[1, 2, 3, 4]] 0 0).1 a =
        readArray [[1, 2, 3, 4]] a) :=
  fisherYatesShuffle_perm (fun n => n + 1) [[1, 2, 3, 4]] 0 0 (by decide)

end MemoryMatch

/-! ## Properties of the animated auto-solve -/

namespace Sudoku

theorem agrees_write {g : Grid} {B : SudokuBoard} {row col : Fin 9} (num : Nat)
    (h0 : g row col = 0) (h : Agrees g B.grid) : Agrees g (B.setValue row col num).grid := by
  intro r c hne
  simp only [SudokuBoard.setValue]
  split
  · rename_i hrc
    obtain ⟨e1, e2⟩ := hrc
    subst e1; subst e2
    exact absurd h0 hne
  · exact h r c hne

theorem agrees_place {b B : SudokuBoard} {row col : Fin 9} (num : Nat)
    (h : Agrees b.grid B.grid) :
    Agrees (b.setValue row col num).grid (B.setValue row col num).grid := by
  intro r c hne
  simp only [SudokuBoard.setValue] at hne ⊢
  split
  · rfl
  · rename_i hrc
    rw [if_neg hrc] at hne
    exact h r c hne

theorem agrees_backtrack {b B : SudokuBoard} {row col : Fin 9}
    (h : Agrees b.grid B.grid) :
    Agrees (b.setValue row col 0).grid (B.setValue row col 0).grid :=
  agrees_place 0 h

/-- What a run of the solver's loop records: replayed on a board that agrees
with the solver's board on its filled cells, the new steps give a board that
agrees with the board the solver leaves. -/
theorem solveLoop_replay (recur : SudokuBoard → List Step → Option SolveResult)
    (row col : Fin 9)
    (IH : ∀ b st r b' st', recur b st = some (r, b', st') →
      ∃ new, st' = st ++ new ∧
        ∀ B : SudokuBoard, Agrees b.grid B.grid → Agrees b'.grid (new.foldl applyStep B).grid) :
    ∀ (nums : List Nat) (b : SudokuBoard) (st : List Step) (r : Bool) (b' : SudokuBoard)
      (st' : List Step), b.grid row col = 0 →
      solveLoop recur row col nums b st = some (r, b', st') →
      ∃ new, st' = st ++ new ∧
        ∀ B : SudokuBoard, Agrees b.grid B.grid → Agrees b'.grid (new.foldl applyStep B).grid
  | [], b, st, r, b', st', _, h => by
    simp only [solveLoop, Option.some.injEq, Prod.mk.injEq] at h
    obtain ⟨_, e2, e3⟩ := h
    subst e2; subst e3
    exact ⟨[], (List.append_nil _).symm, fun B hB => hB⟩
  | num :: rest, b, st, r, b', st', h0, h => by
    by_cases hv : b.isValid row col num = true
    · simp only [solveLoop, hv, if_true] at h
      cases hrec : recur (b.setValue row col num)
          (st ++ [{ type := .try_, row := row, col := col, num := num }] ++
            [{ type := .place, row := row, col := col, num := num }]) with
      | none => rw [hrec] at h; exact nomatch h
      | some res =>
        obtain ⟨r1, b1, st1⟩ := res
        obtain ⟨new1, hst1, hsim1⟩ := IH _ _ _ _ _ hrec
        rw [hrec] at h
        cases r1 with
        | true =>
          simp only [Option.some.injEq, Prod.mk.injEq] at h
          obtain ⟨_, e2, e3⟩ := h
          subst e2; subst e3
          refine ⟨[{ type := .try_, row := row, col := col, num := num },
            { type := .place, row := row, col := col, num := num }] ++ new1, ?_, fun B hB => ?_⟩
          · rw [hst1]; simp
          · rw [List.foldl_append]
            apply hsim1
            simp only [List.foldl, applyStep]
            have h1 : Agrees b.grid (B.setValue row col num).grid := agrees_write num h0 hB
            exact agrees_place num h1
        | false =>
          simp only at h
          obtain ⟨new2, hst2, hsim2⟩ := solveLoop_replay recur row col IH rest _ _ r b' st'
            (by simp [SudokuBoard.setValue]) h
          refine ⟨[{ type := .try_, row := row, col := col, num := num },
            { type := .place, row := row, col := col, num := num }] ++ new1 ++
            [{ type := .backtrack, row := row, col := col, num := 0 }] ++ new2, ?_,
            fun B hB => ?_⟩
          · rw [hst2, hst1]; simp
          · rw [List.foldl_append, List.foldl_append, List.foldl_append]
            apply hsim2
            simp only [List.foldl, applyStep]
            apply agrees_backtrack
            apply hsim1
            have h1 : Agrees b.grid (B.setValue row col num).grid := agrees_write num h0 hB
            exact agrees_place num h1
    · simp only [solveLoop, hv, Bool.false_eq_true, if_false] at h
      obtain ⟨new2, hst2, hsim2⟩ := solveLoop_replay recur row col IH rest _ _ r b' st' h0 h
      refine ⟨[{ type := .try_, row := row, col := col, num := num }] ++ new2, ?_,
        fun B hB => ?_⟩
      · rw [hst2]; simp
      · rw [List.foldl_append]
        apply hsim2
        simp only [List.foldl, applyStep]
        exact agrees_write num h0 hB

theorem solveRecursive_replay :
    ∀ (fuel : Nat) (b : SudokuBoard) (st : List Step) (r : Bool) (b' : SudokuBoard)
      (st' : List Step), solveRecursive fuel b st = some (r, b', st') →
      ∃ new, st' = st ++ new ∧
        ∀ B : SudokuBoard, Agrees b.grid B.grid → Agrees b'.grid (new.foldl applyStep B).grid
  | 0, _, _, _, _, _, h => nomatch h
  | fuel + 1, b, st, r, b', st', h => by
    cases hf : b.findEmpty with
    | none =>
      simp only [solveRecursive, hf, Option.some.injEq, Prod.mk.injEq] at h
      obtain ⟨_, e2, e3⟩ := h
      subst e2; subst e3
      exact ⟨[], (List.append_nil _).symm, fun B hB => hB⟩
    | some p =>
      obtain ⟨row, col⟩ := p
      simp only [solveRecursive, hf] at h
      exact solveLoop_replay (solveRecursive fuel) row col
        (fun b st r b' st' h => solveRecursive_replay fuel b st r b' st' h)
        _ b st r b' st' (findEmpty_some hf) h

theorem animateSolveSteps_board :
    ∀ (steps : List Step) (s : Game), s.isSolving = true →
      (animateSolveSteps steps s).board = steps.foldl applyStep s.board ∧
      (animateSolveSteps steps s).isSolving = false ∧
      (animateSolveSteps steps s).gameState = .complete ∧
      (animateSolveSteps steps s).score = 0
  | [], s, _ => ⟨rfl, rfl, rfl, rfl⟩
  | step :: rest, s, hs => by
    have hc : ¬ ((!s.isSolving) = true) := by rw [hs]; decide
    rw [animateSolveSteps, if_neg hc, List.foldl]
    exact animateSolveSteps_board rest { s with board := applyStep s.board step } hs

/-- Claim C23.  For every game state in which an auto-solve is running, the
recording solver run on a copy of the board returns a result; it returns true
whenever the puzzle has a solution; and whenever it returns true, applying the
recorded steps in order to the board (the cell set to `num` for a `try` or a
`place` step, to `0` for a `backtrack` step), as `animateSolveSteps` does,
ends in exactly the grid the solver left in its own board, which is full. -/
theorem animateSolveSteps_replays (n : Nat) (s : Game) (hs : s.isSolving = true) :
    ∃ r b' steps, generateSolveSteps (82 + n) s.board.copyGrid [] = some (r, b', steps) ∧
      solveWithAnimation (82 + n) s = some (animateSolveSteps steps s) ∧
      ((∃ S, IsSolution S ∧ Agrees s.board.grid S) → r = true) ∧
      (r = true →
        (steps.foldl applyStep s.board).grid = b'.grid ∧
        (animateSolveSteps steps s).board.grid = b'.grid ∧
        Full b'.grid) := by
  obtain ⟨r, b', steps, heq, hpost⟩ := solveRecursive_spec (82 + n)
    (SudokuBoard.new.loadGrid s.board.copyGrid) []
    (by have := countEmpty_le (SudokuBoard.new.loadGrid s.board.copyGrid); omega)
  have hgen : generateSolveSteps (82 + n) s.board.copyGrid [] = some (r, b', steps) := heq
  obtain ⟨new, hnew, hsim⟩ := solveRecursive_replay _ _ _ _ _ _ heq
  rw [List.nil_append] at hnew
  subst hnew
  refine ⟨r, b', steps, hgen, ?_, fun ⟨S, hS, hag⟩ => ?_, fun hr => ?_⟩
  · simp only [solveWithAnimation, hgen]
  · cases r with
    | true => rfl
    | false => exact absurd hag ((hpost.1 rfl).2 S hS)
  · obtain ⟨_, hfull, _⟩ := hpost.2 hr
    have hag : Agrees b'.grid (steps.foldl applyStep s.board).grid :=
      hsim s.board (fun _ _ _ => rfl)
    have hgrid : (steps.foldl applyStep s.board).grid = b'.grid := by
      funext r c
      exact hag r c (hfull r c)
    refine ⟨hgrid, ?_, hfull⟩
    rw [(animateSolveSteps_board steps s hs).1]
    exact hgrid

theorem animateSolveSteps_replays_witness :
    ∃ r b' steps,
      generateSolveSteps (82 + 0) ({ diagonalGame with isSolving := true } : Game).board.copyGrid
        [] = some (r, b', steps) ∧
      solveWithAnimation (82 + 0) { diagonalGame with isSolving := true } =
        some (animateSolveSteps steps { diagonalGame with isSolving := true }) ∧
      ((∃ S, IsSolution S ∧
        Agrees ({ diagonalGame with isSolving := true } : Game).board.grid S) → r = true) ∧
      (r = true →
        (steps.foldl applyStep ({ diagonalGame with isSolving := true } : Game).board).grid =
          b'.grid ∧
        (animateSolveSteps steps { diagonalGame with isSolving := true }).board.grid = b'.grid ∧
        Full b'.grid) :=
  animateSolveSteps_replays 0 { diagonalGame with isSolving := true } rfl

end Sudoku

/-! ## Properties of the Solitaire history -/

namespace Solitaire

theorem pops_length : ∀ (n : Nat) (deck : List Card),
    (pops n deck).1.length = min n deck.length ∧ (pops n deck).2.length = deck.length - n
  | 0, deck => by simp [pops]
  | n + 1, deck => by
    unfold pops
    cases h : deck.getLast? with
    | none =>
      have : deck = [] := List.getLast?_eq_none_iff.1 h
      subst this
      simp
    | some card =>
      obtain ⟨h1, h2⟩ := pops_length n deck.dropLast
      have hne : deck ≠ [] := by
        intro e; rw [e] at h; exact nomatch h
      have hpos : 0 < deck.length := List.length_pos.2 hne
      simp only [List.length_cons, h1, h2, List.length_dropLast]
      omega

theorem deal_length : ∀ (n col : Nat) (deck : List Card) (tableau : List (List Card)),
    (deal n col deck tableau).2.length = deck.length - (n * col + n * (n + 1) / 2)
  | 0, _, deck, _ => by simp [deal]
  | n + 1, col, deck, tableau => by
    unfold deal
    dsimp only
    rw [deal_length n (col + 1), (pops_length (col + 1) deck).2]
    have h1 : (n + 1) * (n + 1 + 1) / 2 = n * (n + 1) / 2 + (n + 1) := by
      have : (n + 1) * (n + 1 + 1) = n * (n + 1) + 2 * (n + 1) := by ring
      rw [this, Nat.add_mul_div_left _ _ (by decide : 0 < 2)]
    rw [h1]
    have h2 : (n + 1) * col = n * col + col := by ring
    have h3 : n * (col + 1) = n * col + n := by ring
    rw [h2, h3]
    omega

theorem createDeck_length : createDeck.length = 52 := by
  simp [createDeck, SUITS]

theorem initGame_stock_length (rnd : Nat → Nat) (k : Nat) :
    (initGame rnd k).1.stock.length = 24 := by
  have hlen : (shuffle rnd createDeck k).1.length = 52 := by
    rw [shuffle, (Sudoku.shuffleLoop_perm rnd _ createDeck k).length_eq, createDeck_length]
  simp only [initGame, pushHistory]
  rw [(pops_length _ _).1, deal_length, hlen]
  norm_num

/-- Two draws from the stock followed by an undo: the state is the one before
the first draw, not the one before the second. -/
theorem undo_two_draws (g : Game) (c1 c2 : Card) (rest : List Card)
    (hstock : g.stock = c1 :: c2 :: rest) :
    (onStockClick g).moves = g.moves + 1 ∧
    (onStockClick g).stock = c2 :: rest ∧
    (onStockClick g).waste = g.waste ++ [{ c1 with faceUp := true }] ∧
    (onStockClick (onStockClick g)).moves = g.moves + 2 ∧
    popHistoryRestore (onStockClick (onStockClick g)) = pushHistory g := by
  have h1 : onStockClick g =
      { pushHistory g with stock := c2 :: rest,
                           waste := g.waste ++ [{ c1 with faceUp := true }],
                           moves := g.moves + 1 } := by
    simp only [onStockClick, hstock, pushHistory]
  have h2 : onStockClick (onStockClick g) =
      { pushHistory (onStockClick g) with
          stock := rest,
          waste := (g.waste ++ [{ c1 with faceUp := true }]) ++ [{ c2 with faceUp := true }],
          moves := g.moves + 1 + 1 } := by
    rw [h1]
    simp only [onStockClick, pushHistory]
  have h3 : (onStockClick (onStockClick g)).history =
      (g.history ++ [snapshot g]) ++ [snapshot (onStockClick g)] := by
    rw [h2]
    show (onStockClick g).history ++ [snapshot (onStockClick g)] = _
    rw [h1]
    rfl
  refine ⟨by rw [h1], by rw [h1], by rw [h1], by rw [h2], ?_⟩
  unfold popHistoryRestore
  rw [h3, if_neg (by simp)]
  simp only [List.dropLast_concat, List.getLast?_concat]
  rfl

/-- Claim C19, as the code behaves.  From every new game, after two draws from
the stock `popHistoryRestore` does not give back the state before the second
draw (one move made, 23 cards in the stock, one card on the waste): it gives
back the state of the new game (no move made, the 24 cards in the stock, the
waste empty), two moves back. -/
theorem undo_skips_a_move (rnd : Nat → Nat) (k : Nat) :
    (onStockClick (initGame rnd k).1).moves = 1 ∧
    (onStockClick (initGame rnd k).1).stock.length = 23 ∧
    (onStockClick (initGame rnd k).1).waste.length = 1 ∧
    (popHistoryRestore (onStockClick (onStockClick (initGame rnd k).1))).moves = 0 ∧
    (popHistoryRestore (onStockClick (onStockClick (initGame rnd k).1))).stock.length = 24 ∧
    (popHistoryRestore (onStockClick (onStockClick (initGame rnd k).1))).waste = [] ∧
    (popHistoryRestore (onStockClick (onStockClick (initGame rnd k).1))).stock =
      (initGame rnd k).1.stock ∧
    (popHistoryRestore (onStockClick (onStockClick (initGame rnd k).1))).tableau =
      (initGame rnd k).1.tableau := by
  have hlen := initGame_stock_length rnd k
  have hm : (initGame rnd k).1.moves = 0 := rfl
  have hw : (initGame rnd k).1.waste = [] := rfl
  generalize (initGame rnd k).1 = g at hlen hm hw
  obtain ⟨c1, c2, rest, hstock⟩ : ∃ c1 c2 rest, g.stock = c1 :: c2 :: rest := by
    match hs : g.stock with
    | [] => rw [hs] at hlen; exact nomatch hlen
    | [_] => rw [hs] at hlen; simp at hlen
    | c1 :: c2 :: rest => exact ⟨c1, c2, rest, rfl⟩
  obtain ⟨a1, a2, a3, _, a5⟩ := undo_two_draws g c1 c2 rest hstock
  rw [a5]
  refine ⟨by rw [a1, hm], ?_, by rw [a3, hw]; rfl, hm, hlen, hw, rfl, rfl⟩
  rw [a2]
  rw [hstock] at hlen
  simpa using hlen

end Solitaire

/-! ## Properties of the FreeCell foundations -/

namespace FreeCell

set_option maxRecDepth 100000 in
theorem staleDeal_tableau :
    (initGame staleRnd 0 blank).1.tableau.map Stack.toArray =
      [[some ⟨.hearts, 7⟩, some ⟨.hearts, 2⟩, some ⟨.hearts, 3⟩, some ⟨.hearts, 4⟩,
        some ⟨.hearts, 5⟩, some ⟨.spades, 5⟩, some ⟨.hearts, 1⟩],
       [some ⟨.hearts, 8⟩, some ⟨.hearts, 9⟩, some ⟨.hearts, 10⟩, some ⟨.hearts, 11⟩,
        some ⟨.hearts, 12⟩, some ⟨.hearts, 13⟩, some ⟨.diamonds, 4⟩],
       [some ⟨.diamonds, 2⟩, some ⟨.diamonds, 3⟩, some ⟨.diamonds, 1⟩, some ⟨.diamonds, 5⟩,
        some ⟨.diamonds, 6⟩, some ⟨.diamonds, 7⟩, some ⟨.diamonds, 8⟩],
       [some ⟨.diamonds, 9⟩, some ⟨.diamonds, 10⟩, some ⟨.diamonds, 11⟩, some ⟨.diamonds, 12⟩,
        some ⟨.diamonds, 13⟩, some ⟨.clubs, 1⟩, some ⟨.clubs, 2⟩],
       [some ⟨.clubs, 3⟩, some ⟨.clubs, 4⟩, some ⟨.clubs, 5⟩, some ⟨.clubs, 6⟩,
        some ⟨.clubs, 7⟩, some ⟨.clubs, 8⟩],
       [some ⟨.clubs, 9⟩, some ⟨.clubs, 10⟩, some ⟨.clubs, 11⟩, some ⟨.clubs, 12⟩,
        some ⟨.clubs, 13⟩, some ⟨.spades, 1⟩],
       [some ⟨.spades, 2⟩, some ⟨.spades, 3⟩, some ⟨.spades, 4⟩, some ⟨.hearts, 6⟩,
        some ⟨.spades, 6⟩, some ⟨.spades, 7⟩],
       [some ⟨.spades, 8⟩, some ⟨.spades, 9⟩, some ⟨.spades, 10⟩, some ⟨.spades, 11⟩,
        some ⟨.spades, 12⟩, some ⟨.spades, 13⟩]] := by
  decide

set_option maxRecDepth 100000 in
theorem staleClicks_selection :
    (runActions 0 (staleClicks.take 5) (initGame staleRnd 0 blank).1).map
        (fun g => (g.selectedCard, g.selectedSource, g.selectedIndex,
          getCardAt g .tableau 0 6, getCardAt g .freecell 0 0)) =
      some (some ⟨.hearts, 1⟩, some ⟨.tableau, 0⟩, some 6, some ⟨.diamonds, 4⟩,
        some ⟨.hearts, 1⟩) := by
  decide

set_option maxRecDepth 100000 in
theorem staleClicks_foundations :
    (runActions 0 staleClicks (initGame staleRnd 0 blank).1).map foundationArrays =
      some [[some ⟨.diamonds, 4⟩], [], [], []] := by
  decide

/-- Claim C20, as the code behaves.  In the new game dealt by the draws
`staleDraws`, column 0 ends with the 5 of spades and the ace of hearts and
column 1 ends with the 4 of diamonds.  The player clicks the ace of hearts
(which selects it), drags it to free cell 0, drags the 4 of diamonds onto the
5 of spades, and clicks foundation 0: the selection, which no drag clears, is
still the ace of hearts at position 6 of column 0, where the 4 of diamonds now
lies, so `tryMoveToFoundation` accepts the ace and `performMove` pops the 4 of
diamonds onto the hearts foundation. -/
theorem foundation_takes_wrong_card :
    (initGame staleRnd 0 blank).1.tableau.map Stack.toArray =
      [[some ⟨.hearts, 7⟩, some ⟨.hearts, 2⟩, some ⟨.hearts, 3⟩, some ⟨.hearts, 4⟩,
        some ⟨.hearts, 5⟩, some ⟨.spades, 5⟩, some ⟨.hearts, 1⟩],
       [some ⟨.hearts, 8⟩, some ⟨.hearts, 9⟩, some ⟨.hearts, 10⟩, some ⟨.hearts, 11⟩,
        some ⟨.hearts, 12⟩, some ⟨.hearts, 13⟩, some ⟨.diamonds, 4⟩],
       [some ⟨.diamonds, 2⟩, some ⟨.diamonds, 3⟩, some ⟨.diamonds, 1⟩, some ⟨.diamonds, 5⟩,
        some ⟨.diamonds, 6⟩, some ⟨.diamonds, 7⟩, some ⟨.diamonds, 8⟩],
       [some ⟨.diamonds, 9⟩, some ⟨.diamonds, 10⟩, some ⟨.diamonds, 11⟩, some ⟨.diamonds, 12⟩,
        some ⟨.diamonds, 13⟩, some ⟨.clubs, 1⟩, some ⟨.clubs, 2⟩],
       [some ⟨.clubs, 3⟩, some ⟨.clubs, 4⟩, some ⟨.clubs, 5⟩, some ⟨.clubs, 6⟩,
        some ⟨.clubs, 7⟩, some ⟨.clubs, 8⟩],
       [some ⟨.clubs, 9⟩, some ⟨.clubs, 10⟩, some ⟨.clubs, 11⟩, some ⟨.clubs, 12⟩,
        some ⟨.clubs, 13⟩, some ⟨.spades, 1⟩],
       [some ⟨.spades, 2⟩, some ⟨.spades, 3⟩, some ⟨.spades, 4⟩, some ⟨.hearts, 6⟩,
        some ⟨.spades, 6⟩, some ⟨.spades, 7⟩],
       [some ⟨.spades, 8⟩, some ⟨.spades, 9⟩, some ⟨.spades, 10⟩, some ⟨.spades, 11⟩,
        some ⟨.spades, 12⟩, some ⟨.spades, 13⟩]] ∧
    (runActions 0 (staleClicks.take 5) (initGame staleRnd 0 blank).1).map
        (fun g => (g.selectedCard, g.selectedSource, g.selectedIndex,
          getCardAt g .tableau 0 6, getCardAt g .freecell 0 0)) =
      some (some ⟨.hearts, 1⟩, some ⟨.tableau, 0⟩, some 6, some ⟨.diamonds, 4⟩,
        some ⟨.hearts, 1⟩) ∧
    (runActions 0 staleClicks (initGame staleRnd 0 blank).1).map foundationArrays =
      some [[some ⟨.diamonds, 4⟩], [], [], []] :=
  ⟨staleDeal_tableau, staleClicks_selection, staleClicks_foundations⟩

end FreeCell
